import Mathlib

/-!
The file grafo.c: lexicographic search order and greedy colouring.

A shallow embedding of `src/grafo.c`.

Data model.  A `vertice` pointer is modelled by the position of the vertex in
`g->vertices` (the insertion-ordered list), so pointer equality `ve == v` is
equality of positions.  The per-vertex fields live in the list `vertices`.
An `aresta` holds the positions of its two endpoints.  The lists
`entrada`/`saida` of a vertex are never read by any function modelled here
and are left out.  A `grafo` value stands for a non-NULL pointer, so the
guards `if(!g) err_exit(...)` are never taken.

Machine integers.  `unsigned int` values are natural numbers; the only
subtractions (`tam_g -= 1`, `tam - 1`) are taken modulo `2^32`, and the
field `tam` of a list is its length modulo `2^32`.

Undefined behaviour.  A function whose C text would dereference NULL or an
uninitialised pointer, or index an array out of range, returns `none`.
The array `v` is a `List (Option Nat)`: `none` is a slot never written.
-/

namespace Lexicographic

/-- Number of values of an `unsigned int`. -/
def UINT_MOD : Nat := 4294967296

/-- Subtraction of `unsigned int` values (`a - b` wraps around below zero). -/
def usub (a b : Nat) : Nat := (a + (UINT_MOD - b % UINT_MOD)) % UINT_MOD

/-- The struct `vertice`: name, colour, label and visited flag. -/
structure vertice where
  nome : String
  cor : Nat
  rotulo : Nat
  visitado : Nat
  deriving DecidableEq

/-- The struct `aresta`: an ordered pair of vertex pointers. -/
structure aresta where
  origem : Nat
  destino : Nat
  deriving DecidableEq

/-- The struct `grafo`: a name, the vertices in insertion order, the edges in
insertion order. -/
structure grafo where
  nome : String
  vertices : List vertice
  arestas : List aresta

/-- The field `tam` of a `lista`: an `unsigned int` counting the nodes. -/
def tam {α : Type} (l : List α) : Nat := l.length % UINT_MOD

/-- The function `cria_vertice`: colour, label and visited flag start at 0. -/
def cria_vertice (nome : String) : vertice :=
  { nome := nome, cor := 0, rotulo := 0, visitado := 0 }

/-- Assignment through a vertex pointer: `f` is applied to the vertex at
position `h` (no vertex is touched when `h` is not a position of the list). -/
def atualiza (f : vertice → vertice) : Nat → List vertice → List vertice
  | _, [] => []
  | 0, x :: xs => f x :: xs
  | h + 1, x :: xs => x :: atualiza f h xs

/-- The function `busca_aresta`: 1 when an edge with the same ordered pair
`(origem, destino)` is stored, 0 otherwise. -/
def busca_aresta (g : grafo) (a : aresta) : Nat :=
  match g.arestas.find? (fun e => a.origem = e.origem ∧ a.destino = e.destino) with
  | some _ => 1
  | none => 0

/-- The edge insertion of `le_grafo` (lines 365-380): the candidate pair is
appended to `g->arestas` only when `busca_aresta` does not find it. -/
def le_grafo_aresta (g : grafo) (origem destino : Nat) : grafo :=
  let e : aresta := { origem := origem, destino := destino }
  if busca_aresta g e = 0 then { g with arestas := g.arestas ++ [e] } else g

/-- The function `busca_vertice`: scans `g->vertices` for the pointer `v` and
returns it, or NULL (`none`) when it is not a vertex of `g`. -/
def busca_vertice (g : grafo) (v : Nat) : Option Nat :=
  (List.range g.vertices.length).find? (fun ve => ve = v)

/-- The scan of `rotulo_maximo`: `i` is the position of the head of the list,
`ve` the best unvisited vertex so far (its position and its contents). -/
def rotulo_maximo_varre : List vertice → Nat → Option (Nat × vertice) → Option (Nat × vertice)
  | [], _, ve => ve
  | vr :: resto, i, ve =>
    if vr.visitado = 0 then
      match ve with
      | none => rotulo_maximo_varre resto (i + 1) (some (i, vr))
      | some (b, vb) =>
        if vr.rotulo > vb.rotulo then rotulo_maximo_varre resto (i + 1) (some (i, vr))
        else rotulo_maximo_varre resto (i + 1) (some (b, vb))
    else rotulo_maximo_varre resto (i + 1) ve

/-- The function `rotulo_maximo`: the selected vertex (or NULL) and the list
with that vertex marked visited. -/
def rotulo_maximo (vs : List vertice) : Option Nat × List vertice :=
  match rotulo_maximo_varre vs 0 none with
  | none => (none, vs)
  | some (h, _) => (some h, atualiza (fun x => { x with visitado := 1 }) h vs)

/-- The function `n_vertices`: the field `tam` cast to `int`. -/
def n_vertices (g : grafo) : Int :=
  if tam g.vertices < 2147483648 then (tam g.vertices : Int)
  else (tam g.vertices : Int) - 4294967296

/-- The scan of `vertice_de_nome`; `i` is the position of the head. -/
def vertice_de_nome_varre (nome : String) : List vertice → Nat → Option Nat
  | [], _ => none
  | ve :: resto, i =>
    if nome = ve.nome then some i else vertice_de_nome_varre nome resto (i + 1)

/-- The function `vertice_de_nome`: first vertex whose name is `nome`. -/
def vertice_de_nome (nome : String) (g : grafo) : Option Nat :=
  vertice_de_nome_varre nome g.vertices 0

/-- The function `cor`: the colour of the vertex found by `busca_vertice`
(`none` when the search returns NULL, which the C text dereferences). -/
def cor (v : Nat) (g : grafo) : Option Nat :=
  match busca_vertice g v with
  | none => none
  | some ve => (g.vertices[ve]?).map (fun x => x.cor)

/-- The label read through a vertex pointer. -/
def rotulo_de (vs : List vertice) (h : Nat) : Nat :=
  match vs[h]? with
  | some x => x.rotulo
  | none => 0

/-- First edge loop of `busca_lexicografica` (lines 456-464): the label of
every vertex joined to `ve` is overwritten with `tam_g`. -/
def rotula_raiz (ve tam_g : Nat) (arestas : List aresta) (vs : List vertice) : List vertice :=
  arestas.foldl (fun vs ar =>
    if ve = ar.origem then atualiza (fun x => { x with rotulo := tam_g }) ar.destino vs
    else if ve = ar.destino then atualiza (fun x => { x with rotulo := tam_g }) ar.origem vs
    else vs) vs

/-- Edge loop inside the main loop (lines 472-482): the label of a vertex
joined to `ve` is raised to `tam_g` when `tam_g` is greater. -/
def rotula (ve tam_g : Nat) (arestas : List aresta) (vs : List vertice) : List vertice :=
  arestas.foldl (fun vs ar =>
    if ve = ar.origem then
      if tam_g > rotulo_de vs ar.destino then
        atualiza (fun x => { x with rotulo := tam_g }) ar.destino vs
      else vs
    else if ve = ar.destino then
      if tam_g > rotulo_de vs ar.origem then
        atualiza (fun x => { x with rotulo := tam_g }) ar.origem vs
      else vs
    else vs) vs

/-- The `while` loop of `busca_lexicografica` (lines 468-483).  The first
argument bounds the number of iterations; `none` is returned when the bound
is exhausted or when `v[tam_g-1]` is outside the array. -/
def busca_laco : Nat → List aresta → List vertice → List (Option Nat) → Nat →
    Option (List vertice × List (Option Nat))
  | 0, _, _, _, _ => none
  | fuel + 1, arestas, vs, v, tam_g =>
    match rotulo_maximo vs with
    | (none, vs1) => some (vs1, v)
    | (some ve, vs1) =>
      if usub tam_g 1 < v.length then
        busca_laco fuel arestas (rotula ve (usub tam_g 1) arestas vs1)
          (v.set (usub tam_g 1) (some ve)) (usub tam_g 1)
      else none

/-- The function `busca_lexicografica`.  The loop bound `length + 1` is never
exhausted (every iteration marks one more vertex visited). -/
def busca_lexicografica (r : Nat) (g : grafo) (v : List (Option Nat)) :
    Option (grafo × List (Option Nat)) :=
  match busca_vertice g r with
  | none => none
  | some ve =>
    let vs1 := atualiza (fun x => { x with rotulo := tam g.vertices, visitado := 1 }) ve g.vertices
    if usub (tam g.vertices) 1 < v.length then
      match busca_laco (g.vertices.length + 1) g.arestas
          (rotula_raiz ve (usub (tam g.vertices) 1) g.arestas vs1)
          (v.set (usub (tam g.vertices) 1) (some ve)) (usub (tam g.vertices) 1) with
      | none => none
      | some (vs, v2) => some ({ g with vertices := vs }, v2)
    else none

/-- The colour read through a vertex pointer (`none` for an invalid one). -/
def cor_de (vs : List vertice) (h : Nat) : Option Nat :=
  (vs[h]?).map (fun x => x.cor)

/-- The store `disponivel[c] = 0` (`none` when `c` is outside the array). -/
def marca (disponivel : List Nat) (c : Nat) : Option (List Nat) :=
  if c < disponivel.length then some (disponivel.set c 0) else none

/-- Edge loop of `colore` (lines 515-522): the colour of the other endpoint
of every edge at `vr` is marked unavailable. -/
def colore_arestas (vr : Nat) (vs : List vertice) : List aresta → List Nat → Option (List Nat)
  | [], d => some d
  | ar :: resto, d =>
    if vr = ar.destino then
      match cor_de vs ar.origem with
      | none => none
      | some c =>
        match marca d c with
        | none => none
        | some d1 => colore_arestas vr vs resto d1
    else if vr = ar.origem then
      match cor_de vs ar.destino with
      | none => none
      | some c =>
        match marca d c with
        | none => none
        | some d1 => colore_arestas vr vs resto d1
    else colore_arestas vr vs resto d

/-- The loop of lines 524-529: the first `j` in `1..49` with
`disponivel[j]` non-zero. -/
def primeira_cor (disponivel : List Nat) : Option Nat :=
  (List.range' 1 49).find? (fun j => disponivel.getD j 0 ≠ 0)

/-- Body of the `for` loop of `colore` for the index `i` (lines 512-532); the
state is the vertex list and `num_cores`. -/
def colore_passo (arestas : List aresta) (v : List (Option Nat))
    (st : List vertice × Nat) (i : Nat) : Option (List vertice × Nat) :=
  match v[i]? with
  | some (some vr) =>
    if vr < st.1.length then
      let vs1 := atualiza (fun x => { x with cor := 1 }) vr st.1
      match colore_arestas vr vs1 arestas (List.replicate 50 1) with
      | none => none
      | some d =>
        let c := match primeira_cor d with
          | some j => j
          | none => 1
        some (atualiza (fun x => { x with cor := c }) vr vs1, if st.2 < c then c else st.2)
    else none
  | _ => none

/-- The `for` loop of `colore` over a list of indices. -/
def colore_laco (arestas : List aresta) (v : List (Option Nat)) :
    List Nat → List vertice × Nat → Option (List vertice × Nat)
  | [], st => some st
  | i :: is, st =>
    match colore_passo arestas v st i with
    | none => none
    | some st1 => colore_laco arestas v is st1

/-- The function `colore`: the coloured graph and the value returned. -/
def colore (g : grafo) (v : List (Option Nat)) : Option (grafo × Nat) :=
  match v[0]? with
  | some (some vr) =>
    if vr < g.vertices.length then
      match colore_laco g.arestas v (List.range' 1 (tam g.vertices - 1))
          (atualiza (fun x => { x with cor := 1 }) vr g.vertices, 0) with
      | none => none
      | some (vs, num_cores) => some ({ g with vertices := vs }, num_cores)
    else none
  | _ => none

/-- Graphs as `le_grafo` builds them: the number of vertices fits the `int`
returned by `n_vertices`, and both endpoints of every edge are vertices of
the graph. -/
def bem_formado (g : grafo) : Prop :=
  g.vertices.length < 2147483648 ∧
  ∀ ar ∈ g.arestas, ar.origem < g.vertices.length ∧ ar.destino < g.vertices.length

instance (g : grafo) : Decidable (bem_formado g) := by
  unfold bem_formado
  infer_instance

/-- The other endpoints of the edges at `vr`, in the order and with the case
distinction of the edge loops (`vr == destino` is tested first). -/
def outros (vr : Nat) (arestas : List aresta) : List Nat :=
  arestas.filterMap (fun ar =>
    if vr = ar.destino then some ar.origem
    else if vr = ar.origem then some ar.destino
    else none)

/-- The array `v` lists each vertex of `g` exactly once. -/
def lista_vertices (g : grafo) (v : List (Option Nat)) : Prop :=
  v.Perm ((List.range g.vertices.length).map some)

instance (g : grafo) (v : List (Option Nat)) : Decidable (lista_vertices g v) := by
  unfold lista_vertices
  infer_instance

/-- The invariant of `colore` from all-zero colours: after the slots below
`i` have been processed, the vertex in slot `j < i` has a colour between 1
and `min (j+1) 49`, and the vertices of the later slots still have colour 0. -/
def inv_cores (g : grafo) (v : List (Option Nat)) (i : Nat) (st : List vertice × Nat) : Prop :=
  st.1.length = g.vertices.length ∧
  (∀ j h, j < i → v[j]? = some (some h) →
    ∃ c, (st.1.map (fun x => x.cor))[h]? = some c ∧ 1 ≤ c ∧ c ≤ j + 1 ∧ c ≤ 49) ∧
  (∀ j h, i ≤ j → v[j]? = some (some h) → (st.1.map (fun x => x.cor))[h]? = some 0)

/-- Two vertices are adjacent when an edge joins them, in either stored
orientation. -/
def adjacente (g : grafo) (a b : Nat) : Prop :=
  ∃ ar ∈ g.arestas, (ar.origem = a ∧ ar.destino = b) ∨ (ar.origem = b ∧ ar.destino = a)

instance (g : grafo) (a b : Nat) : Decidable (adjacente g a b) := by
  unfold adjacente
  infer_instance

/-- The distinct neighbours of `u`. -/
def vizinhos (g : grafo) (u : Nat) : List Nat :=
  (List.range g.vertices.length).filter (fun w => adjacente g u w)

/-- No edge joins a vertex to itself. -/
def sem_lacos (g : grafo) : Prop := ∀ ar ∈ g.arestas, ar.origem ≠ ar.destino

instance (g : grafo) : Decidable (sem_lacos g) := by
  unfold sem_lacos
  infer_instance

/-- The graph has a proper colouring with the colours `1..k`. -/
def colorivel (g : grafo) (k : Nat) : Prop :=
  ∃ f : Nat → Nat, (∀ u, u < g.vertices.length → 1 ≤ f u ∧ f u ≤ k) ∧
    ∀ ar ∈ g.arestas, f ar.origem ≠ f ar.destino

/-- The number `k` is the chromatic number of `g`. -/
def numero_cromatico (g : grafo) (k : Nat) : Prop :=
  colorivel g k ∧ ∀ j, j < k → ¬ colorivel g j

/-- The invariant of `colore` for a proper colouring: coloured endpoints of
an edge differ, the colours of the slots `1..i-1` are at most `num_cores`,
and `num_cores` is at least 1 once slot 1 is processed. -/
def inv_propria (g : grafo) (v : List (Option Nat)) (i : Nat) (st : List vertice × Nat) : Prop :=
  (∀ ar ∈ g.arestas, ∀ a b, (st.1.map (fun x => x.cor))[ar.origem]? = some a →
    (st.1.map (fun x => x.cor))[ar.destino]? = some b → a ≠ 0 → b ≠ 0 → a ≠ b) ∧
  (∀ j h, 1 ≤ j → j < i → v[j]? = some (some h) →
    ∃ c, (st.1.map (fun x => x.cor))[h]? = some c ∧ c ≤ st.2) ∧
  (2 ≤ i → 1 ≤ st.2)

/-- The list `c` is an induced cycle of `g`: distinct vertices, two of them
adjacent exactly when they are consecutive on the cycle. -/
def ciclo_induzido (g : grafo) (c : List Nat) : Prop :=
  c.Nodup ∧ (∀ x ∈ c, x < g.vertices.length) ∧
  ∀ i j, i < c.length → j < c.length → i ≠ j →
    (adjacente g (c.getD i 0) (c.getD j 0) ↔ (j = (i + 1) % c.length ∨ i = (j + 1) % c.length))

/-- Chordal graph: no induced cycle of length 4 or more. -/
def cordal (g : grafo) : Prop := ∀ c : List Nat, 4 ≤ c.length → ¬ ciclo_induzido g c

/-- The condition of a lexicographic breadth-first order on the vertices at
the positions `i < j < k` of the visit sequence `s`. -/
def lexbfs_tripla (g : grafo) (s : List Nat) (i j k : Nat) : Prop :=
  adjacente g (s.getD i 0) (s.getD k 0) → ¬ adjacente g (s.getD i 0) (s.getD j 0) →
  ∃ l, l < i ∧ adjacente g (s.getD l 0) (s.getD j 0) ∧ ¬ adjacente g (s.getD l 0) (s.getD k 0)

instance (g : grafo) (s : List Nat) (i j k : Nat) : Decidable (lexbfs_tripla g s i j k) := by
  unfold lexbfs_tripla
  infer_instance

/-- The visit sequence `s` (first visited first) is a lexicographic
breadth-first order of `g`: for `a`, `b`, `c` visited in that order with `a`
adjacent to `c` and not to `b`, some vertex visited before `a` is adjacent
to `b` and not to `c`. -/
def ordem_lexbfs (g : grafo) (s : List Nat) : Prop :=
  ∀ k, k < s.length → ∀ j, j < k → ∀ i, i < j → lexbfs_tripla g s i j k

instance (g : grafo) (s : List Nat) : Decidable (ordem_lexbfs g s) := by
  unfold ordem_lexbfs
  infer_instance

/-- The visit sequence held by `v`: slot `n-1` first, slot 0 last. -/
def ordem_de_visita (v : List (Option Nat)) : List Nat :=
  v.reverse.filterMap id

/-- Number of distinct colours held by the vertices. -/
def cores_distintas (g : grafo) : Nat :=
  ((g.vertices.map (fun x => x.cor)).dedup).length

/-- Largest colour held by a vertex. -/
def maior_cor (g : grafo) : Nat :=
  (g.vertices.map (fun x => x.cor)).foldl max 0

/-- The path A - B - C - D. -/
def caminho4 : grafo :=
  { nome := "P4",
    vertices := [cria_vertice "A", cria_vertice "B", cria_vertice "C", cria_vertice "D"],
    arestas := [⟨0, 1⟩, ⟨1, 2⟩, ⟨2, 3⟩] }

/-- A vertex X joined to Y, P and Q, with Y also joined to Q. -/
def leque4 : grafo :=
  { nome := "F4",
    vertices := [cria_vertice "X", cria_vertice "Y", cria_vertice "P", cria_vertice "Q"],
    arestas := [⟨0, 1⟩, ⟨0, 2⟩, ⟨0, 3⟩, ⟨1, 3⟩] }

/-- A graph with the single vertex A. -/
def um_vertice : grafo :=
  { nome := "K1", vertices := [cria_vertice "A"], arestas := [] }

/-- Two vertices A and B and no edge. -/
def dois_isolados : grafo :=
  { nome := "E2", vertices := [cria_vertice "A", cria_vertice "B"], arestas := [] }

/-- The complete graph on `n` vertices, each edge stored once. -/
def completo (n : Nat) : grafo :=
  { nome := "K",
    vertices := (List.range n).map (fun i => cria_vertice (toString i)),
    arestas := (List.range n).flatMap (fun j => (List.range j).map (fun i => ⟨i, j⟩)) }

/-- The invariant of `colore` on the complete graph on 50 vertices with the
vertices in insertion order: slot `j <= 48` gets colour `j+1`, slot 49 gets
colour 1, and `num_cores` follows the largest colour. -/
def inv_completo (i : Nat) (st : List vertice × Nat) : Prop :=
  (∀ j, j < i → j ≤ 48 → (st.1.map (fun x => x.cor))[j]? = some (j + 1)) ∧
  (i = 50 → (st.1.map (fun x => x.cor))[49]? = some 1) ∧
  st.2 = if i = 1 then 0 else min i 49

/-- A single vertex A with an edge from A to A. -/
def laco1 : grafo :=
  { nome := "L1", vertices := [cria_vertice "A"], arestas := [⟨0, 0⟩] }

/-- The colour, in the colour list `C`, of the vertex held by slot `j` of `v`. -/
def cor_slot (C : List Nat) (v : List (Option Nat)) (j : Nat) : Nat :=
  match v[j]? with
  | some (some u) => C.getD u 0
  | _ => 0

/-- The value of `num_cores` when the loop of `colore` reaches the index `i`:
the largest colour among the slots `1..i-1`. -/
def maior_ate (C : List Nat) (v : List (Option Nat)) : Nat → Nat
  | 0 => 0
  | i + 1 => if i = 0 then 0 else max (maior_ate C v i) (cor_slot C v i)

/-- First-fit invariant of `colore`: the colour of slot `k` (`1 <= k < i`) is
at most every colour of `1..49` that no neighbour in an earlier slot holds,
and, when there is such a colour, no neighbour in an earlier slot holds it. -/
def inv_minimo (g : grafo) (v : List (Option Nat)) (i : Nat) (st : List vertice × Nat) : Prop :=
  ∀ k u cu, 1 ≤ k → k < i → v[k]? = some (some u) →
    (st.1.map (fun x => x.cor))[u]? = some cu →
    ∀ c, 1 ≤ c → c ≤ 49 →
      (∀ l w, l < k → v[l]? = some (some w) → adjacente g u w →
        (st.1.map (fun x => x.cor))[w]? ≠ some c) →
      cu ≤ c ∧ ∀ l w, l < k → v[l]? = some (some w) → adjacente g u w →
        (st.1.map (fun x => x.cor))[w]? ≠ some cu

/-- Saturation invariant of `colore`: a slot `k` (`1 <= k < i`) whose
neighbours in earlier slots hold every colour of `1..49` has colour 1. -/
def inv_cheio (g : grafo) (v : List (Option Nat)) (i : Nat) (st : List vertice × Nat) : Prop :=
  ∀ k u, 1 ≤ k → k < i → v[k]? = some (some u) →
    (∀ c, 1 ≤ c → c ≤ 49 → ∃ l w, l < k ∧ v[l]? = some (some w) ∧ adjacente g u w ∧
      (st.1.map (fun x => x.cor))[w]? = some c) →
    (st.1.map (fun x => x.cor))[u]? = some 1

/-- Counter invariant of `colore`: `num_cores` is the largest colour among
the slots `1..i-1`. -/
def inv_conta (v : List (Option Nat)) (i : Nat) (st : List vertice × Nat) : Prop :=
  st.2 = maior_ate (st.1.map (fun x => x.cor)) v i

/-- Complete graph: every two distinct vertices are adjacent. -/
def grafo_completo (g : grafo) : Prop :=
  ∀ a, a < g.vertices.length → ∀ b, b < g.vertices.length → a ≠ b → adjacente g a b

instance (g : grafo) : Decidable (grafo_completo g) := by
  unfold grafo_completo
  infer_instance

/-- The triangle A - B - C. -/
def triangulo : grafo :=
  { nome := "K3",
    vertices := [cria_vertice "A", cria_vertice "B", cria_vertice "C"],
    arestas := [⟨0, 1⟩, ⟨1, 2⟩, ⟨2, 0⟩] }

/-- Invariant of the `while` loop of `busca_lexicografica` at the loop head,
with the slots `t..n-1` of `v` filled: a vertex is visited exactly when it is
in a filled slot; the label of a vertex is at least the position of each of
its placed neighbours; a positive label of an unvisited vertex is the
position of a placed neighbour; and whenever the vertex in slot `a` has a
neighbour that is not in the slots from `b < a` up, the vertex in slot `b`
has a neighbour in a slot `a2 >= a`. -/
def inv_largura (g : grafo) (vs : List vertice) (v : List (Option Nat)) (t : Nat) : Prop :=
  vs.length = g.vertices.length ∧ v.length = g.vertices.length ∧ t ≤ g.vertices.length ∧
  (∀ y, y < g.vertices.length →
    ((vs.map (fun x => x.visitado))[y]? ≠ some 0 ↔ ∃ k, t ≤ k ∧ v[k]? = some (some y))) ∧
  (∀ k z y, t ≤ k → v[k]? = some (some z) → adjacente g z y → k ≤ rotulo_de vs y) ∧
  (∀ y, y < g.vertices.length → (vs.map (fun x => x.visitado))[y]? = some 0 →
    1 ≤ rotulo_de vs y →
    t ≤ rotulo_de vs y ∧ ∃ z, v[rotulo_de vs y]? = some (some z) ∧ adjacente g z y) ∧
  (∀ a b z x y, t ≤ b → b < a → v[a]? = some (some z) → v[b]? = some (some x) →
    adjacente g z y → (∀ k, b ≤ k → v[k]? ≠ some (some y)) →
    ∃ a2 z2, a ≤ a2 ∧ v[a2]? = some (some z2) ∧ adjacente g z2 x)

/-- The vertex `u` is at graph distance at most `d` from `r`. -/
def dentro (g : grafo) (r : Nat) : Nat → Nat → Bool
  | 0, u => decide (u = r)
  | d + 1, u =>
    dentro g r d u ||
      (List.range g.vertices.length).any (fun z => dentro g r d z && decide (adjacente g z u))

/-- The list `p` lists the vertices of `g` in the order of a path: every
vertex occurs once, and two vertices are adjacent exactly when they are
consecutive in `p`. -/
def caminho_em (g : grafo) (p : List Nat) : Prop :=
  p.Perm (List.range g.vertices.length) ∧
  ∀ i, i < g.vertices.length → ∀ j, j < g.vertices.length →
    (adjacente g (p.getD i 0) (p.getD j 0) ↔ (i + 1 = j ∨ j + 1 = i))

instance (g : grafo) (p : List Nat) : Decidable (caminho_em g p) := by
  unfold caminho_em
  infer_instance

/-! ## Lemmas and theorems -/

theorem atualiza_length (f : vertice → vertice) (h : Nat) (vs : List vertice) :
    (atualiza f h vs).length = vs.length := by
  induction vs generalizing h with
  | nil => simp [atualiza]
  | cons x xs ih => cases h <;> simp [atualiza, ih]

theorem atualiza_getElem? (f : vertice → vertice) (h : Nat) (vs : List vertice) (k : Nat) :
    (atualiza f h vs)[k]? = if k = h then (vs[k]?).map f else vs[k]? := by
  induction vs generalizing h k with
  | nil => simp [atualiza]
  | cons x xs ih =>
    cases h with
    | zero => cases k <;> simp [atualiza]
    | succ h => cases k <;> simp [atualiza, ih]

theorem busca_aresta_eq (g : grafo) (a : aresta) :
    busca_aresta g a = if a ∈ g.arestas then 1 else 0 := by
  unfold busca_aresta
  by_cases h : a ∈ g.arestas
  · have : (g.arestas.find? (fun e => a.origem = e.origem ∧ a.destino = e.destino)).isSome = true := by
      rw [List.find?_isSome]
      exact ⟨a, h, by simp⟩
    rw [if_pos h]
    cases hf : g.arestas.find? (fun e => a.origem = e.origem ∧ a.destino = e.destino) with
    | none => rw [hf] at this; simp at this
    | some e => rfl
  · have : g.arestas.find? (fun e => a.origem = e.origem ∧ a.destino = e.destino) = none := by
      rw [List.find?_eq_none]
      intro e he hp
      simp at hp
      apply h
      have : a = e := by
        cases a; cases e; simp at hp; simp [hp]
      rw [this]; exact he
    rw [this, if_neg h]

theorem le_grafo_aresta_arestas (g : grafo) (o d : Nat) :
    (le_grafo_aresta g o d).arestas =
      if (⟨o, d⟩ : aresta) ∈ g.arestas then g.arestas else g.arestas ++ [⟨o, d⟩] := by
  unfold le_grafo_aresta
  simp only [busca_aresta_eq]
  by_cases h : (⟨o, d⟩ : aresta) ∈ g.arestas <;> simp [h]

theorem le_grafo_aresta_nodup (g : grafo) (o d : Nat) (h : g.arestas.Nodup) :
    (le_grafo_aresta g o d).arestas.Nodup := by
  rw [le_grafo_aresta_arestas]
  by_cases hm : (⟨o, d⟩ : aresta) ∈ g.arestas
  · simpa [hm] using h
  · simp only [hm, if_false]
    rw [List.nodup_append]
    refine ⟨h, by simp, ?_⟩
    intro a ha hb
    simp at hb
    subst hb
    exact hm ha

theorem foldl_le_grafo_aresta_nodup (ps : List (Nat × Nat)) (g : grafo) (h : g.arestas.Nodup) :
    (ps.foldl (fun g p => le_grafo_aresta g p.1 p.2) g).arestas.Nodup := by
  induction ps generalizing g with
  | nil => simpa using h
  | cons p ps ih =>
    simp only [List.foldl_cons]
    exact ih _ (le_grafo_aresta_nodup g p.1 p.2 h)

/-- C8: edge insertion as done by `le_grafo` keeps the stored ordered pairs
pairwise distinct from an empty edge list on; `busca_aresta` answers 1 exactly
for a stored pair; inserting a stored pair leaves the edge list and its length
unchanged, inserting a new pair appends it at the end and adds one to the
length; the vertices are untouched. -/
theorem le_grafo_aresta_deduplica (nm : String) (vs : List vertice) (ps : List (Nat × Nat))
    (g : grafo) (o d : Nat) :
    (ps.foldl (fun g p => le_grafo_aresta g p.1 p.2)
        { nome := nm, vertices := vs, arestas := [] }).arestas.Nodup ∧
    (busca_aresta g ⟨o, d⟩ = if (⟨o, d⟩ : aresta) ∈ g.arestas then 1 else 0) ∧
    ((le_grafo_aresta g o d).arestas =
      if (⟨o, d⟩ : aresta) ∈ g.arestas then g.arestas else g.arestas ++ [⟨o, d⟩]) ∧
    ((le_grafo_aresta g o d).arestas.length =
      if (⟨o, d⟩ : aresta) ∈ g.arestas then g.arestas.length else g.arestas.length + 1) ∧
    (le_grafo_aresta g o d).vertices = g.vertices := by
  refine ⟨foldl_le_grafo_aresta_nodup ps _ (by simp), busca_aresta_eq g _,
    le_grafo_aresta_arestas g o d, ?_, ?_⟩
  · rw [le_grafo_aresta_arestas]
    by_cases h : (⟨o, d⟩ : aresta) ∈ g.arestas <;> simp [h]
  · unfold le_grafo_aresta
    by_cases h : busca_aresta g ⟨o, d⟩ = 0 <;> simp [h]

theorem vertice_de_nome_varre_none (nome : String) (l : List vertice) (i : Nat) :
    vertice_de_nome_varre nome l i = none ↔ ∀ ve ∈ l, ve.nome ≠ nome := by
  induction l generalizing i with
  | nil => simp [vertice_de_nome_varre]
  | cons x xs ih =>
    unfold vertice_de_nome_varre
    by_cases h : nome = x.nome
    · simp [h]
    · simp only [h, if_false, ih, List.mem_cons, forall_eq_or_imp]
      constructor
      · intro hx; exact ⟨fun e => h e.symm, hx⟩
      · intro hx; exact hx.2

theorem vertice_de_nome_varre_some (nome : String) (l : List vertice) (i k : Nat) :
    vertice_de_nome_varre nome l i = some k ↔
      i ≤ k ∧ (∃ ve, l[k - i]? = some ve ∧ ve.nome = nome) ∧
        ∀ j, j < k - i → ∀ vj, l[j]? = some vj → vj.nome ≠ nome := by
  induction l generalizing i k with
  | nil => simp [vertice_de_nome_varre]
  | cons x xs ih =>
    unfold vertice_de_nome_varre
    by_cases h : nome = x.nome
    · simp only [h, if_true, Option.some.injEq]
      constructor
      · intro e; subst e; simp
      · rintro ⟨hik, ⟨ve, hve, hn⟩, hmin⟩
        by_contra hne
        have hpos : 0 < k - i := by omega
        exact hmin 0 hpos x (by simp) rfl
    · simp only [h, if_false, ih]
      constructor
      · rintro ⟨hik, ⟨ve, hve, hn⟩, hmin⟩
        refine ⟨by omega, ⟨ve, ?_, hn⟩, ?_⟩
        · have : k - i = (k - (i + 1)) + 1 := by omega
          rw [this]; simpa using hve
        · intro j hj vj hvj
          cases j with
          | zero => simp at hvj; subst hvj; exact fun e => h e.symm
          | succ j => exact hmin j (by omega) vj (by simpa using hvj)
      · rintro ⟨hik, ⟨ve, hve, hn⟩, hmin⟩
        have hne : k ≠ i := by
          intro e; subst e
          simp at hve; subst hve; exact h hn.symm
        refine ⟨by omega, ⟨ve, ?_, hn⟩, ?_⟩
        · have : k - i = (k - (i + 1)) + 1 := by omega
          rw [this] at hve; simpa using hve
        · intro j hj vj hvj
          exact hmin (j + 1) (by omega) vj (by simpa using hvj)

/-- C9: `vertice_de_nome` returns NULL exactly when no vertex of `g` has the
name, and otherwise the first vertex, in insertion order, whose name is equal
to `nome`. -/
theorem vertice_de_nome_primeiro (nome : String) (g : grafo) (k : Nat) :
    (vertice_de_nome nome g = none ↔ ∀ ve ∈ g.vertices, ve.nome ≠ nome) ∧
    (vertice_de_nome nome g = some k ↔
      (∃ ve, g.vertices[k]? = some ve ∧ ve.nome = nome) ∧
        ∀ j, j < k → ∀ vj, g.vertices[j]? = some vj → vj.nome ≠ nome) := by
  unfold vertice_de_nome
  refine ⟨vertice_de_nome_varre_none nome g.vertices 0, ?_⟩
  rw [vertice_de_nome_varre_some]
  simp

theorem usub_um (a : Nat) (h1 : 1 ≤ a) (h2 : a < UINT_MOD) : usub a 1 = a - 1 := by
  simp only [usub, UINT_MOD] at *
  omega

theorem tam_eq {α : Type} (l : List α) (h : l.length < UINT_MOD) : tam l = l.length := by
  simp only [tam, UINT_MOD] at *
  omega

theorem atualiza_map_visitado (f : vertice → vertice) (hf : ∀ x, (f x).visitado = x.visitado)
    (h : Nat) (vs : List vertice) :
    (atualiza f h vs).map (fun x => x.visitado) = vs.map (fun x => x.visitado) := by
  induction vs generalizing h with
  | nil => simp [atualiza]
  | cons x xs ih => cases h <;> simp [atualiza, ih, hf]

theorem atualiza_map_cor (f : vertice → vertice) (hf : ∀ x, (f x).cor = x.cor)
    (h : Nat) (vs : List vertice) :
    (atualiza f h vs).map (fun x => x.cor) = vs.map (fun x => x.cor) := by
  induction vs generalizing h with
  | nil => simp [atualiza]
  | cons x xs ih => cases h <;> simp [atualiza, ih, hf]

theorem atualiza_map_set {β : Type} (p : vertice → β) (f : vertice → vertice) (b : β)
    (hf : ∀ x, p (f x) = b) (h : Nat) (vs : List vertice) :
    (atualiza f h vs).map p = (vs.map p).set h b := by
  induction vs generalizing h with
  | nil => simp [atualiza]
  | cons x xs ih => cases h <;> simp [atualiza, ih, hf]

theorem rotula_raiz_map_visitado (ve t : Nat) (arestas : List aresta) (vs : List vertice) :
    (rotula_raiz ve t arestas vs).map (fun x => x.visitado) = vs.map (fun x => x.visitado) := by
  unfold rotula_raiz
  induction arestas generalizing vs with
  | nil => rfl
  | cons ar rest ih =>
    simp only [List.foldl_cons]
    rw [ih]
    split_ifs <;> first | rfl | (apply atualiza_map_visitado; intro x; rfl)

theorem rotula_raiz_map_cor (ve t : Nat) (arestas : List aresta) (vs : List vertice) :
    (rotula_raiz ve t arestas vs).map (fun x => x.cor) = vs.map (fun x => x.cor) := by
  unfold rotula_raiz
  induction arestas generalizing vs with
  | nil => rfl
  | cons ar rest ih =>
    simp only [List.foldl_cons]
    rw [ih]
    split_ifs <;> first | rfl | (apply atualiza_map_cor; intro x; rfl)

theorem rotula_map_visitado (ve t : Nat) (arestas : List aresta) (vs : List vertice) :
    (rotula ve t arestas vs).map (fun x => x.visitado) = vs.map (fun x => x.visitado) := by
  unfold rotula
  induction arestas generalizing vs with
  | nil => rfl
  | cons ar rest ih =>
    simp only [List.foldl_cons]
    rw [ih]
    split_ifs <;> first | rfl | (apply atualiza_map_visitado; intro x; rfl)

theorem rotula_map_cor (ve t : Nat) (arestas : List aresta) (vs : List vertice) :
    (rotula ve t arestas vs).map (fun x => x.cor) = vs.map (fun x => x.cor) := by
  unfold rotula
  induction arestas generalizing vs with
  | nil => rfl
  | cons ar rest ih =>
    simp only [List.foldl_cons]
    rw [ih]
    split_ifs <;> first | rfl | (apply atualiza_map_cor; intro x; rfl)

theorem length_of_map_eq {α β : Type} {p : α → β} {l1 l2 : List α}
    (h : l1.map p = l2.map p) : l1.length = l2.length := by
  have := congrArg List.length h
  simpa using this

/-- What the scan of `rotulo_maximo` returns: nothing when the accumulator is
empty and every vertex is visited, otherwise the accumulator or an unvisited
vertex of the list. -/
theorem rotulo_maximo_varre_spec (l : List vertice) (i : Nat) (acc : Option (Nat × vertice)) :
    (rotulo_maximo_varre l i acc = none ∧ acc = none ∧ ∀ x ∈ l, x.visitado ≠ 0) ∨
    (∃ h x, rotulo_maximo_varre l i acc = some (h, x) ∧
      (acc = some (h, x) ∨ (i ≤ h ∧ l[h - i]? = some x ∧ x.visitado = 0))) := by
  induction l generalizing i acc with
  | nil =>
    cases acc with
    | none => left; simp [rotulo_maximo_varre]
    | some p => right; exact ⟨p.1, p.2, by simp [rotulo_maximo_varre], Or.inl rfl⟩
  | cons vr resto ih =>
    have lift : ∀ acc2 : Option (Nat × vertice),
        (acc2 = acc ∨ acc2 = some (i, vr) ∧ vr.visitado = 0) →
        (acc2 = none → vr.visitado ≠ 0) →
        ((rotulo_maximo_varre resto (i + 1) acc2 = none ∧ acc = none ∧
            ∀ x ∈ vr :: resto, x.visitado ≠ 0) ∨
          (∃ h x, rotulo_maximo_varre resto (i + 1) acc2 = some (h, x) ∧
            (acc = some (h, x) ∨ (i ≤ h ∧ (vr :: resto)[h - i]? = some x ∧ x.visitado = 0)))) := by
      intro acc2 hacc hvis
      rcases ih (i + 1) acc2 with ⟨h1, h2, h3⟩ | ⟨h, x, h1, h2⟩
      · left
        refine ⟨h1, ?_, ?_⟩
        · rcases hacc with e | ⟨e, _⟩
          · rw [← e]; exact h2
          · rw [h2] at e; cases e
        · intro y hy
          rcases List.mem_cons.1 hy with e | hy
          · subst e; exact hvis h2
          · exact h3 y hy
      · right
        refine ⟨h, x, h1, ?_⟩
        rcases h2 with e | ⟨hle, hget, hv⟩
        · rcases hacc with e2 | ⟨e2, hv⟩
          · left; rw [← e2]; exact e
          · right
            rw [e] at e2
            cases e2
            exact ⟨le_refl _, by simp, hv⟩
        · right
          refine ⟨by omega, ?_, hv⟩
          have : h - i = (h - (i + 1)) + 1 := by omega
          rw [this]; simpa using hget
    unfold rotulo_maximo_varre
    by_cases hv : vr.visitado = 0
    · simp only [hv, if_true]
      cases acc with
      | none => exact lift _ (Or.inr ⟨rfl, hv⟩) (by simp)
      | some p =>
        obtain ⟨b, vb⟩ := p
        simp only
        by_cases hgt : vr.rotulo > vb.rotulo
        · simp only [hgt, if_true]
          exact lift _ (Or.inr ⟨rfl, hv⟩) (by simp)
        · simp only [hgt, if_false]
          exact lift _ (Or.inl rfl) (by simp)
    · simp only [hv, if_false]
      exact lift _ (Or.inl rfl) (fun _ => hv)

/-- The two outcomes of `rotulo_maximo`, in terms of the visited flags. -/
theorem rotulo_maximo_spec (vs : List vertice) :
    (rotulo_maximo vs = (none, vs) ∧ ∀ b ∈ vs.map (fun x => x.visitado), b ≠ 0) ∨
    (∃ h, rotulo_maximo vs = (some h, atualiza (fun x => { x with visitado := 1 }) h vs) ∧
      (vs.map (fun x => x.visitado))[h]? = some 0) := by
  unfold rotulo_maximo
  rcases rotulo_maximo_varre_spec vs 0 none with ⟨h1, _, h3⟩ | ⟨h, x, h1, h2⟩
  · left
    rw [h1]
    refine ⟨rfl, ?_⟩
    intro b hb
    rcases List.mem_map.1 hb with ⟨x, hx, e⟩
    rw [← e]; exact h3 x hx
  · right
    rw [h1]
    refine ⟨h, rfl, ?_⟩
    rcases h2 with e | ⟨_, hget, hv⟩
    · cases e
    · simp at hget
      simp [hget, hv]

theorem length_lt_of_nodup_of_not_mem (L : List Nat) (n x : Nat) (hnd : L.Nodup)
    (hL : ∀ h ∈ L, h < n) (hx : x < n) (hxL : x ∉ L) : L.length < n := by
  have hnd2 : (x :: L).Nodup := List.nodup_cons.2 ⟨hxL, hnd⟩
  have hsub : (x :: L) ⊆ List.range n := by
    intro y hy
    rcases List.mem_cons.1 hy with e | hy
    · subst e; exact List.mem_range.2 hx
    · exact List.mem_range.2 (hL y hy)
  have := (List.subperm_of_subset hnd2 hsub).length_le
  simp at this
  omega

theorem length_eq_of_nodup_of_all (L : List Nat) (n : Nat) (hnd : L.Nodup)
    (hL : ∀ h, h ∈ L ↔ h < n) : L.Perm (List.range n) := by
  rw [List.perm_ext_iff_of_nodup hnd (List.nodup_range n)]
  intro a
  rw [hL a, List.mem_range]

theorem busca_laco_spec (arestas : List aresta) (n : Nat) (hn : n < UINT_MOD) :
    ∀ (fuel : Nat) (vs : List vertice) (v : List (Option Nat)) (t : Nat) (L : List Nat),
      vs.length = n → n ≤ v.length → t ≤ n → t < fuel → L.length = n - t →
      (∀ k, t ≤ k → k < n → v[k]? = some (L[k - t]?)) → L.Nodup →
      (∀ h, h ∈ L ↔ ∃ b, (vs.map (fun x => x.visitado))[h]? = some b ∧ b ≠ 0) →
      ∃ (vs1 : List vertice) (v1 : List (Option Nat)) (L1 : List Nat), busca_laco fuel arestas vs v t = some (vs1, v1) ∧
        v1.length = v.length ∧ (∀ k, t ≤ k → v1[k]? = v[k]?) ∧
        L1.length = n ∧ (∀ k, k < n → v1[k]? = some (L1[k]?)) ∧ L1.Nodup ∧
        (∀ h, h ∈ L1 → h < n) ∧
        vs1.map (fun x => x.cor) = vs.map (fun x => x.cor) ∧
        (∀ b ∈ vs1.map (fun x => x.visitado), b ≠ 0) := by
  intro fuel
  induction fuel with
  | zero => intro vs v t L _ _ _ hf; omega
  | succ fuel ih =>
    intro vs v t L hlen hv ht hf hLlen hpt hnd hmem
    have hLlt : ∀ h ∈ L, h < n := by
      intro h hh
      rcases (hmem h).1 hh with ⟨b, hb, _⟩
      have : h < (vs.map (fun x => x.visitado)).length := by
        by_contra hc
        rw [List.getElem?_eq_none (by omega)] at hb
        cases hb
      simpa [hlen] using this
    unfold busca_laco
    rcases rotulo_maximo_spec vs with ⟨hr, hall⟩ | ⟨h, hr, hflag⟩
    · rw [hr]
      have hLall : ∀ h, h ∈ L ↔ h < n := by
        intro h
        constructor
        · exact hLlt h
        · intro hh
          rw [hmem]
          have hh2 : h < (vs.map (fun x => x.visitado)).length := by simpa [hlen] using hh
          refine ⟨(vs.map (fun x => x.visitado))[h], List.getElem?_eq_getElem hh2, ?_⟩
          exact hall _ (List.getElem_mem hh2)
      have hperm := length_eq_of_nodup_of_all L n hnd hLall
      have hLn : L.length = n := by simpa using hperm.length_eq
      have ht0 : t = 0 := by omega
      subst ht0
      exact ⟨vs, v, L, rfl, rfl, fun _ _ => rfl, hLn, fun k hk => hpt k (Nat.zero_le _) hk,
        hnd, hLlt, rfl, hall⟩
    · rw [hr]
      have hhn : h < n := by
        have : h < (vs.map (fun x => x.visitado)).length := by
          by_contra hc
          rw [List.getElem?_eq_none (by omega)] at hflag
          cases hflag
        simpa [hlen] using this
      have hhL : h ∉ L := by
        intro hh
        rcases (hmem h).1 hh with ⟨b, hb, hb0⟩
        rw [hflag] at hb
        cases hb
        exact hb0 rfl
      have hLn := length_lt_of_nodup_of_not_mem L n h hnd hLlt hhn hhL
      have ht1 : 1 ≤ t := by omega
      have hu : usub t 1 = t - 1 := usub_um t ht1 (by omega)
      simp only [hu]
      have hidx : t - 1 < v.length := by omega
      simp only [hidx, if_true]
      have hflags2 : (rotula h (t - 1) arestas
            (atualiza (fun x => { x with visitado := 1 }) h vs)).map (fun x => x.visitado)
          = (vs.map (fun x => x.visitado)).set h 1 := by
        rw [rotula_map_visitado]
        exact atualiza_map_set _ _ 1 (fun _ => rfl) h vs
      have hcor2 : (rotula h (t - 1) arestas
            (atualiza (fun x => { x with visitado := 1 }) h vs)).map (fun x => x.cor)
          = vs.map (fun x => x.cor) := by
        rw [rotula_map_cor]
        apply atualiza_map_cor
        intro x; rfl
      have hlen2 : (rotula h (t - 1) arestas
            (atualiza (fun x => { x with visitado := 1 }) h vs)).length = n := by
        rw [length_of_map_eq hcor2]; exact hlen
      obtain ⟨vs1, v1, L1, hrun, h1, h2, h3, h4, h5, h6, h7, h8⟩ :=
        ih (rotula h (t - 1) arestas (atualiza (fun x => { x with visitado := 1 }) h vs))
          (v.set (t - 1) (some h)) (t - 1) (h :: L) hlen2 (by simpa using hv) (by omega)
          (by omega) (by simp [hLlen]; omega)
          (by
            intro k hk1 hk2
            rw [List.getElem?_set]
            by_cases hk : t - 1 = k
            · subst hk
              simp [hidx]
            · simp only [hk, if_false]
              rw [hpt k (by omega) hk2]
              have : k - (t - 1) = (k - t) + 1 := by omega
              rw [this]
              simp)
          (List.nodup_cons.2 ⟨hhL, hnd⟩)
          (by
            intro x
            rw [hflags2, List.getElem?_set, List.mem_cons]
            by_cases hx : h = x
            · subst hx
              simp [hlen, hhn]
            · simp only [hx, if_false]
              rw [hmem x]
              constructor
              · rintro (e | hh)
                · exact absurd e.symm hx
                · exact hh
              · intro hh; exact Or.inr hh)
      refine ⟨vs1, v1, L1, hrun, ?_, ?_, h3, h4, h5, h6, ?_, h8⟩
      · rw [h1]; simp
      · intro k hk
        rw [h2 k (by omega), List.getElem?_set]
        have : t - 1 ≠ k := by omega
        simp [this]
      · rw [h7, hcor2]

theorem busca_vertice_eq (g : grafo) (r : Nat) (hr : r < g.vertices.length) :
    busca_vertice g r = some r := by
  unfold busca_vertice
  have h1 : ((List.range g.vertices.length).find? (fun ve => decide (ve = r))).isSome = true := by
    rw [List.find?_isSome]
    exact ⟨r, List.mem_range.2 hr, by simp⟩
  cases hf : (List.range g.vertices.length).find? (fun ve => decide (ve = r)) with
  | none => rw [hf] at h1; simp at h1
  | some x =>
    have := List.find?_some hf
    simp at this
    rw [this]

theorem busca_vertice_none (g : grafo) (r : Nat) (hr : g.vertices.length ≤ r) :
    busca_vertice g r = none := by
  unfold busca_vertice
  rw [List.find?_eq_none]
  intro x hx
  have := List.mem_range.1 hx
  simp
  omega

/-- The run of `busca_lexicografica` on a graph whose visited flags are all 0:
it returns, the first `n` slots of `v` hold the positions of a duplicate-free
list `L` of length `n` of vertices of `g`, the root is in slot `n-1`, the slots
from `n` on are untouched, and afterwards every vertex is visited while
colours, edges and the number of vertices are as before. -/
theorem busca_lexicografica_zero (g : grafo) (r : Nat) (v : List (Option Nat))
    (hn : g.vertices.length < UINT_MOD)
    (h0 : ∀ x ∈ g.vertices, x.visitado = 0)
    (hr : r < g.vertices.length) (hv : g.vertices.length ≤ v.length) :
    ∃ (g1 : grafo) (v1 : List (Option Nat)) (L : List Nat),
      busca_lexicografica r g v = some (g1, v1) ∧
      v1.length = v.length ∧ (∀ k, g.vertices.length ≤ k → v1[k]? = v[k]?) ∧
      v1[g.vertices.length - 1]? = some (some r) ∧
      L.length = g.vertices.length ∧ (∀ k, k < g.vertices.length → v1[k]? = some (L[k]?)) ∧
      L.Nodup ∧ (∀ h, h ∈ L → h < g.vertices.length) ∧
      g1.vertices.map (fun x => x.cor) = g.vertices.map (fun x => x.cor) ∧
      (∀ b ∈ g1.vertices.map (fun x => x.visitado), b ≠ 0) ∧
      g1.arestas = g.arestas ∧ g1.nome = g.nome := by
  unfold busca_lexicografica
  rw [busca_vertice_eq g r hr]
  simp only
  rw [tam_eq _ hn]
  have hn1 : 1 ≤ g.vertices.length := by omega
  rw [usub_um _ hn1 hn]
  have hidx : g.vertices.length - 1 < v.length := by omega
  simp only [hidx, if_true]
  have hflags : (rotula_raiz r (g.vertices.length - 1) g.arestas
        (atualiza (fun x => { x with rotulo := g.vertices.length, visitado := 1 }) r
          g.vertices)).map (fun x => x.visitado)
      = (g.vertices.map (fun x => x.visitado)).set r 1 := by
    rw [rotula_raiz_map_visitado]
    exact atualiza_map_set _ _ 1 (fun _ => rfl) r g.vertices
  have hcor : (rotula_raiz r (g.vertices.length - 1) g.arestas
        (atualiza (fun x => { x with rotulo := g.vertices.length, visitado := 1 }) r
          g.vertices)).map (fun x => x.cor)
      = g.vertices.map (fun x => x.cor) := by
    rw [rotula_raiz_map_cor]
    apply atualiza_map_cor
    intro x; rfl
  obtain ⟨vs1, v1, L1, hrun, h1, h2, h3, h4, h5, h6, h7, h8⟩ :=
    busca_laco_spec g.arestas g.vertices.length hn (g.vertices.length + 1)
      (rotula_raiz r (g.vertices.length - 1) g.arestas
        (atualiza (fun x => { x with rotulo := g.vertices.length, visitado := 1 }) r g.vertices))
      (v.set (g.vertices.length - 1) (some r)) (g.vertices.length - 1) [r]
      (by rw [length_of_map_eq hcor]) (by simpa using hv) (by omega) (by omega)
      (by simp; omega)
      (by
        intro k hk1 hk2
        have : k = g.vertices.length - 1 := by omega
        subst this
        simp [hidx])
      (by simp)
      (by
        intro x
        rw [hflags, List.getElem?_set, List.mem_singleton]
        by_cases hx : r = x
        · subst hx
          simp [hr]
        · simp only [hx, if_false]
          constructor
          · intro e; exact absurd e.symm hx
          · rintro ⟨b, hb, hb0⟩
            exfalso
            apply hb0
            have hmem := List.getElem?_mem hb
            rcases List.mem_map.1 hmem with ⟨y, hy, e⟩
            rw [← e]; exact h0 y hy)
  rw [hrun]
  refine ⟨_, v1, L1, rfl, ?_, ?_, ?_, h3, h4, h5, h6, ?_, h8, rfl, rfl⟩
  · rw [h1]; simp
  · intro k hk
    rw [h2 k (by omega), List.getElem?_set]
    have : g.vertices.length - 1 ≠ k := by omega
    simp [this]
  · rw [h2 _ (le_refl _)]
    simp [hidx]
  · rw [h7, hcor]

theorem perm_range_of_nodup_of_length (L : List Nat) (n : Nat) (hnd : L.Nodup)
    (hL : ∀ h, h ∈ L → h < n) (hlen : L.length = n) : L.Perm (List.range n) := by
  have hsub : L ⊆ List.range n := fun y hy => List.mem_range.2 (hL y hy)
  exact (List.subperm_of_subset hnd hsub).perm_of_length_le (by simp [hlen])

theorem take_eq_map_some (v : List (Option Nat)) (L : List Nat) (n : Nat)
    (hlen : L.length = n) (hpt : ∀ k, k < n → v[k]? = some (L[k]?)) :
    v.take n = L.map some := by
  apply List.ext_getElem?
  intro k
  rw [List.getElem?_take, List.getElem?_map]
  by_cases hk : k < n
  · simp only [hk, if_true]
    rw [hpt k hk]
    have : k < L.length := by omega
    rw [List.getElem?_eq_getElem this]
    rfl
  · simp only [hk, if_false]
    rw [List.getElem?_eq_none (by omega)]
    rfl

theorem drop_eq_of_getElem? (v w : List (Option Nat)) (n : Nat)
    (h : ∀ k, n ≤ k → v[k]? = w[k]?) : v.drop n = w.drop n := by
  apply List.ext_getElem?
  intro k
  rw [List.getElem?_drop, List.getElem?_drop]
  exact h _ (by omega)

/-- C1: on a graph with all visited flags and labels 0, `busca_lexicografica`
from a vertex `r` returns, the slots `0..n-1` of `v` then hold a permutation
of the vertices of `g` with `r` in slot `n-1`, and no slot outside `0..n-1`
is written. -/
theorem busca_lexicografica_permutacao (g : grafo) (r : Nat) (v : List (Option Nat))
    (hwf : bem_formado g) (h0 : ∀ x ∈ g.vertices, x.visitado = 0 ∧ x.rotulo = 0)
    (hr : r < g.vertices.length) (hv : g.vertices.length ≤ v.length) :
    ∃ (g1 : grafo) (v1 : List (Option Nat)),
      busca_lexicografica r g v = some (g1, v1) ∧
      (v1.take g.vertices.length).Perm ((List.range g.vertices.length).map some) ∧
      v1[g.vertices.length - 1]? = some (some r) ∧
      v1.length = v.length ∧
      v1.drop g.vertices.length = v.drop g.vertices.length := by
  have hn : g.vertices.length < UINT_MOD := by
    have := hwf.1
    simp only [UINT_MOD]; omega
  obtain ⟨g1, v1, L, hrun, h1, h2, h3, h4, h5, h6, h7, _⟩ :=
    busca_lexicografica_zero g r v hn (fun x hx => (h0 x hx).1) hr hv
  refine ⟨g1, v1, hrun, ?_, h3, h1, drop_eq_of_getElem? _ _ _ h2⟩
  rw [take_eq_map_some v1 L _ h4 h5]
  exact (perm_range_of_nodup_of_length L _ h6 h7 h4).map some

theorem cor_de_eq (vs : List vertice) (h : Nat) :
    cor_de vs h = (vs.map (fun x => x.cor))[h]? := by
  simp [cor_de]

theorem getD_set_zero (d : List Nat) (c j : Nat) :
    (d.set c 0).getD j 0 = if j = c then 0 else d.getD j 0 := by
  simp only [List.getD_eq_getElem?_getD, List.getElem?_set]
  by_cases h : c = j
  · subst h
    by_cases hc : c < d.length <;> simp [hc]
  · have h2 : ¬ j = c := fun e => h e.symm
    simp [h, h2]

theorem outros_cons (vr : Nat) (ar : aresta) (resto : List aresta) :
    outros vr (ar :: resto) =
      if vr = ar.destino then ar.origem :: outros vr resto
      else if vr = ar.origem then ar.destino :: outros vr resto
      else outros vr resto := by
  unfold outros
  rw [List.filterMap_cons]
  split_ifs <;> rfl

/-- The edge loop of `colore` succeeds when every colour it reads indexes
`disponivel` within range, and it clears exactly the entries of the colours
of the other endpoints. -/
theorem colore_arestas_spec (vr : Nat) (vs : List vertice) (m : Nat) :
    ∀ (arestas : List aresta) (d : List Nat), d.length = m →
      (∀ h ∈ outros vr arestas, ∃ c, cor_de vs h = some c ∧ c < m) →
      ∃ d1, colore_arestas vr vs arestas d = some d1 ∧ d1.length = m ∧
        ∀ j, d1.getD j 0 =
          if (∃ h ∈ outros vr arestas, cor_de vs h = some j) then 0 else d.getD j 0 := by
  intro arestas
  induction arestas with
  | nil =>
    intro d hd _
    exact ⟨d, rfl, hd, by simp [outros]⟩
  | cons ar resto ih =>
    intro d hd hc
    have key : ∀ o, outros vr (ar :: resto) = o :: outros vr resto →
        ∃ d1, (match cor_de vs o with
            | none => none
            | some c =>
              match marca d c with
              | none => none
              | some d1 => colore_arestas vr vs resto d1) = some d1 ∧ d1.length = m ∧
          ∀ j, d1.getD j 0 =
            if (∃ h ∈ outros vr (ar :: resto), cor_de vs h = some j) then 0 else d.getD j 0 := by
      intro o ho
      rw [ho] at hc ⊢
      obtain ⟨c, hco, hcm⟩ := hc o (List.mem_cons_self _ _)
      rw [hco]
      simp only [marca, hd, hcm, if_true]
      obtain ⟨d1, hrun, hlen, hget⟩ := ih (d.set c 0) (by simpa using hd)
        (fun h hh => hc h (List.mem_cons_of_mem _ hh))
      refine ⟨d1, hrun, hlen, ?_⟩
      intro j
      rw [hget j, getD_set_zero]
      by_cases hj : ∃ h ∈ outros vr resto, cor_de vs h = some j
      · have : ∃ h ∈ o :: outros vr resto, cor_de vs h = some j := by
          obtain ⟨h, hh, e⟩ := hj
          exact ⟨h, List.mem_cons_of_mem _ hh, e⟩
        rw [if_pos hj, if_pos this]
      · rw [if_neg hj]
        by_cases hjc : j = c
        · subst hjc
          have : ∃ h ∈ o :: outros vr resto, cor_de vs h = some j :=
            ⟨o, List.mem_cons_self _ _, hco⟩
          rw [if_pos this, if_pos rfl]
        · have : ¬ ∃ h ∈ o :: outros vr resto, cor_de vs h = some j := by
            rintro ⟨h, hh, e⟩
            rcases List.mem_cons.1 hh with e2 | hh
            · subst e2
              rw [hco] at e
              cases e
              exact hjc rfl
            · exact hj ⟨h, hh, e⟩
          rw [if_neg this, if_neg hjc]
    unfold colore_arestas
    by_cases h1 : vr = ar.destino
    · simp only [h1, if_true]
      have := key ar.origem (by rw [outros_cons, if_pos h1])
      simpa [h1] using this
    · simp only [h1, if_false]
      by_cases h2 : vr = ar.origem
      · simp only [h2, if_true]
        have := key ar.destino (by rw [outros_cons, if_neg h1, if_pos h2])
        simpa [h2] using this
      · simp only [h2, if_false]
        have ho : outros vr (ar :: resto) = outros vr resto := by
          rw [outros_cons, if_neg h1, if_neg h2]
        rw [ho] at hc ⊢
        exact ih d hd hc

theorem find?_range'_some (p : Nat → Bool) :
    ∀ (m s j : Nat), (List.range' s m).find? p = some j →
      s ≤ j ∧ j < s + m ∧ p j = true ∧ ∀ i, s ≤ i → i < j → p i = false := by
  intro m
  induction m with
  | zero => intro s j h; simp at h
  | succ m ih =>
    intro s j h
    rw [List.range'_succ, List.find?_cons] at h
    cases hp : p s with
    | true =>
      rw [hp] at h
      simp at h
      subst h
      exact ⟨le_refl _, by omega, hp, fun i h1 h2 => by omega⟩
    | false =>
      rw [hp] at h
      simp only at h
      obtain ⟨h1, h2, h3, h4⟩ := ih (s + 1) j h
      refine ⟨by omega, by omega, h3, ?_⟩
      intro i hi1 hi2
      by_cases e : i = s
      · subst e; exact hp
      · exact h4 i (by omega) hi2

theorem find?_range'_none (p : Nat → Bool) (m s : Nat)
    (h : (List.range' s m).find? p = none) : ∀ i, s ≤ i → i < s + m → p i = false := by
  intro i h1 h2
  rw [List.find?_eq_none] at h
  have := h i (List.mem_range'_1.2 ⟨h1, h2⟩)
  simpa using this

/-- The colour chosen by lines 513 and 524-529 from a filled `disponivel`:
it lies in `1..49`, it is the least available colour of `1..49` whenever
one is available, and it is 1 when none is. -/
theorem primeira_cor_spec (d : List Nat) :
    ∃ c, (match primeira_cor d with | some j => j | none => 1) = c ∧ 1 ≤ c ∧ c ≤ 49 ∧
      (∀ j, 1 ≤ j → j ≤ 49 → d.getD j 0 ≠ 0 → d.getD c 0 ≠ 0 ∧ c ≤ j) ∧
      ((∀ j, 1 ≤ j → j ≤ 49 → d.getD j 0 = 0) → c = 1) := by
  unfold primeira_cor
  cases hf : (List.range' 1 49).find? (fun j => decide (d.getD j 0 ≠ 0)) with
  | none =>
    refine ⟨1, rfl, le_refl _, by omega, ?_, fun _ => rfl⟩
    intro j h1 h2 h3
    have := find?_range'_none _ _ _ hf j h1 (by omega)
    exact absurd (by simpa using this) h3
  | some c =>
    obtain ⟨h1, h2, h3, h4⟩ := find?_range'_some _ _ _ _ hf
    refine ⟨c, rfl, h1, by omega, ?_, ?_⟩
    · intro j hj1 hj2 hj3
      refine ⟨by simpa using h3, ?_⟩
      by_contra hlt
      have := h4 j hj1 (by omega)
      exact hj3 (by simpa using this)
    · intro hall
      have hz := hall c h1 (by omega)
      have hnz : d.getD c 0 ≠ 0 := by simpa using h3
      exact absurd hz hnz

theorem atualiza_atualiza (f f2 : vertice → vertice) (h : Nat) (vs : List vertice) :
    atualiza f h (atualiza f2 h vs) = atualiza (fun x => f (f2 x)) h vs := by
  induction vs generalizing h with
  | nil => simp [atualiza]
  | cons x xs ih => cases h <;> simp [atualiza, ih]

/-- One iteration of the `for` loop of `colore`, on a vertex list whose
colours are all below 50 and a well-formed edge list: it succeeds, stores a
colour `c` of `1..49` on `vr = v[i]` and nothing else, and `c` is the least
colour of `1..49` that no other endpoint of an edge at `vr` holds (with `vr`
itself at colour 1), whenever there is one, and 1 when there is none. -/
theorem colore_passo_spec (arestas : List aresta) (v : List (Option Nat))
    (vs : List vertice) (num i vr : Nat)
    (hv : v[i]? = some (some vr)) (hvr : vr < vs.length)
    (hwf : ∀ ar ∈ arestas, ar.origem < vs.length ∧ ar.destino < vs.length)
    (hcor : ∀ x ∈ vs.map (fun x => x.cor), x < 50) :
    ∃ c, colore_passo arestas v (vs, num) i =
        some (atualiza (fun x => { x with cor := c }) vr vs, if num < c then c else num) ∧
      1 ≤ c ∧ c ≤ 49 ∧
      (∀ j, 1 ≤ j → j ≤ 49 →
        (∀ h ∈ outros vr arestas, ((vs.map (fun x => x.cor)).set vr 1)[h]? ≠ some j) →
        c ≤ j ∧ ∀ h ∈ outros vr arestas, ((vs.map (fun x => x.cor)).set vr 1)[h]? ≠ some c) ∧
      ((∀ j, 1 ≤ j → j ≤ 49 →
        ∃ h ∈ outros vr arestas, ((vs.map (fun x => x.cor)).set vr 1)[h]? = some j) →
        c = 1) := by
  have hmap : (atualiza (fun x => { x with cor := 1 }) vr vs).map (fun x => x.cor)
      = (vs.map (fun x => x.cor)).set vr 1 := atualiza_map_set _ _ 1 (fun _ => rfl) vr vs
  have hout : ∀ h ∈ outros vr arestas, h < vs.length := by
    intro h hh
    simp only [outros, List.mem_filterMap] at hh
    obtain ⟨ar, har, e⟩ := hh
    have := hwf ar har
    split_ifs at e <;> simp at e <;> omega
  have hpre : ∀ h ∈ outros vr arestas,
      ∃ c, cor_de (atualiza (fun x => { x with cor := 1 }) vr vs) h = some c ∧ c < 50 := by
    intro h hh
    have hh2 := hout h hh
    rw [cor_de_eq, hmap]
    have hlt : h < ((vs.map (fun x => x.cor)).set vr 1).length := by simpa using hh2
    refine ⟨_, List.getElem?_eq_getElem hlt, ?_⟩
    rw [List.getElem_set]
    split_ifs
    · omega
    · exact hcor _ (List.getElem_mem _)
  obtain ⟨d, hrun, hlen, hget⟩ := colore_arestas_spec vr
    (atualiza (fun x => { x with cor := 1 }) vr vs) 50 arestas (List.replicate 50 1)
    (by simp) hpre
  obtain ⟨c, hc, hc1, hc2, hmin, hfull⟩ := primeira_cor_spec d
  refine ⟨c, ?_, hc1, hc2, ?_, ?_⟩
  · unfold colore_passo
    rw [hv]
    simp only [hvr, if_true]
    rw [hrun]
    simp only
    rw [hc, atualiza_atualiza]
  · intro j hj1 hj2 hfree
    have hdj : d.getD j 0 ≠ 0 := by
      rw [hget j]
      have : ¬ ∃ h ∈ outros vr arestas,
          cor_de (atualiza (fun x => { x with cor := 1 }) vr vs) h = some j := by
        rintro ⟨h, hh, e⟩
        rw [cor_de_eq, hmap] at e
        exact hfree h hh e
      simp only [this, if_false]
      rw [List.getD_eq_getElem?_getD, List.getElem?_replicate]
      have : j < 50 := by omega
      simp [this]
    obtain ⟨hdc, hle⟩ := hmin j hj1 hj2 hdj
    refine ⟨hle, ?_⟩
    intro h hh e
    apply hdc
    rw [hget c]
    have : ∃ h ∈ outros vr arestas,
        cor_de (atualiza (fun x => { x with cor := 1 }) vr vs) h = some c :=
      ⟨h, hh, by rw [cor_de_eq, hmap]; exact e⟩
    simp [this]
  · intro hall
    apply hfull
    intro j hj1 hj2
    rw [hget j]
    obtain ⟨h, hh, e⟩ := hall j hj1 hj2
    have : ∃ h ∈ outros vr arestas,
        cor_de (atualiza (fun x => { x with cor := 1 }) vr vs) h = some j :=
      ⟨h, hh, by rw [cor_de_eq, hmap]; exact e⟩
    rw [if_pos this]

/-- Invariant rule for the `for` loop of `colore` over the indices
`a, a+1, ..., a+m-1`. -/
theorem colore_laco_inv (arestas : List aresta) (v : List (Option Nat))
    (P : Nat → List vertice × Nat → Prop) :
    ∀ (m a : Nat) (st : List vertice × Nat), P a st →
      (∀ i st, a ≤ i → i < a + m → P i st →
        ∃ st1, colore_passo arestas v st i = some st1 ∧ P (i + 1) st1) →
      ∃ st1, colore_laco arestas v (List.range' a m) st = some st1 ∧ P (a + m) st1 := by
  intro m
  induction m with
  | zero =>
    intro a st hP _
    exact ⟨st, rfl, hP⟩
  | succ m ih =>
    intro a st hP hstep
    rw [List.range'_succ]
    unfold colore_laco
    obtain ⟨st1, h1, hP1⟩ := hstep a st (le_refl _) (by omega) hP
    rw [h1]
    simp only
    obtain ⟨st2, h2, hP2⟩ := ih (a + 1) st1 hP1
      (fun i st hi1 hi2 hPi => hstep i st (by omega) (by omega) hPi)
    refine ⟨st2, h2, ?_⟩
    have : a + (m + 1) = a + 1 + m := by omega
    rw [this]; exact hP2

theorem lista_vertices_length (g : grafo) (v : List (Option Nat)) (hv : lista_vertices g v) :
    v.length = g.vertices.length := by
  have := hv.length_eq
  simpa using this

theorem lista_vertices_get (g : grafo) (v : List (Option Nat)) (hv : lista_vertices g v)
    (i : Nat) (hi : i < g.vertices.length) :
    ∃ h, v[i]? = some (some h) ∧ h < g.vertices.length := by
  have hlen := lista_vertices_length g v hv
  have hi2 : i < v.length := by omega
  have hmem : v[i] ∈ (List.range g.vertices.length).map some := hv.subset (List.getElem_mem hi2)
  rcases List.mem_map.1 hmem with ⟨h, hh, e⟩
  refine ⟨h, ?_, List.mem_range.1 hh⟩
  rw [List.getElem?_eq_getElem hi2, ← e]

theorem lista_vertices_inj (g : grafo) (v : List (Option Nat)) (hv : lista_vertices g v)
    (i j : Nat) (x : Option Nat) (hi : v[i]? = some x) (hj : v[j]? = some x) : i = j := by
  have hnd : v.Nodup := hv.nodup_iff.2 ((List.nodup_range _).map (fun a b e => by simpa using e))
  have hi2 : i < v.length := by
    by_contra hc
    rw [List.getElem?_eq_none (by omega)] at hi
    cases hi
  have hj2 : j < v.length := by
    by_contra hc
    rw [List.getElem?_eq_none (by omega)] at hj
    cases hj
  rw [List.getElem?_eq_getElem hi2] at hi
  rw [List.getElem?_eq_getElem hj2] at hj
  exact (List.Nodup.getElem_inj_iff hnd).1 (by simp at hi hj; rw [hi, hj])

theorem lista_vertices_surj (g : grafo) (v : List (Option Nat)) (hv : lista_vertices g v)
    (h : Nat) (hh : h < g.vertices.length) :
    ∃ i, i < g.vertices.length ∧ v[i]? = some (some h) := by
  have hmem : some h ∈ v := hv.symm.subset (List.mem_map.2 ⟨h, List.mem_range.2 hh, rfl⟩)
  obtain ⟨i, hi⟩ := List.mem_iff_getElem?.1 hmem
  refine ⟨i, ?_, hi⟩
  have hlen := lista_vertices_length g v hv
  by_contra hc
  rw [List.getElem?_eq_none (by omega)] at hi
  cases hi

theorem cor_eq (g : grafo) (u : Nat) (hu : u < g.vertices.length) :
    cor u g = (g.vertices.map (fun x => x.cor))[u]? := by
  unfold cor
  rw [busca_vertice_eq g u hu]
  simp

theorem getElem?_lt_of_eq_some {α : Type} (l : List α) (i : Nat) (x : α) (h : l[i]? = some x) :
    i < l.length := by
  by_contra hc
  rw [List.getElem?_eq_none (by omega)] at h
  cases h

/-- Invariant rule for `colore` on a non-empty graph and an array listing
each vertex once: an invariant that holds after `v[0]` is coloured and is
kept by every iteration holds when `colore` returns. -/
theorem colore_run (g : grafo) (v : List (Option Nat))
    (hn : g.vertices.length < UINT_MOD) (hpos : 0 < g.vertices.length)
    (hv : lista_vertices g v) (P : Nat → List vertice × Nat → Prop)
    (hinit : ∀ vr, v[0]? = some (some vr) → vr < g.vertices.length →
      P 1 (atualiza (fun x => { x with cor := 1 }) vr g.vertices, 0))
    (hstep : ∀ i st vr, 1 ≤ i → i < g.vertices.length → v[i]? = some (some vr) →
      vr < g.vertices.length → P i st →
      ∃ st1, colore_passo g.arestas v st i = some st1 ∧ P (i + 1) st1) :
    ∃ vs k, colore g v = some ({ g with vertices := vs }, k) ∧ P g.vertices.length (vs, k) := by
  obtain ⟨vr0, hvr0, hlt0⟩ := lista_vertices_get g v hv 0 hpos
  obtain ⟨st1, hrun, hP⟩ := colore_laco_inv g.arestas v P (g.vertices.length - 1) 1
    (atualiza (fun x => { x with cor := 1 }) vr0 g.vertices, 0) (hinit vr0 hvr0 hlt0)
    (by
      intro i st hi1 hi2 hPi
      obtain ⟨vr, hvr, hlt⟩ := lista_vertices_get g v hv i (by omega)
      exact hstep i st vr hi1 (by omega) hvr hlt hPi)
  have e : 1 + (g.vertices.length - 1) = g.vertices.length := by omega
  rw [e] at hP
  refine ⟨st1.1, st1.2, ?_, hP⟩
  unfold colore
  rw [hvr0]
  simp only [hlt0, if_true]
  rw [tam_eq _ hn, hrun]

/-- C3: on a non-empty graph whose colours are all below 50 (the only values
`cria_vertice` and `colore` ever store), with `v` listing each vertex once,
`colore` returns and every vertex then has a colour of at least 1. -/
theorem colore_cores_positivas (g : grafo) (v : List (Option Nat))
    (hwf : bem_formado g) (hpos : 0 < g.vertices.length) (hv : lista_vertices g v)
    (hcor : ∀ x ∈ g.vertices, x.cor < 50) :
    ∃ g1 k, colore g v = some (g1, k) ∧ g1.vertices.length = g.vertices.length ∧
      ∀ u, u < g.vertices.length → ∃ c, cor u g1 = some c ∧ 1 ≤ c := by
  have hn : g.vertices.length < UINT_MOD := by
    have := hwf.1
    simp only [UINT_MOD]; omega
  obtain ⟨vs, k, hrun, hlen, _, hP⟩ := colore_run g v hn hpos hv
    (fun i st => st.1.length = g.vertices.length ∧
      (∀ x ∈ st.1.map (fun x => x.cor), x < 50) ∧
      ∀ j h, j < i → v[j]? = some (some h) →
        ∃ c, (st.1.map (fun x => x.cor))[h]? = some c ∧ 1 ≤ c)
    (by
      intro vr hvr hlt
      have hmap := atualiza_map_set (fun x => x.cor) (fun x => { x with cor := 1 }) 1
        (fun _ => rfl) vr g.vertices
      refine ⟨atualiza_length _ _ _, ?_, ?_⟩
      · intro x hx
        simp only at hx
        rw [hmap] at hx
        rcases List.mem_or_eq_of_mem_set hx with hx | hx
        · rcases List.mem_map.1 hx with ⟨y, hy, e⟩
          rw [← e]; exact hcor y hy
        · omega
      · intro j h hj hvj
        have : j = 0 := by omega
        subst this
        rw [hvr] at hvj
        cases hvj
        simp only
        rw [hmap]
        exact ⟨1, by simp [List.getElem?_set, hlt], le_refl _⟩)
    (by
      rintro i ⟨vs, num⟩ vr hi1 hi2 hvr hlt ⟨hlen, hc50, hprev⟩
      simp only at hlen hc50 hprev
      obtain ⟨c, hrun, hc1, hc2, _⟩ := colore_passo_spec g.arestas v vs num i vr hvr
        (by omega) (by rw [hlen]; exact hwf.2) hc50
      have hmap := atualiza_map_set (fun x => x.cor) (fun x => { x with cor := c }) c
        (fun _ => rfl) vr vs
      refine ⟨_, hrun, ?_, ?_, ?_⟩
      · simp only
        rw [atualiza_length]; exact hlen
      · intro x hx
        simp only at hx
        rw [hmap] at hx
        rcases List.mem_or_eq_of_mem_set hx with hx | hx
        · exact hc50 x hx
        · omega
      · intro j h hj hvj
        simp only
        rw [hmap, List.getElem?_set]
        by_cases e : vr = h
        · subst e
          exact ⟨c, by simp [hlen, hlt], hc1⟩
        · simp only [e, if_false]
          have hji : j ≠ i := by
            intro e2
            subst e2
            rw [hvr] at hvj
            cases hvj
            exact e rfl
          exact hprev j h (by omega) hvj)
  refine ⟨_, k, hrun, hlen, ?_⟩
  intro u hu
  obtain ⟨i, hi, hvi⟩ := lista_vertices_surj g v hv u hu
  obtain ⟨c, hc, hc1⟩ := hP i u hi hvi
  refine ⟨c, ?_, hc1⟩
  rw [cor_eq _ u (by simpa [hlen] using hu)]
  exact hc

theorem n_vertices_eq (g : grafo) (h : g.vertices.length < 2147483648) :
    n_vertices g = (g.vertices.length : Int) := by
  unfold n_vertices
  have : tam g.vertices = g.vertices.length := tam_eq _ (by simp only [UINT_MOD]; omega)
  rw [this]
  simp [h]

theorem outros_lt (vr : Nat) (arestas : List aresta) (n : Nat)
    (hwf : ∀ ar ∈ arestas, ar.origem < n ∧ ar.destino < n) :
    ∀ h ∈ outros vr arestas, h < n := by
  intro h hh
  simp only [outros, List.mem_filterMap] at hh
  obtain ⟨ar, har, e⟩ := hh
  have := hwf ar har
  split_ifs at e <;> simp at e <;> omega

theorem inv_cores_lt50 (g : grafo) (v : List (Option Nat)) (hv : lista_vertices g v)
    (i : Nat) (st : List vertice × Nat) (hP : inv_cores g v i st) :
    ∀ x ∈ st.1.map (fun x => x.cor), x < 50 := by
  intro x hx
  obtain ⟨hlen, h1, h2⟩ := hP
  obtain ⟨u, hu⟩ := List.mem_iff_getElem?.1 hx
  have hult : u < g.vertices.length := by
    have := getElem?_lt_of_eq_some _ _ _ hu
    simpa [hlen] using this
  obtain ⟨j, _, hvj⟩ := lista_vertices_surj g v hv u hult
  by_cases hji : j < i
  · obtain ⟨c, hc, _, _, hc49⟩ := h1 j u hji hvj
    rw [hu] at hc
    cases hc
    omega
  · have := h2 j u (by omega) hvj
    rw [hu] at this
    cases this
    omega

theorem inv_cores_init (g : grafo) (v : List (Option Nat)) (hv : lista_vertices g v)
    (h0 : ∀ x ∈ g.vertices, x.cor = 0) (vr : Nat) (hvr : v[0]? = some (some vr))
    (hlt : vr < g.vertices.length) :
    inv_cores g v 1 (atualiza (fun x => { x with cor := 1 }) vr g.vertices, 0) := by
  have hmap := atualiza_map_set (fun x => x.cor) (fun x => { x with cor := 1 }) 1
    (fun _ => rfl) vr g.vertices
  refine ⟨atualiza_length _ _ _, ?_, ?_⟩
  · intro j h hj hvj
    have : j = 0 := by omega
    subst this
    rw [hvr] at hvj
    cases hvj
    simp only
    rw [hmap]
    exact ⟨1, by simp [List.getElem?_set, hlt], le_refl _, by omega, by omega⟩
  · intro j h hj hvj
    have hne : vr ≠ h := by
      intro e
      subst e
      have := lista_vertices_inj g v hv 0 j _ hvr hvj
      omega
    have hh : h < g.vertices.length := by
      have hj2 := getElem?_lt_of_eq_some _ _ _ hvj
      rw [lista_vertices_length g v hv] at hj2
      obtain ⟨h2, e, hlt2⟩ := lista_vertices_get g v hv j hj2
      rw [hvj] at e
      cases e
      exact hlt2
    simp only
    rw [hmap, List.getElem?_set]
    simp only [hne, if_false]
    rw [List.getElem?_map, List.getElem?_eq_getElem hh]
    simp [h0 _ (List.getElem_mem hh)]

/-- One iteration keeps `inv_cores`, and the state it produces is the one
described by `colore_passo_spec`. -/
theorem inv_cores_step (g : grafo) (v : List (Option Nat)) (hwf : bem_formado g)
    (hv : lista_vertices g v) (i : Nat) (vs : List vertice) (num vr : Nat)
    (hi1 : 1 ≤ i) (hvr : v[i]? = some (some vr)) (hlt : vr < g.vertices.length)
    (hP : inv_cores g v i (vs, num)) :
    ∃ c, colore_passo g.arestas v (vs, num) i =
        some (atualiza (fun x => { x with cor := c }) vr vs, if num < c then c else num) ∧
      1 ≤ c ∧ c ≤ 49 ∧
      (∀ j, 1 ≤ j → j ≤ 49 →
        (∀ h ∈ outros vr g.arestas, ((vs.map (fun x => x.cor)).set vr 1)[h]? ≠ some j) →
        c ≤ j ∧ ∀ h ∈ outros vr g.arestas, ((vs.map (fun x => x.cor)).set vr 1)[h]? ≠ some c) ∧
      ((∀ j, 1 ≤ j → j ≤ 49 →
        ∃ h ∈ outros vr g.arestas, ((vs.map (fun x => x.cor)).set vr 1)[h]? = some j) →
        c = 1) ∧
      inv_cores g v (i + 1)
        (atualiza (fun x => { x with cor := c }) vr vs, if num < c then c else num) := by
  have hc50 := inv_cores_lt50 g v hv i (vs, num) hP
  obtain ⟨hlen, hprev, hnext⟩ := hP
  simp only at hlen hprev hnext hc50
  obtain ⟨c, hrun, hc1, hc2, hmin, hfull⟩ := colore_passo_spec g.arestas v vs num i vr hvr
    (by omega) (by rw [hlen]; exact hwf.2) hc50
  have hmap := atualiza_map_set (fun x => x.cor) (fun x => { x with cor := c }) c
    (fun _ => rfl) vr vs
  have hci : c ≤ i + 1 := by
    by_cases hi49 : i + 1 ≤ 49
    · refine (hmin (i + 1) (by omega) hi49 ?_).1
      intro h hh e
      have hhlt := outros_lt vr g.arestas _ hwf.2 h hh
      rw [List.getElem?_set] at e
      by_cases e2 : vr = h
      · simp only [e2, if_true] at e
        split_ifs at e
        · cases e; omega
      · simp only [e2, if_false] at e
        obtain ⟨j, _, hvj⟩ := lista_vertices_surj g v hv h hhlt
        by_cases hji : j < i
        · obtain ⟨c2, hc, _, hle, _⟩ := hprev j h hji hvj
          rw [e] at hc
          cases hc
          omega
        · have := hnext j h (by omega) hvj
          rw [e] at this
          cases this
    · omega
  refine ⟨c, hrun, hc1, hc2, hmin, hfull, ?_, ?_, ?_⟩
  · simp only
    rw [atualiza_length]; exact hlen
  · intro j h hj hvj
    simp only
    rw [hmap, List.getElem?_set]
    by_cases e : vr = h
    · subst e
      have hji := lista_vertices_inj g v hv i j _ hvr hvj
      subst hji
      exact ⟨c, by simp [hlen, hlt], hc1, hci, hc2⟩
    · simp only [e, if_false]
      have hji : j ≠ i := by
        intro e2
        subst e2
        rw [hvr] at hvj
        cases hvj
        exact e rfl
      exact hprev j h (by omega) hvj
  · intro j h hj hvj
    simp only
    rw [hmap, List.getElem?_set]
    have e : vr ≠ h := by
      intro e
      subst e
      have := lista_vertices_inj g v hv i j _ hvr hvj
      omega
    simp only [e, if_false]
    exact hnext j h (by omega) hvj

/-- C10: from all-zero colours, with `v` listing each vertex once, `colore`
returns and afterwards `1 <= cor(u, g) <= n_vertices(g)` for every vertex. -/
theorem cor_entre_um_e_n_vertices (g : grafo) (v : List (Option Nat))
    (hwf : bem_formado g) (hpos : 0 < g.vertices.length) (hv : lista_vertices g v)
    (h0 : ∀ x ∈ g.vertices, x.cor = 0) :
    ∃ g1 k, colore g v = some (g1, k) ∧ n_vertices g1 = n_vertices g ∧
      ∀ u, u < g.vertices.length →
        ∃ c, cor u g1 = some c ∧ 1 ≤ c ∧ (c : Int) ≤ n_vertices g1 := by
  have hn : g.vertices.length < UINT_MOD := by
    have := hwf.1
    simp only [UINT_MOD]; omega
  obtain ⟨vs, k, hrun, hlen, hP, _⟩ := colore_run g v hn hpos hv (inv_cores g v)
    (fun vr hvr hlt => inv_cores_init g v hv h0 vr hvr hlt)
    (by
      rintro i ⟨vs, num⟩ vr hi1 hi2 hvr hlt hPi
      obtain ⟨c, hrun, _, _, _, _, hP2⟩ := inv_cores_step g v hwf hv i vs num vr hi1 hvr hlt hPi
      exact ⟨_, hrun, hP2⟩)
  simp only at hlen hP
  have hnv : n_vertices { g with vertices := vs } = n_vertices g := by
    rw [n_vertices_eq _ (by simp only [hlen]; exact hwf.1), n_vertices_eq _ hwf.1]
    simp [hlen]
  refine ⟨_, k, hrun, hnv, ?_⟩
  intro u hu
  obtain ⟨j, hj, hvj⟩ := lista_vertices_surj g v hv u hu
  obtain ⟨c, hc, hc1, hcj, _⟩ := hP j u hj hvj
  refine ⟨c, ?_, hc1, ?_⟩
  · rw [cor_eq _ u (by simpa [hlen] using hu)]
    exact hc
  · rw [hnv, n_vertices_eq _ hwf.1]
    have : c ≤ g.vertices.length := by omega
    exact_mod_cast this

theorem mem_outros_origem (vr : Nat) (arestas : List aresta) (ar : aresta) (har : ar ∈ arestas)
    (h : vr = ar.destino) : ar.origem ∈ outros vr arestas := by
  simp only [outros, List.mem_filterMap]
  exact ⟨ar, har, by simp [h]⟩

theorem mem_outros_destino (vr : Nat) (arestas : List aresta) (ar : aresta) (har : ar ∈ arestas)
    (h1 : vr ≠ ar.destino) (h : vr = ar.origem) : ar.destino ∈ outros vr arestas := by
  simp only [outros, List.mem_filterMap]
  exact ⟨ar, har, by rw [if_neg h1, if_pos h]⟩

theorem outros_subset_vizinhos (g : grafo) (hwf : bem_formado g) (vr : Nat) :
    outros vr g.arestas ⊆ vizinhos g vr := by
  intro h hh
  have hlt := outros_lt vr g.arestas _ hwf.2 h hh
  simp only [outros, List.mem_filterMap] at hh
  obtain ⟨ar, har, e⟩ := hh
  simp only [vizinhos, List.mem_filter, List.mem_range, decide_eq_true_eq]
  refine ⟨hlt, ar, har, ?_⟩
  split_ifs at e with h1 h2
  · simp at e
    right; exact ⟨e, h1.symm⟩
  · simp at e
    left; exact ⟨h2.symm, e⟩

/-- Pigeonhole for the 50-entry array: a vertex with at most 48 distinct
neighbours leaves one colour of `1..49` that none of them holds. -/
theorem existe_cor_livre (g : grafo) (hwf : bem_formado g) (vr : Nat)
    (hdeg : (vizinhos g vr).length ≤ 48) (C : List Nat) :
    ∃ j, 1 ≤ j ∧ j ≤ 49 ∧ ∀ h ∈ outros vr g.arestas, C[h]? ≠ some j := by
  have hcard : ((outros vr g.arestas).toFinset.image (fun h => (C[h]?).getD 0)).card
      < (Finset.Icc 1 49).card := by
    calc ((outros vr g.arestas).toFinset.image (fun h => (C[h]?).getD 0)).card
        ≤ (outros vr g.arestas).toFinset.card := Finset.card_image_le
      _ ≤ (vizinhos g vr).toFinset.card :=
          Finset.card_le_card (fun x hx => List.mem_toFinset.2
            (outros_subset_vizinhos g hwf vr (List.mem_toFinset.1 hx)))
      _ ≤ (vizinhos g vr).length := List.toFinset_card_le _
      _ < (Finset.Icc 1 49).card := by simp; omega
  have hex : ∃ j ∈ Finset.Icc 1 49,
      j ∉ (outros vr g.arestas).toFinset.image (fun h => (C[h]?).getD 0) := by
    by_contra hcon
    push_neg at hcon
    have := Finset.card_le_card (fun j hj => hcon j hj)
    omega
  obtain ⟨j, hj, hnot⟩ := hex
  rw [Finset.mem_Icc] at hj
  refine ⟨j, hj.1, hj.2, ?_⟩
  intro h hh e
  apply hnot
  rw [Finset.mem_image]
  exact ⟨h, List.mem_toFinset.2 hh, by rw [e]; rfl⟩

theorem inv_propria_init (g : grafo) (v : List (Option Nat))
    (h0 : ∀ x ∈ g.vertices, x.cor = 0) (hsl : sem_lacos g) (vr : Nat) :
    inv_propria g v 1 (atualiza (fun x => { x with cor := 1 }) vr g.vertices, 0) := by
  have hmap := atualiza_map_set (fun x => x.cor) (fun x => { x with cor := 1 }) 1
    (fun _ => rfl) vr g.vertices
  have hzero : ∀ u a, u ≠ vr → ((g.vertices.map (fun x => x.cor)).set vr 1)[u]? = some a →
      a = 0 := by
    intro u a hu e
    rw [List.getElem?_set] at e
    have : ¬ vr = u := fun e => hu e.symm
    simp only [this, if_false] at e
    have hmem := List.getElem?_mem e
    rcases List.mem_map.1 hmem with ⟨y, hy, e2⟩
    rw [← e2]; exact h0 y hy
  refine ⟨?_, ?_, ?_⟩
  · intro ar har a b ha hb ha0 hb0
    simp only at ha hb
    rw [hmap] at ha hb
    have hne := hsl ar har
    by_cases e : ar.origem = vr
    · exact absurd (hzero ar.destino b (by rw [← e]; exact fun e2 => hne e2.symm) hb) hb0
    · exact absurd (hzero ar.origem a e ha) ha0
  · intro j h hj1 hj2; omega
  · intro h; omega

theorem inv_propria_step (g : grafo) (v : List (Option Nat)) (hwf : bem_formado g)
    (hv : lista_vertices g v) (hsl : sem_lacos g)
    (hdeg : ∀ u, u < g.vertices.length → (vizinhos g u).length ≤ 48)
    (i : Nat) (vs : List vertice) (num vr : Nat)
    (hi1 : 1 ≤ i) (hvr : v[i]? = some (some vr)) (hlt : vr < g.vertices.length)
    (hP : inv_cores g v i (vs, num)) (hQ : inv_propria g v i (vs, num)) :
    ∃ st1, colore_passo g.arestas v (vs, num) i = some st1 ∧
      inv_cores g v (i + 1) st1 ∧ inv_propria g v (i + 1) st1 := by
  obtain ⟨c, hrun, hc1, hc2, hmin, _, hP2⟩ := inv_cores_step g v hwf hv i vs num vr hi1 hvr hlt hP
  refine ⟨_, hrun, hP2, ?_⟩
  obtain ⟨j, hj1, hj2, hfree⟩ := existe_cor_livre g hwf vr (hdeg vr hlt)
    ((vs.map (fun x => x.cor)).set vr 1)
  have hcfree := (hmin j hj1 hj2 hfree).2
  have hmap := atualiza_map_set (fun x => x.cor) (fun x => { x with cor := c }) c
    (fun _ => rfl) vr vs
  obtain ⟨hprop, hnum, hone⟩ := hQ
  simp only at hprop hnum hone
  have hlen : vs.length = g.vertices.length := hP.1
  have hother : ∀ u a, u ≠ vr → ((vs.map (fun x => x.cor)).set vr c)[u]? = some a →
      (vs.map (fun x => x.cor))[u]? = some a ∧
        ((vs.map (fun x => x.cor)).set vr 1)[u]? = some a := by
    intro u a hu e
    have : ¬ vr = u := fun e => hu e.symm
    rw [List.getElem?_set] at e ⊢
    simp only [this, if_false] at e ⊢
    exact ⟨e, e⟩
  have hself : ∀ a, ((vs.map (fun x => x.cor)).set vr c)[vr]? = some a → a = c := by
    intro a e
    rw [List.getElem?_set] at e
    simp [hlen, hlt] at e
    exact e.symm
  refine ⟨?_, ?_, ?_⟩
  · intro ar har a b ha hb ha0 hb0
    simp only at ha hb
    rw [hmap] at ha hb
    have hne := hsl ar har
    by_cases e1 : ar.origem = vr
    · have hd : ar.destino ≠ vr := by rw [← e1]; exact fun e2 => hne e2.symm
      rw [e1] at ha
      have hac := hself a ha
      have hbo := (hother ar.destino b hd hb).2
      have hmem := mem_outros_destino vr g.arestas ar har (fun e => hd e.symm) e1.symm
      intro eab
      apply hcfree ar.destino hmem
      rw [hbo, ← eab, hac]
    · by_cases e2 : ar.destino = vr
      · rw [e2] at hb
        have hbc := hself b hb
        have hao := (hother ar.origem a e1 ha).2
        have hmem := mem_outros_origem vr g.arestas ar har e2.symm
        intro eab
        apply hcfree ar.origem hmem
        rw [hao, eab, hbc]
      · exact hprop ar har a b (hother _ a e1 ha).1 (hother _ b e2 hb).1 ha0 hb0
  · intro j2 h hj21 hj22 hvj
    simp only
    rw [hmap, List.getElem?_set]
    by_cases e : vr = h
    · subst e
      refine ⟨c, by simp [hlen, hlt], ?_⟩
      split_ifs <;> omega
    · simp only [e, if_false]
      have hji : j2 ≠ i := by
        intro e2
        subst e2
        rw [hvr] at hvj
        cases hvj
        exact e rfl
      obtain ⟨c2, hc2a, hc2b⟩ := hnum j2 h hj21 (by omega) hvj
      refine ⟨c2, hc2a, ?_⟩
      split_ifs <;> omega
  · intro _
    simp only
    split_ifs <;> omega

/-- Within the capacity of the 50-entry array, from all-zero colours on a
graph without self-loops and with at least two vertices, `colore` returns a
number `k` and leaves a proper colouring with the colours `1..k`. -/
theorem colore_propria (g : grafo) (v : List (Option Nat)) (hwf : bem_formado g)
    (hn2 : 2 ≤ g.vertices.length) (hv : lista_vertices g v)
    (h0 : ∀ x ∈ g.vertices, x.cor = 0) (hsl : sem_lacos g)
    (hdeg : ∀ u, u < g.vertices.length → (vizinhos g u).length ≤ 48) :
    ∃ g1 k, colore g v = some (g1, k) ∧ g1.vertices.length = g.vertices.length ∧
      g1.arestas = g.arestas ∧
      (∀ u, u < g.vertices.length →
        ∃ c, (g1.vertices.map (fun x => x.cor))[u]? = some c ∧ 1 ≤ c ∧ c ≤ k ∧ c ≤ 49) ∧
      (∀ ar ∈ g.arestas, (g1.vertices.map (fun x => x.cor))[ar.origem]? ≠
        (g1.vertices.map (fun x => x.cor))[ar.destino]?) := by
  have hn : g.vertices.length < UINT_MOD := by
    have := hwf.1
    simp only [UINT_MOD]; omega
  obtain ⟨vs, k, hrun, hP, hQ⟩ := colore_run g v hn (by omega) hv
    (fun i st => inv_cores g v i st ∧ inv_propria g v i st)
    (fun vr hvr hlt => ⟨inv_cores_init g v hv h0 vr hvr hlt, inv_propria_init g v h0 hsl vr⟩)
    (by
      rintro i ⟨vs, num⟩ vr hi1 hi2 hvr hlt ⟨hPi, hQi⟩
      exact inv_propria_step g v hwf hv hsl hdeg i vs num vr hi1 hvr hlt hPi hQi)
  obtain ⟨hlen, hprev, _⟩ := hP
  obtain ⟨hprop, hnum, hone⟩ := hQ
  simp only at hlen hprev hprop hnum hone
  have hcol : ∀ u, u < g.vertices.length →
      ∃ c, (vs.map (fun x => x.cor))[u]? = some c ∧ 1 ≤ c ∧ c ≤ k ∧ c ≤ 49 := by
    intro u hu
    obtain ⟨j, hj, hvj⟩ := lista_vertices_surj g v hv u hu
    obtain ⟨c, hc, hc1, hcj, hc49⟩ := hprev j u hj hvj
    refine ⟨c, hc, hc1, ?_, hc49⟩
    have hk1 := hone hn2
    by_cases hj0 : j = 0
    · omega
    · obtain ⟨c2, hc2a, hc2b⟩ := hnum j u (by omega) hj hvj
      rw [hc] at hc2a
      cases hc2a
      exact hc2b
  refine ⟨_, k, hrun, hlen, rfl, hcol, ?_⟩
  intro ar har e
  have hwfa := hwf.2 ar har
  obtain ⟨a, ha, ha1, _, _⟩ := hcol ar.origem hwfa.1
  obtain ⟨b, hb, hb1, _, _⟩ := hcol ar.destino hwfa.2
  simp only at e
  apply hprop ar har a b ha hb (by omega) (by omega)
  rw [ha, hb] at e
  cases e
  rfl

theorem caminho4_adjacente (a b : Nat) (h : adjacente caminho4 a b) :
    a + 1 = b ∨ b + 1 = a := by
  obtain ⟨ar, har, h⟩ := h
  simp only [caminho4, List.mem_cons, List.mem_singleton, List.not_mem_nil, or_false] at har
  rcases har with rfl | rfl | rfl <;> simp only at h <;> omega

theorem caminho4_cordal : cordal caminho4 := by
  intro c hlen ⟨hnd, hlt, hadj⟩
  have hle : c.length ≤ 4 := by
    have hsub : c ⊆ List.range 4 := fun y hy => List.mem_range.2 (hlt y hy)
    simpa using (List.subperm_of_subset hnd hsub).length_le
  have h4 : c.length = 4 := by omega
  match c, h4 with
  | [a, b, c2, d], _ =>
    have e1 := caminho4_adjacente _ _
      ((hadj 0 1 (by simp) (by simp) (by omega)).2 (Or.inl (by simp)))
    have e2 := caminho4_adjacente _ _
      ((hadj 1 2 (by simp) (by simp) (by omega)).2 (Or.inl (by simp)))
    have e3 := caminho4_adjacente _ _
      ((hadj 2 3 (by simp) (by simp) (by omega)).2 (Or.inl (by simp)))
    have e4 := caminho4_adjacente _ _
      ((hadj 3 0 (by simp) (by simp) (by omega)).2 (Or.inl (by simp)))
    simp only [List.getD_cons_zero, List.getD_cons_succ] at e1 e2 e3 e4
    simp only [List.nodup_cons, List.mem_cons, List.mem_singleton, List.not_mem_nil,
      not_or, or_false] at hnd
    omega

theorem caminho4_numero_cromatico : numero_cromatico caminho4 2 := by
  refine ⟨⟨fun u => u % 2 + 1, ?_, ?_⟩, ?_⟩
  · intro u _
    exact ⟨by show 1 ≤ u % 2 + 1; omega, by show u % 2 + 1 ≤ 2; omega⟩
  · decide
  · intro j hj ⟨f, hf, hne⟩
    have h0 := hf 0 (by decide)
    have h1 := hf 1 (by decide)
    have := hne ⟨0, 1⟩ (by decide)
    simp only at this
    omega

/-- C4 (failing input): on the graph with a single vertex, colours all 0,
`colore` returns 0 although the vertex then holds colour 1, so one distinct
colour is in use and the largest colour is 1. -/
theorem colore_um_vertice_devolve_zero :
    (∀ x ∈ um_vertice.vertices, x.cor = 0) ∧ lista_vertices um_vertice [some 0] ∧
    (colore um_vertice [some 0]).map
      (fun r => (r.2, cores_distintas r.1, maior_cor r.1)) = some (0, 1, 1) := by
  refine ⟨by decide, by decide, by decide⟩

/-- C5 (counterexample): the path A - B - C - D is chordal, has no self-loop
and is in the state left by construction; from the root B the computed order
is D, C, A, B and `colore` on it returns 3, while the chromatic number of
the path is 2. -/
theorem colore_busca_caminho4_tres_cores :
    cordal caminho4 ∧ sem_lacos caminho4 ∧
    (∀ x ∈ caminho4.vertices, x.cor = 0 ∧ x.rotulo = 0 ∧ x.visitado = 0) ∧
    (busca_lexicografica 1 caminho4 [none, none, none, none]).map (fun r => r.2)
      = some [some 3, some 2, some 0, some 1] ∧
    (busca_lexicografica 1 caminho4 [none, none, none, none]).bind
      (fun r => (colore r.1 r.2).map (fun s => s.2)) = some 3 ∧
    numero_cromatico caminho4 2 ∧ ¬ numero_cromatico caminho4 3 := by
  refine ⟨caminho4_cordal, by decide, by decide, by decide, by decide,
    caminho4_numero_cromatico, ?_⟩
  intro h
  exact h.2 2 (by omega) caminho4_numero_cromatico.1

/-- C6 (failing input): on the graph with X joined to Y, P, Q and Y joined
to Q, in the state left by construction, the visit sequence from X is
X, Y, P, Q, which is not a lexicographic breadth-first order: Y is adjacent
to Q and not to P, yet P is visited before Q and the only earlier vertex X
is adjacent to both. -/
theorem busca_lexicografica_leque4_nao_lexbfs :
    (∀ x ∈ leque4.vertices, x.rotulo = 0 ∧ x.visitado = 0) ∧
    (busca_lexicografica 0 leque4 [none, none, none, none]).map
      (fun r => ordem_de_visita r.2) = some [0, 1, 2, 3] ∧
    ¬ ordem_lexbfs leque4 [0, 1, 2, 3] := by
  refine ⟨by decide, by decide, by decide⟩

/-- C7 (failing input): on two isolated vertices A and B in the state left
by construction, a first run from A fills the array with B, A; a second run
from A on the resulting graph, into a fresh array, writes only the root and
leaves slot 0 unwritten, so the array it returns does not list the vertices
of the graph and is not the array of the first run. -/
theorem busca_lexicografica_segunda_incompleta :
    (∀ x ∈ dois_isolados.vertices, x.rotulo = 0 ∧ x.visitado = 0) ∧
    (busca_lexicografica 0 dois_isolados [none, none]).map (fun r => r.2)
      = some [some 1, some 0] ∧
    (busca_lexicografica 0 dois_isolados [none, none]).bind
      (fun r => (busca_lexicografica 0 r.1 [none, none]).map (fun s => s.2))
      = some [none, some 0] ∧
    ¬ lista_vertices dois_isolados [none, some 0] := by
  refine ⟨by decide, by decide, by decide, by decide⟩

/-- The run of `busca_lexicografica` on a graph whose vertices are all marked
visited: the loop ends at once, only slot `n-1` is written. -/
theorem busca_lexicografica_todos_visitados (g : grafo) (r : Nat) (v : List (Option Nat))
    (hn : g.vertices.length < UINT_MOD)
    (hall : ∀ b ∈ g.vertices.map (fun x => x.visitado), b ≠ 0)
    (hr : r < g.vertices.length) (hv : g.vertices.length ≤ v.length) :
    ∃ g1, busca_lexicografica r g v = some (g1, v.set (g.vertices.length - 1) (some r)) := by
  unfold busca_lexicografica
  rw [busca_vertice_eq g r hr]
  simp only
  rw [tam_eq _ hn]
  have hn1 : 1 ≤ g.vertices.length := by omega
  rw [usub_um _ hn1 hn]
  have hidx : g.vertices.length - 1 < v.length := by omega
  simp only [hidx, if_true]
  have hflags : (rotula_raiz r (g.vertices.length - 1) g.arestas
        (atualiza (fun x => { x with rotulo := g.vertices.length, visitado := 1 }) r
          g.vertices)).map (fun x => x.visitado)
      = (g.vertices.map (fun x => x.visitado)).set r 1 := by
    rw [rotula_raiz_map_visitado]
    exact atualiza_map_set _ _ 1 (fun _ => rfl) r g.vertices
  have hall2 : ∀ b ∈ (g.vertices.map (fun x => x.visitado)).set r 1, b ≠ 0 := by
    intro b hb
    rcases List.mem_or_eq_of_mem_set hb with hb | hb
    · exact hall b hb
    · omega
  unfold busca_laco
  rcases rotulo_maximo_spec (rotula_raiz r (g.vertices.length - 1) g.arestas
      (atualiza (fun x => { x with rotulo := g.vertices.length, visitado := 1 }) r
        g.vertices)) with ⟨hrm, _⟩ | ⟨h, _, hflag⟩
  · rw [hrm]
    exact ⟨_, rfl⟩
  · rw [hflags] at hflag
    exact absurd rfl (hall2 0 (List.getElem?_mem hflag))

/-- The visited flags are never cleared, so only the first run fills the
array: on a graph in the state left by construction a first run returns a
full permutation of the vertices ending in `r`, and a second run on the
resulting graph, from any root `r2` and into any array `w` with at least `n`
slots, finds every vertex visited, writes `r2` into slot `n-1` and leaves
every other slot of `w` as it was. -/
theorem busca_lexicografica_segunda_execucao (g : grafo) (r r2 : Nat)
    (v w : List (Option Nat)) (hwf : bem_formado g)
    (h0 : ∀ x ∈ g.vertices, x.visitado = 0 ∧ x.rotulo = 0)
    (hr : r < g.vertices.length) (hr2 : r2 < g.vertices.length)
    (hv : g.vertices.length ≤ v.length) (hw : g.vertices.length ≤ w.length) :
    ∃ g1 v1 g2, busca_lexicografica r g v = some (g1, v1) ∧
      (v1.take g.vertices.length).Perm ((List.range g.vertices.length).map some) ∧
      v1[g.vertices.length - 1]? = some (some r) ∧
      busca_lexicografica r2 g1 w = some (g2, w.set (g.vertices.length - 1) (some r2)) := by
  have hn : g.vertices.length < UINT_MOD := by
    have := hwf.1
    simp only [UINT_MOD]; omega
  obtain ⟨g1, v1, L, hrun, _, _, hroot, hLlen, hpt, hnd, hLlt, hcor, hvis, _, _⟩ :=
    busca_lexicografica_zero g r v hn (fun x hx => (h0 x hx).1) hr hv
  have hlen : g1.vertices.length = g.vertices.length := length_of_map_eq hcor
  obtain ⟨g2, hrun2⟩ := busca_lexicografica_todos_visitados g1 r2 w (by rw [hlen]; exact hn)
    hvis (by rw [hlen]; exact hr2) (by rw [hlen]; exact hw)
  rw [hlen] at hrun2
  refine ⟨g1, v1, g2, hrun, ?_, hroot, hrun2⟩
  rw [take_eq_map_some v1 L _ hLlen hpt]
  exact (perm_range_of_nodup_of_length L _ hnd hLlt hLlen).map some

theorem busca_lexicografica_segunda_execucao_witness :
    bem_formado dois_isolados ∧
    ∃ g1 v1 g2, busca_lexicografica 0 dois_isolados [none, none] = some (g1, v1) ∧
      (v1.take dois_isolados.vertices.length).Perm
        ((List.range dois_isolados.vertices.length).map some) ∧
      v1[dois_isolados.vertices.length - 1]? = some (some 0) ∧
      busca_lexicografica 1 g1 [some 7, none, none] =
        some (g2, [some 7, none, none].set (dois_isolados.vertices.length - 1) (some 1)) :=
  ⟨by decide, busca_lexicografica_segunda_execucao dois_isolados 0 1 [none, none]
    [some 7, none, none] (by decide) (by decide) (by decide) (by decide) (by decide)
    (by decide)⟩

theorem busca_lexicografica_permutacao_witness :
    bem_formado caminho4 ∧
    ∃ (g1 : grafo) (v1 : List (Option Nat)),
      busca_lexicografica 1 caminho4 [none, none, none, none, some 9] = some (g1, v1) ∧
      (v1.take caminho4.vertices.length).Perm
        ((List.range caminho4.vertices.length).map some) ∧
      v1[caminho4.vertices.length - 1]? = some (some 1) ∧
      v1.length = [none, none, none, none, some 9].length ∧
      v1.drop caminho4.vertices.length =
        [none, none, none, none, some 9].drop caminho4.vertices.length :=
  ⟨by decide, busca_lexicografica_permutacao caminho4 1 [none, none, none, none, some 9]
    (by decide) (by decide) (by decide) (by decide)⟩

theorem colore_cores_positivas_witness :
    lista_vertices caminho4 [some 3, some 2, some 0, some 1] ∧
    ∃ g1 k, colore caminho4 [some 3, some 2, some 0, some 1] = some (g1, k) ∧
      g1.vertices.length = caminho4.vertices.length ∧
      ∀ u, u < caminho4.vertices.length → ∃ c, cor u g1 = some c ∧ 1 ≤ c :=
  ⟨by decide, colore_cores_positivas caminho4 [some 3, some 2, some 0, some 1]
    (by decide) (by decide) (by decide) (by decide)⟩

theorem cor_entre_um_e_n_vertices_witness :
    lista_vertices caminho4 [some 3, some 2, some 0, some 1] ∧
    ∃ g1 k, colore caminho4 [some 3, some 2, some 0, some 1] = some (g1, k) ∧
      n_vertices g1 = n_vertices caminho4 ∧
      ∀ u, u < caminho4.vertices.length →
        ∃ c, cor u g1 = some c ∧ 1 ≤ c ∧ (c : Int) ≤ n_vertices g1 :=
  ⟨by decide, cor_entre_um_e_n_vertices caminho4 [some 3, some 2, some 0, some 1]
    (by decide) (by decide) (by decide) (by decide)⟩

theorem vizinhos_congr (g g1 : grafo) (hlen : g1.vertices.length = g.vertices.length)
    (har : g1.arestas = g.arestas) (u : Nat) : vizinhos g1 u = vizinhos g u := by
  unfold vizinhos
  rw [hlen]
  apply List.filter_congr
  intro w _
  have h : adjacente g1 u w ↔ adjacente g u w := by
    unfold adjacente
    rw [har]
  exact decide_eq_decide.2 h

/-- C5 (amended): for every graph (chordal or not) with at least two
vertices, no self-loop, at most 48 distinct neighbours per vertex and the
state left by construction, and every root `r`, `busca_lexicografica`
followed by `colore` returns a number `k` for which `g` has a proper
colouring with the colours `1..k`; so `k` is at least the chromatic number
(it need not be equal to it). -/
theorem colore_busca_limite_superior (g : grafo) (r : Nat) (v : List (Option Nat))
    (hwf : bem_formado g)
    (h0 : ∀ x ∈ g.vertices, x.cor = 0 ∧ x.rotulo = 0 ∧ x.visitado = 0)
    (hsl : sem_lacos g)
    (hdeg : ∀ u, u < g.vertices.length → (vizinhos g u).length ≤ 48)
    (hn2 : 2 ≤ g.vertices.length) (hr : r < g.vertices.length)
    (hv : v.length = g.vertices.length) :
    ∃ g1 v1 g2 k, busca_lexicografica r g v = some (g1, v1) ∧
      colore g1 v1 = some (g2, k) ∧
      (∀ u, u < g.vertices.length → ∃ c, cor u g2 = some c ∧ 1 ≤ c ∧ c ≤ k) ∧
      (∀ ar ∈ g.arestas, cor ar.origem g2 ≠ cor ar.destino g2) ∧
      colorivel g k ∧ ∀ x, numero_cromatico g x → x ≤ k := by
  have hn : g.vertices.length < UINT_MOD := by
    have := hwf.1
    simp only [UINT_MOD]; omega
  obtain ⟨g1, v1, L, hrun, hv1len, _, _, hLlen, hpt, hnd, hLlt, hcor, _, har, _⟩ :=
    busca_lexicografica_zero g r v hn (fun x hx => (h0 x hx).2.2) hr (by omega)
  have hlen : g1.vertices.length = g.vertices.length := length_of_map_eq hcor
  have hwf1 : bem_formado g1 := by
    unfold bem_formado
    rw [hlen, har]
    exact hwf
  have hlv : lista_vertices g1 v1 := by
    unfold lista_vertices
    rw [hlen]
    have htake : v1.take g.vertices.length = v1 := List.take_of_length_le (by omega)
    rw [← htake, take_eq_map_some v1 L _ hLlen hpt]
    exact (perm_range_of_nodup_of_length L _ hnd hLlt hLlen).map some
  have h01 : ∀ x ∈ g1.vertices, x.cor = 0 := by
    intro x hx
    have : x.cor ∈ g1.vertices.map (fun x => x.cor) := List.mem_map.2 ⟨x, hx, rfl⟩
    rw [hcor] at this
    rcases List.mem_map.1 this with ⟨y, hy, e⟩
    rw [← e]; exact (h0 y hy).1
  have hsl1 : sem_lacos g1 := by
    unfold sem_lacos
    rw [har]
    exact hsl
  obtain ⟨g2, k, hrun2, hlen2, _, hcol, hprop⟩ := colore_propria g1 v1 hwf1
    (by rw [hlen]; exact hn2) hlv h01 hsl1
    (by
      intro u hu
      rw [vizinhos_congr g g1 hlen har u]
      exact hdeg u (by rw [← hlen]; exact hu))
  have hk : colorivel g k := by
    refine ⟨fun u => ((g2.vertices.map (fun x => x.cor))[u]?).getD 0, ?_, ?_⟩
    · intro u hu
      obtain ⟨c, hc, hc1, hck, _⟩ := hcol u (by rw [hlen]; exact hu)
      simp only [hc, Option.getD_some]
      exact ⟨hc1, hck⟩
    · intro ar har2 e
      have hwfa := hwf.2 ar har2
      obtain ⟨a, ha, _⟩ := hcol ar.origem (by rw [hlen]; exact hwfa.1)
      obtain ⟨b, hb, _⟩ := hcol ar.destino (by rw [hlen]; exact hwfa.2)
      apply hprop ar (by rw [har]; exact har2)
      simp only [ha, hb, Option.getD_some] at e ⊢
      rw [e]
  refine ⟨g1, v1, g2, k, hrun, hrun2, ?_, ?_, hk, ?_⟩
  · intro u hu
    obtain ⟨c, hc, hc1, hck, _⟩ := hcol u (by rw [hlen]; exact hu)
    exact ⟨c, by rw [cor_eq _ u (by rw [hlen2, hlen]; exact hu)]; exact hc, hc1, hck⟩
  · intro ar har2
    have hwfa := hwf.2 ar har2
    rw [cor_eq _ _ (by rw [hlen2, hlen]; exact hwfa.1),
      cor_eq _ _ (by rw [hlen2, hlen]; exact hwfa.2)]
    exact hprop ar (by rw [har]; exact har2)
  · intro x hx
    by_contra hlt
    exact hx.2 k (by omega) hk

theorem colore_busca_limite_superior_witness :
    numero_cromatico caminho4 2 ∧
    ∃ g1 v1 g2 k, busca_lexicografica 1 caminho4 [none, none, none, none] = some (g1, v1) ∧
      colore g1 v1 = some (g2, k) ∧
      (∀ u, u < caminho4.vertices.length → ∃ c, cor u g2 = some c ∧ 1 ≤ c ∧ c ≤ k) ∧
      (∀ ar ∈ caminho4.arestas, cor ar.origem g2 ≠ cor ar.destino g2) ∧
      colorivel caminho4 k ∧ ∀ x, numero_cromatico caminho4 x → x ≤ k :=
  ⟨caminho4_numero_cromatico,
    colore_busca_limite_superior caminho4 1 [none, none, none, none] (by decide) (by decide)
      (by decide) (by decide) (by decide) (by decide) (by decide)⟩

theorem completo_length (n : Nat) : (completo n).vertices.length = n := by
  simp [completo]

theorem completo_mem_arestas (n : Nat) (ar : aresta) :
    ar ∈ (completo n).arestas ↔ ar.origem < ar.destino ∧ ar.destino < n := by
  simp only [completo, List.mem_flatMap, List.mem_range, List.mem_map]
  constructor
  · rintro ⟨j, hj, i, hi, rfl⟩
    exact ⟨hi, hj⟩
  · rintro ⟨h1, h2⟩
    exact ⟨ar.destino, h2, ar.origem, h1, rfl⟩

theorem completo_cor_zero (n : Nat) : ∀ x ∈ (completo n).vertices, x.cor = 0 := by
  intro x hx
  simp only [completo, List.mem_map] at hx
  obtain ⟨i, _, rfl⟩ := hx
  rfl

theorem completo_sem_lacos (n : Nat) : sem_lacos (completo n) := by
  intro ar har
  have := (completo_mem_arestas n ar).1 har
  omega

theorem completo_bem_formado (n : Nat) (hn : n < 2147483648) : bem_formado (completo n) := by
  refine ⟨by rw [completo_length]; exact hn, ?_⟩
  intro ar har
  have := (completo_mem_arestas n ar).1 har
  rw [completo_length]
  omega

theorem completo_lista_vertices (n : Nat) :
    lista_vertices (completo n) ((List.range n).map some) := by
  unfold lista_vertices
  rw [completo_length]

theorem outros_completo (n i h : Nat) (hi : i < n) (hh : h < n) (hne : h ≠ i) :
    h ∈ outros i (completo n).arestas := by
  by_cases hlt : h < i
  · exact mem_outros_origem i _ ⟨h, i⟩ ((completo_mem_arestas n _).2 ⟨hlt, hi⟩) rfl
  · have hgt : i < h := by omega
    exact mem_outros_destino i _ ⟨i, h⟩ ((completo_mem_arestas n _).2 ⟨hgt, hh⟩)
      (by simp only; omega) rfl

theorem range_map_some_get (n i : Nat) (hi : i < n) :
    ((List.range n).map some)[i]? = some (some i) := by
  rw [List.getElem?_map, List.getElem?_range hi]
  rfl

theorem inv_completo_step (i : Nat) (vs : List vertice) (num : Nat)
    (hi1 : 1 ≤ i) (hi2 : i < 50)
    (hP : inv_cores (completo 50) ((List.range 50).map some) i (vs, num))
    (hQ : inv_completo i (vs, num)) :
    ∃ st1, colore_passo (completo 50).arestas ((List.range 50).map some) (vs, num) i = some st1 ∧
      inv_cores (completo 50) ((List.range 50).map some) (i + 1) st1 ∧
      inv_completo (i + 1) st1 := by
  have hwf := completo_bem_formado 50 (by omega)
  have hlv := completo_lista_vertices 50
  have hvi := range_map_some_get 50 i hi2
  obtain ⟨c, hrun, hc1, hc2, hmin, hfull, hP2⟩ := inv_cores_step (completo 50)
    ((List.range 50).map some) hwf hlv i vs num i hi1 hvi
    (by rw [completo_length]; exact hi2) hP
  refine ⟨_, hrun, hP2, ?_⟩
  obtain ⟨hlen, _, hnext⟩ := hP
  obtain ⟨hcol, _, hnum⟩ := hQ
  simp only at hlen hnext hcol hnum
  rw [completo_length] at hlen
  have hmap := atualiza_map_set (fun x => x.cor) (fun x => { x with cor := c }) c
    (fun _ => rfl) i vs
  have hset : ∀ (a h : Nat), h ≠ i →
      ((vs.map (fun x => x.cor)).set i a)[h]? = (vs.map (fun x => x.cor))[h]? := by
    intro a h hne
    rw [List.getElem?_set]
    have : ¬ i = h := fun e => hne e.symm
    simp only [this, if_false]
  have hself : ∀ a : Nat, ((vs.map (fun x => x.cor)).set i a)[i]? = some a := by
    intro a
    rw [List.getElem?_set]
    simp [hlen, hi2]
  have hlow : ∀ h, h < i → h ≤ 48 →
      ((vs.map (fun x => x.cor)).set i 1)[h]? = some (h + 1) := by
    intro h hh1 hh2
    rw [hset 1 h (by omega)]
    exact hcol h hh1 hh2
  by_cases hi48 : i ≤ 48
  · have hfree : ∀ h ∈ outros i (completo 50).arestas,
        ((vs.map (fun x => x.cor)).set i 1)[h]? ≠ some (i + 1) := by
      intro h hh e
      have hh50 := outros_lt i _ _ hwf.2 h hh
      rw [completo_length] at hh50
      rcases Nat.lt_trichotomy h i with hlt | heq | hgt
      · rw [hlow h hlt (by omega)] at e
        cases e
        omega
      · subst heq
        rw [hself 1] at e
        cases e
        omega
      · rw [hset 1 h (by omega), hnext h h (by omega) (range_map_some_get 50 h hh50)] at e
        cases e
    obtain ⟨hle, hcfree⟩ := hmin (i + 1) (by omega) (by omega) hfree
    have hci : c = i + 1 := by
      by_contra hne
      have hlt : c - 1 < i := by omega
      apply hcfree (c - 1) (outros_completo 50 i (c - 1) hi2 (by omega) (by omega))
      rw [hlow (c - 1) hlt (by omega)]
      congr 1
      omega
    subst hci
    refine ⟨?_, ?_, ?_⟩
    · intro j hj1 hj2
      simp only
      rw [hmap]
      by_cases e : j = i
      · subst e
        exact hself _
      · rw [hset _ j e]
        exact hcol j (by omega) hj2
    · intro e; omega
    · simp only
      rw [hnum]
      split_ifs <;> omega
  · have hi49 : i = 49 := by omega
    subst hi49
    have hc : c = 1 := by
      apply hfull
      intro j hj1 hj2
      refine ⟨j - 1, outros_completo 50 49 (j - 1) (by omega) (by omega) (by omega), ?_⟩
      rw [hlow (j - 1) (by omega) (by omega)]
      congr 1
      omega
    subst hc
    refine ⟨?_, ?_, ?_⟩
    · intro j hj1 hj2
      simp only
      rw [hmap, hset _ j (by omega)]
      exact hcol j (by omega) hj2
    · intro _
      simp only
      rw [hmap]
      exact hself _
    · simp only
      rw [hnum]
      simp

/-- C2 (failing input): on the complete graph on 50 vertices, stored without
self-loops and with all colours 0, and `v` listing the vertices in insertion
order, `colore` returns 49 and leaves the two endpoints of the stored edge
`(0, 49)` with the same colour 1. -/
theorem colore_completo_50_conflito :
    sem_lacos (completo 50) ∧ (∀ x ∈ (completo 50).vertices, x.cor = 0) ∧
    lista_vertices (completo 50) ((List.range 50).map some) ∧
    (⟨0, 49⟩ : aresta) ∈ (completo 50).arestas ∧
    ∃ g1, colore (completo 50) ((List.range 50).map some) = some (g1, 49) ∧
      cor 0 g1 = some 1 ∧ cor 49 g1 = some 1 := by
  refine ⟨completo_sem_lacos 50, completo_cor_zero 50, completo_lista_vertices 50,
    (completo_mem_arestas 50 _).2 (by simp), ?_⟩
  obtain ⟨vs, k, hrun, hP, hQ⟩ := colore_run (completo 50) ((List.range 50).map some)
    (by rw [completo_length]; simp [UINT_MOD]) (by rw [completo_length]; omega)
    (completo_lista_vertices 50)
    (fun i st => inv_cores (completo 50) ((List.range 50).map some) i st ∧ inv_completo i st)
    (by
      intro vr hvr hlt
      refine ⟨inv_cores_init _ _ (completo_lista_vertices 50) (completo_cor_zero 50) vr hvr hlt,
        ?_, ?_, ?_⟩
      · intro j hj _
        have hj0 : j = 0 := by omega
        subst hj0
        rw [range_map_some_get 50 0 (by omega)] at hvr
        cases hvr
        simp only
        rw [atualiza_map_set (fun x => x.cor) (fun x => { x with cor := 1 }) 1 (fun _ => rfl)]
        rw [List.getElem?_set]
        simp [completo_length]
      · intro e; omega
      · simp)
    (by
      rintro i ⟨vs, num⟩ vr hi1 hi2 hvr hlt ⟨hPi, hQi⟩
      rw [completo_length] at hi2
      exact inv_completo_step i vs num hi1 hi2 hPi hQi)
  rw [completo_length] at hP hQ
  obtain ⟨hcol, h49, hnum⟩ := hQ
  simp only at hcol h49 hnum
  have hlen : vs.length = 50 := by
    have := hP.1
    rw [completo_length] at this
    exact this
  have hk : k = 49 := by rw [hnum]; simp
  subst hk
  refine ⟨_, hrun, ?_, ?_⟩
  · rw [cor_eq _ 0 (by simp only [hlen]; omega)]
    exact hcol 0 (by omega) (by omega)
  · rw [cor_eq _ 49 (by simp only [hlen]; omega)]
    exact h49 trivial

/-- C13: in a graph that stores `(u, v)` but not `(v, u)`, with `u != v`,
`busca_aresta` reports the swapped pair `(v, u)` as absent and the insertion
of `le_grafo` appends it: the edge list grows by one and both ordered pairs
are then stored. -/
theorem le_grafo_aresta_par_trocado (g : grafo) (u v : Nat) (huv : u ≠ v)
    (h1 : (⟨u, v⟩ : aresta) ∈ g.arestas) (h2 : (⟨v, u⟩ : aresta) ∉ g.arestas) :
    busca_aresta g ⟨v, u⟩ = 0 ∧
    (le_grafo_aresta g v u).arestas = g.arestas ++ [⟨v, u⟩] ∧
    (le_grafo_aresta g v u).arestas.length = g.arestas.length + 1 ∧
    (⟨u, v⟩ : aresta) ∈ (le_grafo_aresta g v u).arestas ∧
    (⟨v, u⟩ : aresta) ∈ (le_grafo_aresta g v u).arestas ∧
    (⟨u, v⟩ : aresta) ≠ ⟨v, u⟩ := by
  have e : (le_grafo_aresta g v u).arestas = g.arestas ++ [⟨v, u⟩] := by
    rw [le_grafo_aresta_arestas, if_neg h2]
  refine ⟨by rw [busca_aresta_eq, if_neg h2], e, by rw [e]; simp, ?_, ?_, ?_⟩
  · rw [e]; exact List.mem_append_left _ h1
  · rw [e]; simp
  · intro h
    injection h with ha hb
    exact huv ha

theorem le_grafo_aresta_par_trocado_witness :
    (0 : Nat) ≠ 1 ∧ (⟨0, 1⟩ : aresta) ∈ caminho4.arestas ∧
    (⟨1, 0⟩ : aresta) ∉ caminho4.arestas ∧
    busca_aresta caminho4 ⟨1, 0⟩ = 0 ∧
    (le_grafo_aresta caminho4 1 0).arestas = caminho4.arestas ++ [⟨1, 0⟩] ∧
    (le_grafo_aresta caminho4 1 0).arestas.length = caminho4.arestas.length + 1 ∧
    (⟨0, 1⟩ : aresta) ∈ (le_grafo_aresta caminho4 1 0).arestas ∧
    (⟨1, 0⟩ : aresta) ∈ (le_grafo_aresta caminho4 1 0).arestas ∧
    (⟨0, 1⟩ : aresta) ≠ ⟨1, 0⟩ :=
  ⟨by decide, by decide, by decide,
    le_grafo_aresta_par_trocado caminho4 0 1 (by decide) (by decide) (by decide)⟩

/-- The scan of `rotulo_maximo` returns a vertex whose label is at least the
label of the accumulator and of every unvisited vertex of the list; when it
is a vertex of the list, the accumulator and the unvisited vertices before
it have a strictly smaller label. -/
theorem rotulo_maximo_varre_max (l : List vertice) :
    ∀ (i : Nat) (acc : Option (Nat × vertice)) (h : Nat) (x : vertice),
      rotulo_maximo_varre l i acc = some (h, x) →
      (∀ b vb, acc = some (b, vb) → vb.rotulo ≤ x.rotulo) ∧
      (∀ (k : Nat) (y : vertice), l[k]? = some y → y.visitado = 0 → y.rotulo ≤ x.rotulo) ∧
      (acc = some (h, x) ∨
        (i ≤ h ∧ l[h - i]? = some x ∧ x.visitado = 0 ∧
          (∀ b vb, acc = some (b, vb) → vb.rotulo < x.rotulo) ∧
          ∀ (k : Nat) (y : vertice), k < h - i → l[k]? = some y → y.visitado = 0 → y.rotulo < x.rotulo)) := by
  induction l with
  | nil =>
    intro i acc h x hrun
    simp only [rotulo_maximo_varre] at hrun
    subst hrun
    refine ⟨?_, ?_, Or.inl rfl⟩
    · intro b vb e
      cases e
      exact le_refl _
    · intro k y hk
      simp at hk
  | cons vr resto ih =>
    intro i acc h x hrun
    -- the scan continues on `resto` with the accumulator `acc2`
    have lift : ∀ acc2 : Option (Nat × vertice),
        rotulo_maximo_varre resto (i + 1) acc2 = some (h, x) →
        (acc2 = acc ∧ (vr.visitado = 0 → ∃ b vb, acc = some (b, vb) ∧ vr.rotulo ≤ vb.rotulo) ∨
          acc2 = some (i, vr) ∧ vr.visitado = 0 ∧
            (∀ b vb, acc = some (b, vb) → vb.rotulo < vr.rotulo)) →
        (∀ b vb, acc = some (b, vb) → vb.rotulo ≤ x.rotulo) ∧
        (∀ (k : Nat) (y : vertice), (vr :: resto)[k]? = some y → y.visitado = 0 → y.rotulo ≤ x.rotulo) ∧
        (acc = some (h, x) ∨
          (i ≤ h ∧ (vr :: resto)[h - i]? = some x ∧ x.visitado = 0 ∧
            (∀ b vb, acc = some (b, vb) → vb.rotulo < x.rotulo) ∧
            ∀ (k : Nat) (y : vertice), k < h - i → (vr :: resto)[k]? = some y → y.visitado = 0 →
              y.rotulo < x.rotulo)) := by
      intro acc2 hrun2 hacc
      obtain ⟨hA, hB, hC⟩ := ih (i + 1) acc2 h x hrun2
      rcases hacc with ⟨e, hvr⟩ | ⟨e, hv0, hlt⟩
      · -- the head was skipped
        subst e
        refine ⟨hA, ?_, ?_⟩
        · intro k y hk hy
          cases k with
          | zero =>
            simp at hk
            subst hk
            obtain ⟨b, vb, eb, hle⟩ := hvr hy
            exact le_trans hle (hA b vb eb)
          | succ k => exact hB k y (by simpa using hk) hy
        · rcases hC with e | ⟨h1, h2, h3, h4, h5⟩
          · exact Or.inl e
          · right
            have e2 : h - i = (h - (i + 1)) + 1 := by omega
            refine ⟨by omega, by rw [e2]; simpa using h2, h3, h4, ?_⟩
            intro k y hk hky hy
            cases k with
            | zero =>
              simp at hky
              subst hky
              obtain ⟨b, vb, eb, hle⟩ := hvr hy
              exact lt_of_le_of_lt hle (h4 b vb eb)
            | succ k => exact h5 k y (by omega) (by simpa using hky) hy
      · -- the head became the accumulator
        subst e
        have hvx : vr.rotulo ≤ x.rotulo := hA i vr rfl
        refine ⟨fun b vb eb => le_of_lt (lt_of_lt_of_le (hlt b vb eb) hvx), ?_, ?_⟩
        · intro k y hk hy
          cases k with
          | zero =>
            simp at hk
            subst hk
            exact hvx
          | succ k => exact hB k y (by simpa using hk) hy
        · right
          rcases hC with e | ⟨h1, h2, h3, h4, h5⟩
          · cases e
            refine ⟨le_refl _, by simp, hv0, hlt, ?_⟩
            intro k y hk
            omega
          · have e2 : h - i = (h - (i + 1)) + 1 := by omega
            refine ⟨by omega, by rw [e2]; simpa using h2, h3,
              fun b vb eb => lt_trans (hlt b vb eb) (h4 i vr rfl), ?_⟩
            intro k y hk hky hy
            cases k with
            | zero =>
              simp at hky
              rw [← hky]
              exact h4 i vr rfl
            | succ k => exact h5 k y (by omega) (by simpa using hky) hy
    unfold rotulo_maximo_varre at hrun
    by_cases hv : vr.visitado = 0
    · simp only [hv, if_true] at hrun
      cases acc with
      | none =>
        simp only at hrun
        exact lift _ hrun (Or.inr ⟨rfl, hv, by intro b vb e; cases e⟩)
      | some p =>
        obtain ⟨b, vb⟩ := p
        simp only at hrun
        by_cases hgt : vr.rotulo > vb.rotulo
        · simp only [hgt, if_true] at hrun
          refine lift _ hrun (Or.inr ⟨rfl, hv, ?_⟩)
          intro b2 vb2 e
          cases e
          exact hgt
        · simp only [hgt, if_false] at hrun
          exact lift _ hrun (Or.inl ⟨rfl, fun _ => ⟨b, vb, rfl, by omega⟩⟩)
    · simp only [hv, if_false] at hrun
      exact lift _ hrun (Or.inl ⟨rfl, fun h0 => absurd h0 hv⟩)

/-- C14: `rotulo_maximo` returns NULL exactly when no vertex of the list is
unvisited, and then changes nothing; otherwise it returns an unvisited vertex
whose label is at least the label of every unvisited vertex and strictly
greater than the label of every unvisited vertex before it in the list, sets
the visited flag of that vertex to 1 and changes no other field and no other
vertex. -/
theorem rotulo_maximo_escolha (vs : List vertice) :
    ((rotulo_maximo vs).1 = none ↔ ∀ x ∈ vs, x.visitado ≠ 0) ∧
    ((rotulo_maximo vs).1 = none → (rotulo_maximo vs).2 = vs) ∧
    ∀ h, (rotulo_maximo vs).1 = some h →
      ∃ x, vs[h]? = some x ∧ x.visitado = 0 ∧
        (∀ (k : Nat) (y : vertice), vs[k]? = some y → y.visitado = 0 → y.rotulo ≤ x.rotulo) ∧
        (∀ (k : Nat) (y : vertice), k < h → vs[k]? = some y → y.visitado = 0 →
          y.rotulo < x.rotulo) ∧
        (rotulo_maximo vs).2.length = vs.length ∧
        (rotulo_maximo vs).2[h]? = some { x with visitado := 1 } ∧
        ∀ k, k ≠ h → (rotulo_maximo vs).2[k]? = vs[k]? := by
  unfold rotulo_maximo
  rcases rotulo_maximo_varre_spec vs 0 none with ⟨h1, _, h3⟩ | ⟨h, x, h1, h2⟩
  · rw [h1]
    refine ⟨⟨fun _ => h3, fun _ => rfl⟩, fun _ => rfl, ?_⟩
    intro h e
    cases e
  · rw [h1]
    obtain ⟨_, hB, hC⟩ := rotulo_maximo_varre_max vs 0 none h x h1
    rcases hC with e | ⟨_, hget, hv0, _, hbefore⟩
    · cases e
    · simp only [Nat.sub_zero] at hget hbefore
      refine ⟨⟨fun e => (by cases e), ?_⟩, fun e => (by cases e), ?_⟩
      · intro hall
        exact absurd hv0 (hall x (List.getElem?_mem hget))
      · intro h' e
        simp only [Option.some.injEq] at e
        subst e
        refine ⟨x, hget, hv0, hB, hbefore, atualiza_length _ _ _, ?_, ?_⟩
        · simp only
          rw [atualiza_getElem?, if_pos rfl, hget]
          rfl
        · intro k hk
          simp only
          rw [atualiza_getElem?, if_neg hk]

theorem rotulo_de_atualiza (p h : Nat) (vs : List vertice) (y : Nat) :
    rotulo_de (atualiza (fun x => { x with rotulo := p }) h vs) y =
      if y = h ∧ h < vs.length then p else rotulo_de vs y := by
  unfold rotulo_de
  rw [atualiza_getElem?]
  by_cases e : y = h
  · subst e
    by_cases hlt : y < vs.length
    · simp [hlt, List.getElem?_eq_getElem hlt]
    · simp [hlt, List.getElem?_eq_none (Nat.le_of_not_lt hlt)]
  · simp [e]

theorem rotula_raiz_length (ve p : Nat) (arestas : List aresta) (vs : List vertice) :
    (rotula_raiz ve p arestas vs).length = vs.length :=
  length_of_map_eq (rotula_raiz_map_visitado ve p arestas vs)

theorem rotula_length (ve p : Nat) (arestas : List aresta) (vs : List vertice) :
    (rotula ve p arestas vs).length = vs.length :=
  length_of_map_eq (rotula_map_visitado ve p arestas vs)

/-- The first edge loop of `busca_lexicografica`: every vertex joined to `ve`
by an edge gets the label `p`, every other vertex keeps its label. -/
theorem rotula_raiz_rotulo (ve p : Nat) :
    ∀ (arestas : List aresta) (vs : List vertice),
      (∀ ar ∈ arestas, ar.origem < vs.length ∧ ar.destino < vs.length) →
      ∀ y, rotulo_de (rotula_raiz ve p arestas vs) y =
        if (∃ ar ∈ arestas, (ar.origem = ve ∧ ar.destino = y) ∨ (ar.origem = y ∧ ar.destino = ve))
        then p else rotulo_de vs y := by
  intro arestas
  induction arestas with
  | nil => intro vs _ y; simp [rotula_raiz]
  | cons ar resto ih =>
    intro vs hwf y
    have har := hwf ar (List.mem_cons_self _ _)
    have hstep : ∀ vs1 : List vertice, vs1.length = vs.length →
        (rotulo_de vs1 y = if (ar.origem = ve ∧ ar.destino = y) ∨ (ar.origem = y ∧ ar.destino = ve)
          then p else rotulo_de vs y) →
        rotulo_de (rotula_raiz ve p resto vs1) y =
          if (∃ a ∈ ar :: resto, (a.origem = ve ∧ a.destino = y) ∨ (a.origem = y ∧ a.destino = ve))
          then p else rotulo_de vs y := by
      intro vs1 hlen h1
      rw [ih vs1 (fun a ha => by rw [hlen]; exact hwf a (List.mem_cons_of_mem _ ha)) y, h1]
      by_cases hr : ∃ a ∈ resto, (a.origem = ve ∧ a.destino = y) ∨ (a.origem = y ∧ a.destino = ve)
      · have : ∃ a ∈ ar :: resto,
            (a.origem = ve ∧ a.destino = y) ∨ (a.origem = y ∧ a.destino = ve) := by
          obtain ⟨a, ha, h⟩ := hr
          exact ⟨a, List.mem_cons_of_mem _ ha, h⟩
        rw [if_pos hr, if_pos this]
      · rw [if_neg hr]
        by_cases ha : (ar.origem = ve ∧ ar.destino = y) ∨ (ar.origem = y ∧ ar.destino = ve)
        · rw [if_pos ha, if_pos ⟨ar, List.mem_cons_self _ _, ha⟩]
        · have : ¬ ∃ a ∈ ar :: resto,
              (a.origem = ve ∧ a.destino = y) ∨ (a.origem = y ∧ a.destino = ve) := by
            rintro ⟨a, ha2, h⟩
            rcases List.mem_cons.1 ha2 with e | ha2
            · subst e; exact ha h
            · exact hr ⟨a, ha2, h⟩
          rw [if_neg ha, if_neg this]
    show rotulo_de (rotula_raiz ve p resto _) y = _
    dsimp only
    by_cases h1 : ve = ar.origem
    · rw [if_pos h1]
      apply hstep _ (atualiza_length _ _ _)
      rw [rotulo_de_atualiza]
      have hiff : (y = ar.destino ∧ ar.destino < vs.length) ↔
          ((ar.origem = ve ∧ ar.destino = y) ∨ (ar.origem = y ∧ ar.destino = ve)) := by
        omega
      simp only [hiff]
    · rw [if_neg h1]
      by_cases h2 : ve = ar.destino
      · rw [if_pos h2]
        apply hstep _ (atualiza_length _ _ _)
        rw [rotulo_de_atualiza]
        have hiff : (y = ar.origem ∧ ar.origem < vs.length) ↔
            ((ar.origem = ve ∧ ar.destino = y) ∨ (ar.origem = y ∧ ar.destino = ve)) := by
          omega
        simp only [hiff]
      · rw [if_neg h2]
        apply hstep _ rfl
        have : ¬ ((ar.origem = ve ∧ ar.destino = y) ∨ (ar.origem = y ∧ ar.destino = ve)) := by
          omega
        rw [if_neg this]

/-- The edge loop of the main loop of `busca_lexicografica`: every vertex
joined to `ve` by an edge gets the label `max old p`, every other vertex
keeps its label. -/
theorem rotula_rotulo (ve p : Nat) :
    ∀ (arestas : List aresta) (vs : List vertice),
      (∀ ar ∈ arestas, ar.origem < vs.length ∧ ar.destino < vs.length) →
      ∀ y, rotulo_de (rotula ve p arestas vs) y =
        if (∃ ar ∈ arestas, (ar.origem = ve ∧ ar.destino = y) ∨ (ar.origem = y ∧ ar.destino = ve))
        then max (rotulo_de vs y) p else rotulo_de vs y := by
  intro arestas
  induction arestas with
  | nil => intro vs _ y; simp [rotula]
  | cons ar resto ih =>
    intro vs hwf y
    have har := hwf ar (List.mem_cons_self _ _)
    have hstep : ∀ vs1 : List vertice, vs1.length = vs.length →
        (rotulo_de vs1 y = if (ar.origem = ve ∧ ar.destino = y) ∨ (ar.origem = y ∧ ar.destino = ve)
          then max (rotulo_de vs y) p else rotulo_de vs y) →
        rotulo_de (rotula ve p resto vs1) y =
          if (∃ a ∈ ar :: resto, (a.origem = ve ∧ a.destino = y) ∨ (a.origem = y ∧ a.destino = ve))
          then max (rotulo_de vs y) p else rotulo_de vs y := by
      intro vs1 hlen h1
      rw [ih vs1 (fun a ha => by rw [hlen]; exact hwf a (List.mem_cons_of_mem _ ha)) y, h1]
      by_cases hr : ∃ a ∈ resto, (a.origem = ve ∧ a.destino = y) ∨ (a.origem = y ∧ a.destino = ve)
      · have : ∃ a ∈ ar :: resto,
            (a.origem = ve ∧ a.destino = y) ∨ (a.origem = y ∧ a.destino = ve) := by
          obtain ⟨a, ha, h⟩ := hr
          exact ⟨a, List.mem_cons_of_mem _ ha, h⟩
        rw [if_pos hr, if_pos this]
        split_ifs <;> omega
      · rw [if_neg hr]
        by_cases ha : (ar.origem = ve ∧ ar.destino = y) ∨ (ar.origem = y ∧ ar.destino = ve)
        · rw [if_pos ha, if_pos ⟨ar, List.mem_cons_self _ _, ha⟩]
        · have : ¬ ∃ a ∈ ar :: resto,
              (a.origem = ve ∧ a.destino = y) ∨ (a.origem = y ∧ a.destino = ve) := by
            rintro ⟨a, ha2, h⟩
            rcases List.mem_cons.1 ha2 with e | ha2
            · subst e; exact ha h
            · exact hr ⟨a, ha2, h⟩
          rw [if_neg ha, if_neg this]
    -- the label of `y` after the conditional store on the vertex `d`
    have hcond : ∀ d, d < vs.length →
        rotulo_de (if p > rotulo_de vs d then
            atualiza (fun x => { x with rotulo := p }) d vs else vs) y =
          if y = d then max (rotulo_de vs y) p else rotulo_de vs y := by
      intro d hd
      by_cases hgt : p > rotulo_de vs d
      · rw [if_pos hgt, rotulo_de_atualiza]
        by_cases e : y = d
        · subst e
          simp only [hd, and_self, if_true]
          omega
        · simp [e]
      · rw [if_neg hgt]
        by_cases e : y = d
        · subst e
          simp only [if_true]
          omega
        · simp [e]
    have hlencond : ∀ d, (if p > rotulo_de vs d then
        atualiza (fun x => { x with rotulo := p }) d vs else vs).length = vs.length := by
      intro d
      split_ifs
      · exact atualiza_length _ _ _
      · rfl
    show rotulo_de (rotula ve p resto _) y = _
    dsimp only
    by_cases h1 : ve = ar.origem
    · rw [if_pos h1]
      apply hstep _ (hlencond _)
      rw [hcond _ har.2]
      have hiff : (y = ar.destino) ↔
          ((ar.origem = ve ∧ ar.destino = y) ∨ (ar.origem = y ∧ ar.destino = ve)) := by
        omega
      simp only [hiff]
    · rw [if_neg h1]
      by_cases h2 : ve = ar.destino
      · rw [if_pos h2]
        apply hstep _ (hlencond _)
        rw [hcond _ har.1]
        have hiff : (y = ar.origem) ↔
            ((ar.origem = ve ∧ ar.destino = y) ∨ (ar.origem = y ∧ ar.destino = ve)) := by
          omega
        simp only [hiff]
      · rw [if_neg h2]
        apply hstep _ rfl
        have : ¬ ((ar.origem = ve ∧ ar.destino = y) ∨ (ar.origem = y ∧ ar.destino = ve)) := by
          omega
        rw [if_neg this]

theorem rotulo_de_atualiza_visitado (h : Nat) (vs : List vertice) (y : Nat) :
    rotulo_de (atualiza (fun x => { x with visitado := 1 }) h vs) y = rotulo_de vs y := by
  unfold rotulo_de
  rw [atualiza_getElem?]
  by_cases e : y = h
  · subst e
    cases hy : vs[y]? <;> simp
  · simp [e]

theorem rotulo_de_atualiza_raiz (p h : Nat) (vs : List vertice) (y : Nat) :
    rotulo_de (atualiza (fun x => { x with rotulo := p, visitado := 1 }) h vs) y =
      if y = h ∧ h < vs.length then p else rotulo_de vs y := by
  unfold rotulo_de
  rw [atualiza_getElem?]
  by_cases e : y = h
  · subst e
    by_cases hlt : y < vs.length
    · simp [hlt, List.getElem?_eq_getElem hlt]
    · simp [hlt, List.getElem?_eq_none (Nat.le_of_not_lt hlt)]
  · simp [e]

/-- The text of `busca_lexicografica` up to the `while` loop, for a root that
is a vertex of `g`: the loop starts from the state left by the first edge
loop, with the root in slot `n-1` and `tam_g = n-1`. -/
theorem busca_lexicografica_desdobra (g : grafo) (r : Nat) (v : List (Option Nat))
    (hn : g.vertices.length < UINT_MOD) (hr : r < g.vertices.length)
    (hv : g.vertices.length ≤ v.length) :
    busca_lexicografica r g v =
      match busca_laco (g.vertices.length + 1) g.arestas
          (rotula_raiz r (g.vertices.length - 1) g.arestas
            (atualiza (fun x => { x with rotulo := g.vertices.length, visitado := 1 }) r
              g.vertices))
          (v.set (g.vertices.length - 1) (some r)) (g.vertices.length - 1) with
      | none => none
      | some (vs, v2) => some ({ g with vertices := vs }, v2) := by
  unfold busca_lexicografica
  rw [busca_vertice_eq g r hr]
  simp only
  rw [tam_eq _ hn, usub_um _ (by omega) hn]
  have hidx : g.vertices.length - 1 < v.length := by omega
  simp only [hidx, if_true]

/-- One iteration of the `while` loop of `busca_lexicografica` when
`rotulo_maximo` returns the vertex `h`. -/
theorem busca_laco_passo (fuel : Nat) (arestas : List aresta) (vs : List vertice)
    (v : List (Option Nat)) (t h : Nat) (hrm : (rotulo_maximo vs).1 = some h)
    (ht1 : 1 ≤ t) (ht2 : t < UINT_MOD) (hidx : t - 1 < v.length) :
    busca_laco (fuel + 1) arestas vs v t =
      busca_laco fuel arestas (rotula h (t - 1) arestas (rotulo_maximo vs).2)
        (v.set (t - 1) (some h)) (t - 1) := by
  rw [busca_laco]
  rcases rotulo_maximo_spec vs with ⟨e, _⟩ | ⟨h2, e, _⟩
  · rw [e] at hrm
    cases hrm
  · rw [e] at hrm ⊢
    simp only [Option.some.injEq] at hrm
    subst hrm
    simp only [usub_um t ht1 ht2, hidx, if_true]

/-- C16 (counterexample): on a single vertex A with an edge from A to A, in
the state left by construction, the root A ends the first edge loop, and the
whole run, with label 0 = n-1, not with label n = 1. -/
theorem busca_lexicografica_laco_rotulo_raiz :
    bem_formado laco1 ∧ laco1.vertices.length = 1 ∧
    (∀ x ∈ laco1.vertices, x.rotulo = 0 ∧ x.visitado = 0) ∧
    rotulo_de (rotula_raiz 0 0 laco1.arestas
      (atualiza (fun x => { x with rotulo := 1, visitado := 1 }) 0 laco1.vertices)) 0 = 0 ∧
    (busca_lexicografica 0 laco1 [none]).map (fun s => (rotulo_de s.1.vertices 0, s.2))
      = some (0, [some 0]) := by
  refine ⟨by decide, by decide, by decide, by decide, by decide⟩

/-- C16 (amended): label propagation in `busca_lexicografica` from a root `r`
of a well-formed graph.  The run is the `while` loop started from the state
left by the first edge loop; in that state every vertex joined to the root
by an edge has label `n-1`, the root has label `n` unless an edge joins it to
itself, and every other vertex keeps its label.  In every iteration of the
loop that places a vertex `h` at position `t-1`, every vertex joined to `h`
by an edge gets the label `max old (t-1)`, every other vertex keeps its
label, and no label decreases. -/
theorem busca_lexicografica_rotulos (g : grafo) (r : Nat) (v : List (Option Nat))
    (hwf : bem_formado g) (hr : r < g.vertices.length) (hv : g.vertices.length ≤ v.length) :
    (busca_lexicografica r g v =
      match busca_laco (g.vertices.length + 1) g.arestas
          (rotula_raiz r (g.vertices.length - 1) g.arestas
            (atualiza (fun x => { x with rotulo := g.vertices.length, visitado := 1 }) r
              g.vertices))
          (v.set (g.vertices.length - 1) (some r)) (g.vertices.length - 1) with
      | none => none
      | some (vs, v2) => some ({ g with vertices := vs }, v2)) ∧
    (∀ y, rotulo_de (rotula_raiz r (g.vertices.length - 1) g.arestas
        (atualiza (fun x => { x with rotulo := g.vertices.length, visitado := 1 }) r
          g.vertices)) y =
      if adjacente g r y then g.vertices.length - 1
      else if y = r then g.vertices.length
      else rotulo_de g.vertices y) ∧
    (∀ (fuel : Nat) (vs : List vertice) (w : List (Option Nat)) (t h : Nat),
      vs.length = g.vertices.length → (rotulo_maximo vs).1 = some h →
      1 ≤ t → t < UINT_MOD → t - 1 < w.length →
      busca_laco (fuel + 1) g.arestas vs w t =
        busca_laco fuel g.arestas (rotula h (t - 1) g.arestas (rotulo_maximo vs).2)
          (w.set (t - 1) (some h)) (t - 1) ∧
      ∀ y, rotulo_de (rotula h (t - 1) g.arestas (rotulo_maximo vs).2) y =
          (if adjacente g h y then max (rotulo_de vs y) (t - 1) else rotulo_de vs y) ∧
        rotulo_de vs y ≤ rotulo_de (rotula h (t - 1) g.arestas (rotulo_maximo vs).2) y) := by
  have hn : g.vertices.length < UINT_MOD := by
    have := hwf.1
    simp only [UINT_MOD]; omega
  refine ⟨busca_lexicografica_desdobra g r v hn hr hv, ?_, ?_⟩
  · intro y
    rw [rotula_raiz_rotulo r _ g.arestas _ (by rw [atualiza_length]; exact hwf.2) y,
      rotulo_de_atualiza_raiz]
    have hadj : (∃ ar ∈ g.arestas,
        (ar.origem = r ∧ ar.destino = y) ∨ (ar.origem = y ∧ ar.destino = r)) ↔
        adjacente g r y := Iff.rfl
    simp only [hadj, hr, and_true]
  · intro fuel vs w t h hlen hrm ht1 ht2 hidx
    refine ⟨busca_laco_passo fuel g.arestas vs w t h hrm ht1 ht2 hidx, ?_⟩
    intro y
    have hvs2 : ∀ z, rotulo_de (rotulo_maximo vs).2 z = rotulo_de vs z := by
      intro z
      rcases rotulo_maximo_spec vs with ⟨e, _⟩ | ⟨h2, e, _⟩
      · rw [e]
      · rw [e]
        exact rotulo_de_atualiza_visitado _ _ _
    have hlen2 : (rotulo_maximo vs).2.length = vs.length := by
      rcases rotulo_maximo_spec vs with ⟨e, _⟩ | ⟨h2, e, _⟩
      · rw [e]
      · rw [e]
        exact atualiza_length _ _ _
    have hchar := rotula_rotulo h (t - 1) g.arestas (rotulo_maximo vs).2
      (by rw [hlen2, hlen]; exact hwf.2) y
    have hadj : (∃ ar ∈ g.arestas,
        (ar.origem = h ∧ ar.destino = y) ∨ (ar.origem = y ∧ ar.destino = h)) ↔
        adjacente g h y := Iff.rfl
    simp only [hadj, hvs2] at hchar
    refine ⟨hchar, ?_⟩
    rw [hchar]
    split_ifs <;> omega

theorem busca_lexicografica_rotulos_witness :
    bem_formado caminho4 ∧
    (busca_lexicografica 1 caminho4 [none, none, none, none] =
      match busca_laco (caminho4.vertices.length + 1) caminho4.arestas
          (rotula_raiz 1 (caminho4.vertices.length - 1) caminho4.arestas
            (atualiza (fun x => { x with rotulo := caminho4.vertices.length, visitado := 1 }) 1
              caminho4.vertices))
          ([none, none, none, none].set (caminho4.vertices.length - 1) (some 1))
          (caminho4.vertices.length - 1) with
      | none => none
      | some (vs, v2) => some ({ caminho4 with vertices := vs }, v2)) ∧
    (∀ y, rotulo_de (rotula_raiz 1 (caminho4.vertices.length - 1) caminho4.arestas
        (atualiza (fun x => { x with rotulo := caminho4.vertices.length, visitado := 1 }) 1
          caminho4.vertices)) y =
      if adjacente caminho4 1 y then caminho4.vertices.length - 1
      else if y = 1 then caminho4.vertices.length
      else rotulo_de caminho4.vertices y) ∧
    (∀ (fuel : Nat) (vs : List vertice) (w : List (Option Nat)) (t h : Nat),
      vs.length = caminho4.vertices.length → (rotulo_maximo vs).1 = some h →
      1 ≤ t → t < UINT_MOD → t - 1 < w.length →
      busca_laco (fuel + 1) caminho4.arestas vs w t =
        busca_laco fuel caminho4.arestas (rotula h (t - 1) caminho4.arestas (rotulo_maximo vs).2)
          (w.set (t - 1) (some h)) (t - 1) ∧
      ∀ y, rotulo_de (rotula h (t - 1) caminho4.arestas (rotulo_maximo vs).2) y =
          (if adjacente caminho4 h y then max (rotulo_de vs y) (t - 1) else rotulo_de vs y) ∧
        rotulo_de vs y ≤
          rotulo_de (rotula h (t - 1) caminho4.arestas (rotulo_maximo vs).2) y) :=
  ⟨by decide, busca_lexicografica_rotulos caminho4 1 [none, none, none, none]
    (by decide) (by decide) (by decide)⟩

theorem mem_outros_iff (g : grafo) (vr h : Nat) :
    h ∈ outros vr g.arestas ↔ adjacente g vr h := by
  constructor
  · intro hh
    simp only [outros, List.mem_filterMap] at hh
    obtain ⟨ar, har, e⟩ := hh
    refine ⟨ar, har, ?_⟩
    split_ifs at e with h1 h2
    · simp at e
      right; exact ⟨e, h1.symm⟩
    · simp at e
      left; exact ⟨h2.symm, e⟩
  · rintro ⟨ar, har, ⟨h1, h2⟩ | ⟨h1, h2⟩⟩
    · by_cases e : vr = ar.destino
      · have := mem_outros_origem vr g.arestas ar har e
        rw [h1, e, h2] at this
        rw [e, h2]
        exact this
      · have := mem_outros_destino vr g.arestas ar har e h1.symm
        rw [h2] at this
        exact this
    · have := mem_outros_origem vr g.arestas ar har h2.symm
      rw [h1] at this
      exact this

theorem adjacente_lt (g : grafo) (hwf : bem_formado g) (a b : Nat) (h : adjacente g a b) :
    a < g.vertices.length ∧ b < g.vertices.length := by
  obtain ⟨ar, har, h⟩ := h
  have := hwf.2 ar har
  omega

theorem adjacente_symm (g : grafo) (a b : Nat) (h : adjacente g a b) : adjacente g b a := by
  obtain ⟨ar, har, h⟩ := h
  exact ⟨ar, har, h.symm⟩

theorem adjacente_ne (g : grafo) (hsl : sem_lacos g) (a b : Nat) (h : adjacente g a b) :
    a ≠ b := by
  obtain ⟨ar, har, h⟩ := h
  have := hsl ar har
  omega

theorem maior_ate_congr (C C2 : List Nat) (v : List (Option Nat)) :
    ∀ i, (∀ l, l < i → cor_slot C2 v l = cor_slot C v l) → maior_ate C2 v i = maior_ate C v i := by
  intro i
  induction i with
  | zero => intro _; rfl
  | succ i ih =>
    intro h
    simp only [maior_ate]
    rw [ih (fun l hl => h l (by omega)), h i (by omega)]

/-- One iteration of `colore` from a state satisfying `inv_cores` keeps the
saturation and counter invariants, and the first-fit invariant on a graph
without self-loops. -/
theorem inv_guloso_step (g : grafo) (v : List (Option Nat)) (hwf : bem_formado g)
    (hv : lista_vertices g v) (i : Nat) (vs : List vertice) (num vr : Nat)
    (hi1 : 1 ≤ i) (hvr : v[i]? = some (some vr)) (hlt : vr < g.vertices.length)
    (hP : inv_cores g v i (vs, num)) :
    ∃ st1, colore_passo g.arestas v (vs, num) i = some st1 ∧
      inv_cores g v (i + 1) st1 ∧
      (inv_cheio g v i (vs, num) → inv_cheio g v (i + 1) st1) ∧
      (inv_conta v i (vs, num) → inv_conta v (i + 1) st1) ∧
      (sem_lacos g → inv_minimo g v i (vs, num) → inv_minimo g v (i + 1) st1) := by
  obtain ⟨c, hrun, hc1, hc2, hmin, hfull, hP2⟩ :=
    inv_cores_step g v hwf hv i vs num vr hi1 hvr hlt hP
  refine ⟨_, hrun, hP2, ?_, ?_, ?_⟩
  all_goals
    obtain ⟨hlen, hprev, hnext⟩ := hP
    simp only at hlen hprev hnext
    have hmap := atualiza_map_set (fun x => x.cor) (fun x => { x with cor := c }) c
      (fun _ => rfl) vr vs
    have hself : ((vs.map (fun x => x.cor)).set vr c)[vr]? = some c := by
      rw [List.getElem?_set]
      simp [hlen, hlt]
    have hne : ∀ l w, l < i → v[l]? = some (some w) → w ≠ vr := by
      intro l w hl hw e
      subst e
      have := lista_vertices_inj g v hv l i _ hw hvr
      omega
    have hset : ∀ (a w : Nat), w ≠ vr →
        ((vs.map (fun x => x.cor)).set vr a)[w]? = (vs.map (fun x => x.cor))[w]? := by
      intro a w hw
      rw [List.getElem?_set]
      have : ¬ vr = w := fun e => hw e.symm
      simp only [this, if_false]
  · -- saturation
    intro hQ k u hk1 hk2 hvk hall
    simp only at hall ⊢
    rw [hmap] at hall ⊢
    by_cases hki : i = k
    · subst hki
      have huv : vr = u := by
        rw [hvr] at hvk
        simpa using hvk
      subst huv
      have hcu : c = 1 := by
        apply hfull
        intro j hj1 hj2
        obtain ⟨l, w, hl, hw, hadj, hcw⟩ := hall j hj1 hj2
        refine ⟨w, (mem_outros_iff g vr w).2 hadj, ?_⟩
        rw [hset 1 w (hne l w hl hw), ← hset c w (hne l w hl hw)]
        exact hcw
      rw [hself, hcu]
    · have hku : u ≠ vr := hne k u (by omega) hvk
      rw [hset c u hku]
      apply hQ k u hk1 (by omega) hvk
      intro j hj1 hj2
      obtain ⟨l, w, hl, hw, hadj, hcw⟩ := hall j hj1 hj2
      refine ⟨l, w, hl, hw, hadj, ?_⟩
      rw [← hset c w (hne l w (by omega) hw)]
      exact hcw
  · -- counter
    intro hQ
    simp only [inv_conta] at hQ ⊢
    rw [hmap]
    have hi0 : i ≠ 0 := by omega
    simp only [maior_ate, hi0, if_false]
    have hslot : cor_slot ((vs.map (fun x => x.cor)).set vr c) v i = c := by
      simp only [cor_slot, hvr, List.getD_eq_getElem?_getD, hself, Option.getD_some]
    have hold : maior_ate ((vs.map (fun x => x.cor)).set vr c) v i
        = maior_ate (vs.map (fun x => x.cor)) v i := by
      apply maior_ate_congr
      intro l hl
      simp only [cor_slot]
      obtain ⟨w, hw, _⟩ := lista_vertices_get g v hv l (by
        have := getElem?_lt_of_eq_some _ _ _ hvr
        rw [lista_vertices_length g v hv] at this
        omega)
      simp only [hw, List.getD_eq_getElem?_getD, hset c w (hne l w hl hw)]
    rw [hslot, hold, ← hQ]
    split_ifs <;> omega
  · -- first fit
    intro hsl hQ k u cu hk1 hk2 hvk hcu c0 hc01 hc02 hfree
    simp only at hcu hfree ⊢
    rw [hmap] at hcu hfree ⊢
    by_cases hki : i = k
    · subst hki
      have huv : vr = u := by
        rw [hvr] at hvk
        simpa using hvk
      subst huv
      have hcc : c = cu := by
        rw [hself] at hcu
        simpa using hcu
      subst hcc
      have hfree1 : ∀ h ∈ outros vr g.arestas,
          ((vs.map (fun x => x.cor)).set vr 1)[h]? ≠ some c0 := by
        intro h hh e
        have hadj := (mem_outros_iff g vr h).1 hh
        have hhu : h ≠ vr := fun e => adjacente_ne g hsl vr h hadj e.symm
        rw [hset 1 h hhu] at e
        obtain ⟨l, hl, hvl⟩ := lista_vertices_surj g v hv h (adjacente_lt g hwf vr h hadj).2
        by_cases hlk : l < i
        · exact hfree l h hlk hvl hadj (by rw [hset c h hhu]; exact e)
        · have := hnext l h (by omega) hvl
          rw [e] at this
          cases this
          omega
      obtain ⟨hle, hcfree⟩ := hmin c0 hc01 hc02 hfree1
      refine ⟨hle, ?_⟩
      intro l w hl hw hadj e
      apply hcfree w ((mem_outros_iff g vr w).2 hadj)
      rw [hset 1 w (hne l w hl hw), ← hset c w (hne l w hl hw)]
      exact e
    · have hku : u ≠ vr := hne k u (by omega) hvk
      rw [hset c u hku] at hcu
      obtain ⟨hle, hcfree⟩ := hQ k u cu hk1 (by omega) hvk hcu c0 hc01 hc02 (by
        intro l w hl hw hadj e
        apply hfree l w hl hw hadj
        rw [hset c w (hne l w (by omega) hw)]
        exact e)
      refine ⟨hle, ?_⟩
      intro l w hl hw hadj e
      apply hcfree l w hl hw hadj
      rw [← hset c w (hne l w (by omega) hw)]
      exact e

/-- The run of `colore` from all-zero colours on a non-empty well-formed
graph with `v` listing each vertex once: it returns, and the final state
satisfies the colour, saturation and counter invariants, the first-fit
invariant when the graph has no self-loop, and the invariant of a proper
colouring when moreover no vertex has more than 48 distinct neighbours. -/
theorem colore_gulosa (g : grafo) (v : List (Option Nat)) (hwf : bem_formado g)
    (hpos : 0 < g.vertices.length) (hv : lista_vertices g v)
    (h0 : ∀ x ∈ g.vertices, x.cor = 0) :
    ∃ vs k, colore g v = some ({ g with vertices := vs }, k) ∧
      inv_cores g v g.vertices.length (vs, k) ∧
      inv_cheio g v g.vertices.length (vs, k) ∧
      inv_conta v g.vertices.length (vs, k) ∧
      (sem_lacos g → inv_minimo g v g.vertices.length (vs, k)) ∧
      (sem_lacos g → (∀ u, u < g.vertices.length → (vizinhos g u).length ≤ 48) →
        inv_propria g v g.vertices.length (vs, k)) := by
  have hn : g.vertices.length < UINT_MOD := by
    have := hwf.1
    simp only [UINT_MOD]; omega
  obtain ⟨vs, k, hrun, h1, h2, h3, h4, h5⟩ := colore_run g v hn hpos hv
    (fun i st => inv_cores g v i st ∧ inv_cheio g v i st ∧ inv_conta v i st ∧
      (sem_lacos g → inv_minimo g v i st) ∧
      (sem_lacos g → (∀ u, u < g.vertices.length → (vizinhos g u).length ≤ 48) →
        inv_propria g v i st))
    (by
      intro vr hvr hlt
      refine ⟨inv_cores_init g v hv h0 vr hvr hlt, ?_, ?_, ?_, ?_⟩
      · intro k u hk1 hk2
        omega
      · simp [inv_conta, maior_ate]
      · intro _ k u cu hk1 hk2
        omega
      · intro hsl _
        exact inv_propria_init g v h0 hsl vr)
    (by
      rintro i ⟨vs, num⟩ vr hi1 hi2 hvr hlt ⟨hA, hB, hC, hD, hE⟩
      obtain ⟨st1, hrun, hA2, hB2, hC2, hD2⟩ :=
        inv_guloso_step g v hwf hv i vs num vr hi1 hvr hlt hA
      refine ⟨st1, hrun, hA2, hB2 hB, hC2 hC, fun hsl => hD2 hsl (hD hsl), ?_⟩
      intro hsl hdeg
      obtain ⟨st2, hrun2, _, hE2⟩ :=
        inv_propria_step g v hwf hv hsl hdeg i vs num vr hi1 hvr hlt hA (hE hsl hdeg)
      rw [hrun] at hrun2
      cases hrun2
      exact hE2)
  exact ⟨vs, k, hrun, h1, h2, h3, h4, h5⟩

theorem colore_vazio (g : grafo) (v : List (Option Nat)) (hv : lista_vertices g v)
    (h0 : g.vertices.length = 0) : colore g v = none := by
  have hlen := lista_vertices_length g v hv
  have : v = [] := List.length_eq_zero.1 (by omega)
  subst this
  simp [colore]

/-- A property proved of the result of `colore` on every non-empty graph
holds of every result of `colore`, and `colore` returns on every non-empty
graph. -/
theorem colore_todo_resultado (g : grafo) (v : List (Option Nat)) (hv : lista_vertices g v)
    (Q : grafo → Nat → Prop)
    (h : 0 < g.vertices.length → ∃ g1 k, colore g v = some (g1, k) ∧ Q g1 k) :
    (0 < g.vertices.length → ∃ g1 k, colore g v = some (g1, k)) ∧
    ∀ g1 k, colore g v = some (g1, k) → Q g1 k := by
  constructor
  · intro hpos
    obtain ⟨g1, k, hrun, _⟩ := h hpos
    exact ⟨g1, k, hrun⟩
  · intro g1 k hrun
    by_cases hpos : 0 < g.vertices.length
    · obtain ⟨g2, k2, hrun2, hQ⟩ := h hpos
      rw [hrun] at hrun2
      cases hrun2
      exact hQ
    · rw [colore_vazio g v hv (by omega)] at hrun
      cases hrun

/-- C15: from all-zero colours on a graph without self-loops, `colore` is the
first-fit colouring along `v`: `v[0]` gets colour 1 and, for `i >= 1`, the
colour of `v[i]` is at most every colour of `1..49` that no neighbour of
`v[i]` among `v[0..i-1]` holds, and when there is such a colour no neighbour
among `v[0..i-1]` holds the colour of `v[i]`. -/
theorem colore_primeira_cor_livre (g : grafo) (v : List (Option Nat))
    (hwf : bem_formado g) (hv : lista_vertices g v)
    (h0 : ∀ x ∈ g.vertices, x.cor = 0) (hsl : sem_lacos g) :
    (0 < g.vertices.length → ∃ g1 k, colore g v = some (g1, k)) ∧
    ∀ g1 k, colore g v = some (g1, k) →
      (∀ u, v[0]? = some (some u) → cor u g1 = some 1) ∧
      ∀ i u, 1 ≤ i → v[i]? = some (some u) →
        ∃ cu, cor u g1 = some cu ∧ 1 ≤ cu ∧
          ∀ c, 1 ≤ c → c ≤ 49 →
            (∀ l w, l < i → v[l]? = some (some w) → adjacente g u w → cor w g1 ≠ some c) →
            cu ≤ c ∧
            ∀ l w, l < i → v[l]? = some (some w) → adjacente g u w → cor w g1 ≠ some cu := by
  apply colore_todo_resultado g v hv
  intro hpos
  obtain ⟨vs, k, hrun, hA, _, _, hD, _⟩ := colore_gulosa g v hwf hpos hv h0
  have hD := hD hsl
  obtain ⟨hlen, hprev, _⟩ := hA
  simp only at hlen hprev
  have hvlen := lista_vertices_length g v hv
  have hslot : ∀ l w, v[l]? = some (some w) → l < g.vertices.length ∧ w < g.vertices.length := by
    intro l w hw
    have hl := getElem?_lt_of_eq_some _ _ _ hw
    rw [hvlen] at hl
    obtain ⟨w2, hw2, hlt⟩ := lista_vertices_get g v hv l hl
    rw [hw] at hw2
    cases hw2
    exact ⟨hl, hlt⟩
  have hcor : ∀ w, w < g.vertices.length →
      cor w { g with vertices := vs } = (vs.map (fun x => x.cor))[w]? := by
    intro w hw
    exact cor_eq _ w (by simp only [hlen]; exact hw)
  refine ⟨_, k, hrun, ?_, ?_⟩
  · intro u hu
    obtain ⟨c, hc, hc1, hc2, _⟩ := hprev 0 u hpos hu
    rw [hcor u (hslot 0 u hu).2, hc]
    congr 1
    omega
  · intro i u hi hu
    obtain ⟨hil, hul⟩ := hslot i u hu
    obtain ⟨cu, hcu, hcu1, _, _⟩ := hprev i u hil hu
    refine ⟨cu, by rw [hcor u hul]; exact hcu, hcu1, ?_⟩
    intro c hc1 hc2 hfree
    obtain ⟨hle, hcfree⟩ := hD i u cu hi hil hu hcu c hc1 hc2 (by
      intro l w hl hw hadj e
      apply hfree l w hl hw hadj
      rw [hcor w (hslot l w hw).2]
      exact e)
    refine ⟨hle, ?_⟩
    intro l w hl hw hadj e
    apply hcfree l w hl hw hadj
    rw [hcor w (hslot l w hw).2] at e
    exact e

theorem colore_primeira_cor_livre_witness :
    bem_formado caminho4 ∧ lista_vertices caminho4 [some 3, some 2, some 0, some 1] ∧
    ((0 < caminho4.vertices.length →
        ∃ g1 k, colore caminho4 [some 3, some 2, some 0, some 1] = some (g1, k)) ∧
    ∀ g1 k, colore caminho4 [some 3, some 2, some 0, some 1] = some (g1, k) →
      (∀ u, [some 3, some 2, some 0, some 1][0]? = some (some u) → cor u g1 = some 1) ∧
      ∀ i u, 1 ≤ i → [some 3, some 2, some 0, some 1][i]? = some (some u) →
        ∃ cu, cor u g1 = some cu ∧ 1 ≤ cu ∧
          ∀ c, 1 ≤ c → c ≤ 49 →
            (∀ l w, l < i → [some 3, some 2, some 0, some 1][l]? = some (some w) →
              adjacente caminho4 u w → cor w g1 ≠ some c) →
            cu ≤ c ∧
            ∀ l w, l < i → [some 3, some 2, some 0, some 1][l]? = some (some w) →
              adjacente caminho4 u w → cor w g1 ≠ some cu) :=
  ⟨by decide, by decide,
    colore_primeira_cor_livre caminho4 [some 3, some 2, some 0, some 1]
      (by decide) (by decide) (by decide) (by decide)⟩

/-- C17: within the capacity of the 50-entry array (no vertex with more than
48 distinct neighbours), from all-zero colours on a graph without self-loops
and with `v` listing each vertex once, `colore` returns on every non-empty
graph, and after it every edge has endpoints of different colours and every
colour is between 1 and 49. -/
theorem colore_propria_na_capacidade (g : grafo) (v : List (Option Nat))
    (hwf : bem_formado g) (hv : lista_vertices g v)
    (h0 : ∀ x ∈ g.vertices, x.cor = 0) (hsl : sem_lacos g)
    (hdeg : ∀ u, u < g.vertices.length → (vizinhos g u).length ≤ 48) :
    (0 < g.vertices.length → ∃ g1 k, colore g v = some (g1, k)) ∧
    ∀ g1 k, colore g v = some (g1, k) →
      (∀ ar ∈ g.arestas, cor ar.origem g1 ≠ cor ar.destino g1) ∧
      ∀ u, u < g.vertices.length → ∃ c, cor u g1 = some c ∧ 1 ≤ c ∧ c ≤ 49 := by
  apply colore_todo_resultado g v hv
  intro hpos
  obtain ⟨vs, k, hrun, hA, _, _, _, hE⟩ := colore_gulosa g v hwf hpos hv h0
  obtain ⟨hprop, _, _⟩ := hE hsl hdeg
  obtain ⟨hlen, hprev, _⟩ := hA
  simp only at hlen hprev hprop
  have hcor : ∀ w, w < g.vertices.length →
      cor w { g with vertices := vs } = (vs.map (fun x => x.cor))[w]? := by
    intro w hw
    exact cor_eq _ w (by simp only [hlen]; exact hw)
  have hcol : ∀ u, u < g.vertices.length →
      ∃ c, (vs.map (fun x => x.cor))[u]? = some c ∧ 1 ≤ c ∧ c ≤ 49 := by
    intro u hu
    obtain ⟨j, hj, hvj⟩ := lista_vertices_surj g v hv u hu
    obtain ⟨c, hc, hc1, _, hc49⟩ := hprev j u hj hvj
    exact ⟨c, hc, hc1, hc49⟩
  refine ⟨_, k, hrun, ?_, ?_⟩
  · intro ar har e
    have hwfa := hwf.2 ar har
    rw [hcor _ hwfa.1, hcor _ hwfa.2] at e
    obtain ⟨a, ha, ha1, _⟩ := hcol ar.origem hwfa.1
    obtain ⟨b, hb, hb1, _⟩ := hcol ar.destino hwfa.2
    apply hprop ar har a b ha hb (by omega) (by omega)
    rw [ha, hb] at e
    cases e
    rfl
  · intro u hu
    obtain ⟨c, hc, hc1, hc49⟩ := hcol u hu
    exact ⟨c, by rw [hcor u hu]; exact hc, hc1, hc49⟩

theorem colore_propria_na_capacidade_witness :
    bem_formado caminho4 ∧ lista_vertices caminho4 [some 3, some 2, some 0, some 1] ∧
    ((0 < caminho4.vertices.length →
        ∃ g1 k, colore caminho4 [some 3, some 2, some 0, some 1] = some (g1, k)) ∧
    ∀ g1 k, colore caminho4 [some 3, some 2, some 0, some 1] = some (g1, k) →
      (∀ ar ∈ caminho4.arestas, cor ar.origem g1 ≠ cor ar.destino g1) ∧
      ∀ u, u < caminho4.vertices.length → ∃ c, cor u g1 = some c ∧ 1 ≤ c ∧ c ≤ 49) :=
  ⟨by decide, by decide,
    colore_propria_na_capacidade caminho4 [some 3, some 2, some 0, some 1]
      (by decide) (by decide) (by decide) (by decide) (by decide)⟩

/-- The run of `colore` on a non-empty well-formed graph whose colours start
below 50: it returns (no index of `disponivel` is out of range) and every
vertex ends with a colour between 1 and 49. -/
theorem colore_cores_limite (g : grafo) (v : List (Option Nat))
    (hwf : bem_formado g) (hpos : 0 < g.vertices.length) (hv : lista_vertices g v)
    (hcor : ∀ x ∈ g.vertices, x.cor < 50) :
    ∃ vs k, colore g v = some ({ g with vertices := vs }, k) ∧
      vs.length = g.vertices.length ∧
      ∀ u, u < g.vertices.length →
        ∃ c, (vs.map (fun x => x.cor))[u]? = some c ∧ 1 ≤ c ∧ c ≤ 49 := by
  have hn : g.vertices.length < UINT_MOD := by
    have := hwf.1
    simp only [UINT_MOD]; omega
  obtain ⟨vs, k, hrun, hlen, _, hP⟩ := colore_run g v hn hpos hv
    (fun i st => st.1.length = g.vertices.length ∧
      (∀ x ∈ st.1.map (fun x => x.cor), x < 50) ∧
      ∀ j h, j < i → v[j]? = some (some h) →
        ∃ c, (st.1.map (fun x => x.cor))[h]? = some c ∧ 1 ≤ c ∧ c ≤ 49)
    (by
      intro vr hvr hlt
      have hmap := atualiza_map_set (fun x => x.cor) (fun x => { x with cor := 1 }) 1
        (fun _ => rfl) vr g.vertices
      refine ⟨atualiza_length _ _ _, ?_, ?_⟩
      · intro x hx
        simp only at hx
        rw [hmap] at hx
        rcases List.mem_or_eq_of_mem_set hx with hx | hx
        · rcases List.mem_map.1 hx with ⟨y, hy, e⟩
          rw [← e]; exact hcor y hy
        · omega
      · intro j h hj hvj
        have : j = 0 := by omega
        subst this
        rw [hvr] at hvj
        cases hvj
        simp only
        rw [hmap]
        exact ⟨1, by simp [List.getElem?_set, hlt], le_refl _, by omega⟩)
    (by
      rintro i ⟨vs, num⟩ vr hi1 hi2 hvr hlt ⟨hlen, hc50, hprev⟩
      simp only at hlen hc50 hprev
      obtain ⟨c, hrun, hc1, hc2, _⟩ := colore_passo_spec g.arestas v vs num i vr hvr
        (by omega) (by rw [hlen]; exact hwf.2) hc50
      have hmap := atualiza_map_set (fun x => x.cor) (fun x => { x with cor := c }) c
        (fun _ => rfl) vr vs
      refine ⟨_, hrun, ?_, ?_, ?_⟩
      · simp only
        rw [atualiza_length]; exact hlen
      · intro x hx
        simp only at hx
        rw [hmap] at hx
        rcases List.mem_or_eq_of_mem_set hx with hx | hx
        · exact hc50 x hx
        · omega
      · intro j h hj hvj
        simp only
        rw [hmap, List.getElem?_set]
        by_cases e : vr = h
        · subst e
          exact ⟨c, by simp [hlen, hlt], hc1, hc2⟩
        · simp only [e, if_false]
          have hji : j ≠ i := by
            intro e2
            subst e2
            rw [hvr] at hvj
            cases hvj
            exact e rfl
          exact hprev j h (by omega) hvj)
  refine ⟨vs, k, hrun, hlen, ?_⟩
  intro u hu
  obtain ⟨i, hi, hvi⟩ := lista_vertices_surj g v hv u hu
  exact hP i u hi hvi

/-- C18: on a well-formed graph whose colours start below 50, with `v`
listing each vertex once, `colore` returns on every non-empty graph (an
index of `disponivel` outside `0..49` would make it undefined), and every
colour it leaves is between 1 and 49; from all-zero colours, a vertex
`v[i]`, `i >= 1`, whose neighbours among `v[0..i-1]` hold every colour of
`1..49` is left with colour 1. -/
theorem colore_indices_em_disponivel (g : grafo) (v : List (Option Nat))
    (hwf : bem_formado g) (hv : lista_vertices g v)
    (hcor : ∀ x ∈ g.vertices, x.cor < 50) :
    (0 < g.vertices.length → ∃ g1 k, colore g v = some (g1, k)) ∧
    ∀ g1 k, colore g v = some (g1, k) →
      (∀ u, u < g.vertices.length → ∃ c, cor u g1 = some c ∧ 1 ≤ c ∧ c ≤ 49) ∧
      ((∀ x ∈ g.vertices, x.cor = 0) →
        ∀ i u, 1 ≤ i → v[i]? = some (some u) →
          (∀ c, 1 ≤ c → c ≤ 49 → ∃ l w, l < i ∧ v[l]? = some (some w) ∧ adjacente g u w ∧
            cor w g1 = some c) →
          cor u g1 = some 1) := by
  apply colore_todo_resultado g v hv
  intro hpos
  obtain ⟨vs, k, hrun, hlen, hcol⟩ := colore_cores_limite g v hwf hpos hv hcor
  have hvlen := lista_vertices_length g v hv
  have hslot : ∀ l w, v[l]? = some (some w) → l < g.vertices.length ∧ w < g.vertices.length := by
    intro l w hw
    have hl := getElem?_lt_of_eq_some _ _ _ hw
    rw [hvlen] at hl
    obtain ⟨w2, hw2, hlt⟩ := lista_vertices_get g v hv l hl
    rw [hw] at hw2
    cases hw2
    exact ⟨hl, hlt⟩
  have hcoreq : ∀ w, w < g.vertices.length →
      cor w { g with vertices := vs } = (vs.map (fun x => x.cor))[w]? := by
    intro w hw
    exact cor_eq _ w (by simp only [hlen]; exact hw)
  refine ⟨_, k, hrun, ?_, ?_⟩
  · intro u hu
    obtain ⟨c, hc, hc1, hc2⟩ := hcol u hu
    exact ⟨c, by rw [hcoreq u hu]; exact hc, hc1, hc2⟩
  · intro h0 i u hi hu hall
    obtain ⟨vs2, k2, hrun2, _, hB, _⟩ := colore_gulosa g v hwf hpos hv h0
    rw [hrun] at hrun2
    simp only [Option.some.injEq, Prod.mk.injEq, grafo.mk.injEq, true_and, and_true] at hrun2
    obtain ⟨e1, e2⟩ := hrun2
    subst e1 e2
    rw [hcoreq u (hslot i u hu).2]
    apply hB i u hi (hslot i u hu).1 hu
    intro c hc1 hc2
    obtain ⟨l, w, hl, hw, hadj, hcw⟩ := hall c hc1 hc2
    refine ⟨l, w, hl, hw, hadj, ?_⟩
    rw [hcoreq w (hslot l w hw).2] at hcw
    exact hcw

theorem colore_indices_em_disponivel_witness :
    bem_formado caminho4 ∧ lista_vertices caminho4 [some 3, some 2, some 0, some 1] ∧
    ((0 < caminho4.vertices.length →
        ∃ g1 k, colore caminho4 [some 3, some 2, some 0, some 1] = some (g1, k)) ∧
    ∀ g1 k, colore caminho4 [some 3, some 2, some 0, some 1] = some (g1, k) →
      (∀ u, u < caminho4.vertices.length → ∃ c, cor u g1 = some c ∧ 1 ≤ c ∧ c ≤ 49) ∧
      ((∀ x ∈ caminho4.vertices, x.cor = 0) →
        ∀ i u, 1 ≤ i → [some 3, some 2, some 0, some 1][i]? = some (some u) →
          (∀ c, 1 ≤ c → c ≤ 49 → ∃ l w, l < i ∧
            [some 3, some 2, some 0, some 1][l]? = some (some w) ∧ adjacente caminho4 u w ∧
            cor w g1 = some c) →
          cor u g1 = some 1)) :=
  ⟨by decide, by decide,
    colore_indices_em_disponivel caminho4 [some 3, some 2, some 0, some 1]
      (by decide) (by decide) (by decide)⟩

theorem atualiza_cor_mesma (c : Nat) :
    ∀ (h : Nat) (vs : List vertice), (vs.map (fun x => x.cor))[h]? = some c →
      atualiza (fun x => { x with cor := c }) h vs = vs := by
  intro h vs
  induction vs generalizing h with
  | nil => intro _; simp [atualiza]
  | cons x xs ih =>
    intro hc
    cases h with
    | zero =>
      simp at hc
      simp only [atualiza]
      cases x
      simp at hc
      subst hc
      rfl
    | succ h =>
      simp only [atualiza]
      rw [ih h (by simpa using hc)]

/-- Running `colore` again on the graph it has just coloured, within the
capacity of the 50-entry array: every iteration finds for `v[i]` the colour
it already has, so the graph is unchanged and the same count is returned. -/
theorem colore_de_novo (g : grafo) (v : List (Option Nat)) (hwf : bem_formado g)
    (hpos : 0 < g.vertices.length) (hv : lista_vertices g v)
    (h0 : ∀ x ∈ g.vertices, x.cor = 0) (hsl : sem_lacos g)
    (hdeg : ∀ u, u < g.vertices.length → (vizinhos g u).length ≤ 48) :
    ∃ g1 k, colore g v = some (g1, k) ∧ colore g1 v = some (g1, k) := by
  obtain ⟨vs, k, hrun, hA, _, hC, hD, hE⟩ := colore_gulosa g v hwf hpos hv h0
  have hD := hD hsl
  obtain ⟨hprop, _, _⟩ := hE hsl hdeg
  obtain ⟨hlen, hprev, _⟩ := hA
  simp only [inv_conta] at hlen hprev hprop hC
  refine ⟨{ g with vertices := vs }, k, hrun, ?_⟩
  have hwf1 : bem_formado { g with vertices := vs } := by
    unfold bem_formado
    simp only [hlen]
    exact hwf
  have hv1 : lista_vertices { g with vertices := vs } v := by
    unfold lista_vertices
    simp only [hlen]
    exact hv
  have hn1 : vs.length < UINT_MOD := by
    have := hwf.1
    simp only [UINT_MOD, hlen]; omega
  -- every vertex has a colour of `1..49`
  have hcol : ∀ j u, v[j]? = some (some u) →
      ∃ c, (vs.map (fun x => x.cor))[u]? = some c ∧ 1 ≤ c ∧ c ≤ j + 1 ∧ c ≤ 49 := by
    intro j u hu
    have hj := getElem?_lt_of_eq_some _ _ _ hu
    rw [lista_vertices_length g v hv] at hj
    exact hprev j u hj hu
  have hc50 : ∀ x ∈ vs.map (fun x => x.cor), x < 50 := by
    intro x hx
    obtain ⟨u, hu⟩ := List.mem_iff_getElem?.1 hx
    have hult : u < g.vertices.length := by
      have := getElem?_lt_of_eq_some _ _ _ hu
      simpa [hlen] using this
    obtain ⟨j, _, hvj⟩ := lista_vertices_surj g v hv u hult
    obtain ⟨c, hc, _, _, hc49⟩ := hcol j u hvj
    rw [hu] at hc
    cases hc
    omega
  -- adjacent vertices have different colours
  have hdif : ∀ a b ca, adjacente g a b → (vs.map (fun x => x.cor))[a]? = some ca →
      (vs.map (fun x => x.cor))[b]? ≠ some ca := by
    intro a b ca hadj ha hb
    obtain ⟨hal, hbl⟩ := adjacente_lt g hwf a b hadj
    obtain ⟨ja, _, hja⟩ := lista_vertices_surj g v hv a hal
    obtain ⟨c1, hc1, hc11, _⟩ := hcol ja a hja
    rw [ha] at hc1
    cases hc1
    obtain ⟨ar, har, h | h⟩ := hadj
    · exact hprop ar har ca ca (by rw [h.1]; exact ha) (by rw [h.2]; exact hb)
        (by omega) (by omega) rfl
    · exact hprop ar har ca ca (by rw [h.1]; exact hb) (by rw [h.2]; exact ha)
        (by omega) (by omega) rfl
  obtain ⟨vs2, k2, hrun2, hvs2, hk2⟩ := colore_run { g with vertices := vs } v hn1
    (by simp only [hlen]; exact hpos) hv1
    (fun i st => st.1 = vs ∧ st.2 = maior_ate (vs.map (fun x => x.cor)) v i)
    (by
      intro vr hvr _
      obtain ⟨c, hc, hc1, hc2, _⟩ := hcol 0 vr hvr
      have : c = 1 := by omega
      subst this
      exact ⟨atualiza_cor_mesma 1 vr vs hc, by simp [maior_ate]⟩)
    (by
      rintro i ⟨vs3, num⟩ vr hi1 hi2 hvr hlt ⟨e1, e2⟩
      simp only at e1 e2 hlt hi2
      subst e1
      obtain ⟨c, hrun3, hc1, hc2, hmin, _⟩ := colore_passo_spec g.arestas v vs3 num i vr hvr
        hlt (by rw [hlen]; exact hwf.2) hc50
      obtain ⟨cu, hcu, hcu1, _, hcu49⟩ := hcol i vr hvr
      have hset : ∀ (w : Nat), w ≠ vr →
          ((vs3.map (fun x => x.cor)).set vr 1)[w]? = (vs3.map (fun x => x.cor))[w]? := by
        intro w hw
        rw [List.getElem?_set]
        have : ¬ vr = w := fun e => hw e.symm
        simp only [this, if_false]
      have hfree : ∀ h ∈ outros vr g.arestas,
          ((vs3.map (fun x => x.cor)).set vr 1)[h]? ≠ some cu := by
        intro h hh
        have hadj := (mem_outros_iff g vr h).1 hh
        rw [hset h (fun e => adjacente_ne g hsl vr h hadj e.symm)]
        exact hdif vr h cu hadj hcu
      obtain ⟨hle, hcfree⟩ := hmin cu hcu1 hcu49 hfree
      have hge : cu ≤ c := by
        refine (hD i vr cu hi1 (by rw [← hlen]; exact hi2) hvr hcu c hc1 hc2 ?_).1
        intro l w hl hw hadj e
        apply hcfree w ((mem_outros_iff g vr w).2 hadj)
        rw [hset w (fun e => adjacente_ne g hsl vr w hadj e.symm)]
        exact e
      have hcc : c = cu := by omega
      subst hcc
      refine ⟨_, hrun3, atualiza_cor_mesma c vr vs3 hcu, ?_⟩
      simp only
      have hi0 : i ≠ 0 := by omega
      have hslot : cor_slot (vs3.map (fun x => x.cor)) v i = c := by
        simp only [cor_slot, hvr, List.getD_eq_getElem?_getD, hcu, Option.getD_some]
      simp only [maior_ate, hi0, if_false, hslot, e2]
      split_ifs <;> omega)
  simp only at hvs2 hk2
  rw [hrun2, hvs2, hk2, hC, hlen]

/-- C20: within the capacity of the 50-entry array, on a graph without
self-loops and with `v` listing each vertex once, `colore` run from all-zero
colours returns on every non-empty graph, and a second run of `colore` on
the graph it leaves returns the same graph, so every colour is unchanged,
and the same count. -/
theorem colore_idempotente (g : grafo) (v : List (Option Nat))
    (hwf : bem_formado g) (hv : lista_vertices g v)
    (h0 : ∀ x ∈ g.vertices, x.cor = 0) (hsl : sem_lacos g)
    (hdeg : ∀ u, u < g.vertices.length → (vizinhos g u).length ≤ 48) :
    (0 < g.vertices.length → ∃ g1 k, colore g v = some (g1, k)) ∧
    ∀ g1 k, colore g v = some (g1, k) →
      colore g1 v = some (g1, k) ∧
      ∀ g2 k2, colore g1 v = some (g2, k2) → k2 = k ∧ ∀ u, cor u g2 = cor u g1 := by
  apply colore_todo_resultado g v hv
  intro hpos
  obtain ⟨g1, k, hrun, hrun2⟩ := colore_de_novo g v hwf hpos hv h0 hsl hdeg
  refine ⟨g1, k, hrun, hrun2, ?_⟩
  intro g2 k2 h
  rw [hrun2] at h
  cases h
  exact ⟨rfl, fun _ => rfl⟩

theorem colore_idempotente_witness :
    bem_formado caminho4 ∧ lista_vertices caminho4 [some 3, some 2, some 0, some 1] ∧
    ((0 < caminho4.vertices.length →
        ∃ g1 k, colore caminho4 [some 3, some 2, some 0, some 1] = some (g1, k)) ∧
    ∀ g1 k, colore caminho4 [some 3, some 2, some 0, some 1] = some (g1, k) →
      colore g1 [some 3, some 2, some 0, some 1] = some (g1, k) ∧
      ∀ g2 k2, colore g1 [some 3, some 2, some 0, some 1] = some (g2, k2) →
        k2 = k ∧ ∀ u, cor u g2 = cor u g1) :=
  ⟨by decide, by decide,
    colore_idempotente caminho4 [some 3, some 2, some 0, some 1]
      (by decide) (by decide) (by decide) (by decide) (by decide)⟩

/-- The run of `busca_lexicografica` on a graph in the state left by
construction hands `colore` a well-formed graph with the same edges and
all-zero colours, and an array listing each vertex once with the root in the
last slot. -/
theorem busca_lexicografica_para_colore (g : grafo) (r : Nat) (v : List (Option Nat))
    (hwf : bem_formado g) (h0c : ∀ x ∈ g.vertices, x.cor = 0)
    (h0v : ∀ x ∈ g.vertices, x.visitado = 0)
    (hr : r < g.vertices.length) (hv : v.length = g.vertices.length) :
    ∃ g1 v1, busca_lexicografica r g v = some (g1, v1) ∧
      g1.arestas = g.arestas ∧ g1.vertices.length = g.vertices.length ∧
      bem_formado g1 ∧ lista_vertices g1 v1 ∧ (∀ x ∈ g1.vertices, x.cor = 0) ∧
      v1[g.vertices.length - 1]? = some (some r) := by
  have hn : g.vertices.length < UINT_MOD := by
    have := hwf.1
    simp only [UINT_MOD]; omega
  obtain ⟨g1, v1, L, hrun, hv1len, _, hroot, hLlen, hpt, hnd, hLlt, hcor, _, har, _⟩ :=
    busca_lexicografica_zero g r v hn h0v hr (by omega)
  have hlen : g1.vertices.length = g.vertices.length := length_of_map_eq hcor
  refine ⟨g1, v1, hrun, har, hlen, ?_, ?_, ?_, hroot⟩
  · unfold bem_formado
    rw [hlen, har]
    exact hwf
  · unfold lista_vertices
    rw [hlen]
    have htake : v1.take g.vertices.length = v1 := List.take_of_length_le (by omega)
    rw [← htake, take_eq_map_some v1 L _ hLlen hpt]
    exact (perm_range_of_nodup_of_length L _ hnd hLlt hLlen).map some
  · intro x hx
    have : x.cor ∈ g1.vertices.map (fun x => x.cor) := List.mem_map.2 ⟨x, hx, rfl⟩
    rw [hcor] at this
    rcases List.mem_map.1 this with ⟨y, hy, e⟩
    rw [← e]; exact h0c y hy

theorem adjacente_congr (g g1 : grafo) (har : g1.arestas = g.arestas) (a b : Nat) :
    adjacente g1 a b ↔ adjacente g a b := by
  unfold adjacente
  rw [har]

/-- On a complete graph with at most 49 vertices, from all-zero colours,
`colore` gives the vertex in slot `j` the colour `j+1` and returns the number
of vertices. -/
theorem colore_completo_geral (g : grafo) (v : List (Option Nat)) (hwf : bem_formado g)
    (hv : lista_vertices g v) (h0 : ∀ x ∈ g.vertices, x.cor = 0) (hsl : sem_lacos g)
    (hcomp : grafo_completo g)
    (hn2 : 2 ≤ g.vertices.length) (hn49 : g.vertices.length ≤ 49) :
    ∃ vs, colore g v = some ({ g with vertices := vs }, g.vertices.length) ∧
      vs.length = g.vertices.length ∧
      ∀ j u, v[j]? = some (some u) → (vs.map (fun x => x.cor))[u]? = some (j + 1) := by
  obtain ⟨vs, k, hrun, hA, _, hC, hD, _⟩ := colore_gulosa g v hwf (by omega) hv h0
  have hD := hD hsl
  obtain ⟨hlen, hprev, _⟩ := hA
  simp only [inv_conta] at hlen hprev hC
  have hvlen := lista_vertices_length g v hv
  have hslot : ∀ j u, v[j]? = some (some u) → (vs.map (fun x => x.cor))[u]? = some (j + 1) := by
    intro j
    induction j using Nat.strong_induction_on with
    | _ j ih =>
      intro u hu
      have hj := getElem?_lt_of_eq_some _ _ _ hu
      rw [hvlen] at hj
      obtain ⟨cu, hcu, hcu1, hcuj, _⟩ := hprev j u hj hu
      by_cases hj0 : j = 0
      · rw [hcu]
        congr 1
        omega
      · obtain ⟨_, hcfree⟩ := hD j u cu (by omega) hj hu hcu (j + 1) (by omega) (by omega) (by
          intro l w hl hw _ e
          rw [ih l hl w hw] at e
          simp only [Option.some.injEq] at e
          omega)
        have : cu = j + 1 := by
          by_contra hne
          obtain ⟨w, hw, hwlt⟩ := lista_vertices_get g v hv (cu - 1) (by omega)
          have hul : u < g.vertices.length := by
            obtain ⟨u2, hu2, hlt⟩ := lista_vertices_get g v hv j hj
            rw [hu] at hu2
            cases hu2
            exact hlt
          have huw : u ≠ w := by
            intro e
            subst e
            have := lista_vertices_inj g v hv j (cu - 1) _ hu hw
            omega
          apply hcfree (cu - 1) w (by omega) hw (hcomp u hul w hwlt huw)
          rw [ih (cu - 1) (by omega) w hw]
          congr 1
          omega
        rw [hcu, this]
  have hmaior : ∀ i, 1 ≤ i → i ≤ g.vertices.length →
      maior_ate (vs.map (fun x => x.cor)) v i = if i = 1 then 0 else i := by
    intro i
    induction i with
    | zero => intro h; omega
    | succ i ih =>
      intro _ hi
      by_cases hi0 : i = 0
      · subst hi0
        simp [maior_ate]
      · obtain ⟨u, hu, _⟩ := lista_vertices_get g v hv i (by omega)
        have hs : cor_slot (vs.map (fun x => x.cor)) v i = i + 1 := by
          simp only [cor_slot, hu, List.getD_eq_getElem?_getD, hslot i u hu, Option.getD_some]
        simp only [maior_ate, hi0, if_false, hs, ih (by omega) (by omega)]
        split_ifs <;> omega
  have hk : k = g.vertices.length := by
    rw [hC, hmaior _ (by omega) (le_refl _)]
    split_ifs <;> omega
  subst hk
  exact ⟨vs, hrun, hlen, hslot⟩

/-- Partial-correctness rule for the `while` loop of `busca_lexicografica`:
a property of the loop state kept by every iteration holds of the result,
and no unvisited vertex is left. -/
theorem busca_laco_parcial (arestas : List aresta)
    (P : List vertice → List (Option Nat) → Nat → Prop)
    (hstep : ∀ vs v t h, P vs v t → (rotulo_maximo vs).1 = some h → usub t 1 < v.length →
      P (rotula h (usub t 1) arestas (rotulo_maximo vs).2) (v.set (usub t 1) (some h))
        (usub t 1)) :
    ∀ (fuel : Nat) (vs : List vertice) (v : List (Option Nat)) (t : Nat)
      (vs1 : List vertice) (v1 : List (Option Nat)),
      P vs v t → busca_laco fuel arestas vs v t = some (vs1, v1) →
      ∃ t1, P vs1 v1 t1 ∧ (rotulo_maximo vs1).1 = none := by
  intro fuel
  induction fuel with
  | zero =>
    intro vs v t vs1 v1 _ h
    simp [busca_laco] at h
  | succ fuel ih =>
    intro vs v t vs1 v1 hP hrun
    rw [busca_laco] at hrun
    rcases rotulo_maximo_spec vs with ⟨e, _⟩ | ⟨h, e, _⟩
    · rw [e] at hrun
      simp only [Option.some.injEq, Prod.mk.injEq] at hrun
      obtain ⟨e1, e2⟩ := hrun
      subst e1 e2
      exact ⟨t, hP, by rw [e]⟩
    · have hs := hstep vs v t h hP (by rw [e])
      rw [e] at hrun hs
      simp only at hrun hs
      by_cases hidx : usub t 1 < v.length
      · simp only [hidx, if_true] at hrun
        exact ih _ _ _ vs1 v1 (hs hidx) hrun
      · simp only [hidx, if_false] at hrun
        cases hrun

/-- The vertex returned by `rotulo_maximo` is unvisited and its label is at
least the label of every unvisited vertex. -/
theorem rotulo_maximo_maior (vs : List vertice) (h : Nat)
    (hrm : (rotulo_maximo vs).1 = some h) :
    (rotulo_maximo vs).2 = atualiza (fun x => { x with visitado := 1 }) h vs ∧
    (vs.map (fun x => x.visitado))[h]? = some 0 ∧
    ∀ k, (vs.map (fun x => x.visitado))[k]? = some 0 → rotulo_de vs k ≤ rotulo_de vs h := by
  unfold rotulo_maximo at hrm ⊢
  rcases rotulo_maximo_varre_spec vs 0 none with ⟨h1, _, _⟩ | ⟨h2, x, h1, _⟩
  · rw [h1] at hrm
    cases hrm
  · rw [h1] at hrm ⊢
    simp only [Option.some.injEq] at hrm
    subst hrm
    obtain ⟨_, hB, hC⟩ := rotulo_maximo_varre_max vs 0 none h2 x h1
    rcases hC with e | ⟨_, hget, hv0, _, _⟩
    · cases e
    · simp only [Nat.sub_zero] at hget
      refine ⟨rfl, by simp [hget, hv0], ?_⟩
      intro k hk
      rw [List.getElem?_map] at hk
      cases hy : vs[k]? with
      | none => rw [hy] at hk; cases hk
      | some y =>
        rw [hy] at hk
        simp only [Option.map_some', Option.some.injEq] at hk
        have := hB k y hy hk
        simp only [rotulo_de, hy, hget]
        exact this

/-- Every iteration of the `while` loop of `busca_lexicografica` keeps
`inv_largura`. -/
theorem inv_largura_step (g : grafo) (hwf : bem_formado g) (vs : List vertice)
    (v : List (Option Nat)) (t h : Nat) (hP : inv_largura g vs v t)
    (hrm : (rotulo_maximo vs).1 = some h) (hidx : usub t 1 < v.length) :
    inv_largura g (rotula h (usub t 1) g.arestas (rotulo_maximo vs).2)
      (v.set (usub t 1) (some h)) (usub t 1) := by
  obtain ⟨hlen, hvlen, htn, hP2, hP3, hP4, hP5⟩ := hP
  obtain ⟨hvs1, hflag, hmax⟩ := rotulo_maximo_maior vs h hrm
  have hn31 := hwf.1
  have ht1 : 1 ≤ t := by
    by_contra hc
    have : t = 0 := by omega
    subst this
    simp only [usub, UINT_MOD] at hidx
    omega
  have hu : usub t 1 = t - 1 := usub_um t ht1 (by simp only [UINT_MOD]; omega)
  rw [hu] at hidx ⊢
  rw [hvs1]
  have hhn : h < g.vertices.length := by
    have := getElem?_lt_of_eq_some _ _ _ hflag
    simpa [hlen] using this
  -- the visited flags, the labels and the array after the iteration
  have hflags : (rotula h (t - 1) g.arestas
        (atualiza (fun x => { x with visitado := 1 }) h vs)).map (fun x => x.visitado)
      = (vs.map (fun x => x.visitado)).set h 1 := by
    rw [rotula_map_visitado]
    exact atualiza_map_set _ _ 1 (fun _ => rfl) h vs
  have hrot : ∀ y, rotulo_de (rotula h (t - 1) g.arestas
        (atualiza (fun x => { x with visitado := 1 }) h vs)) y =
      if adjacente g h y then max (rotulo_de vs y) (t - 1) else rotulo_de vs y := by
    intro y
    have := rotula_rotulo h (t - 1) g.arestas (atualiza (fun x => { x with visitado := 1 }) h vs)
      (by rw [atualiza_length, hlen]; exact hwf.2) y
    rw [rotulo_de_atualiza_visitado] at this
    exact this
  have hget : ∀ k, (v.set (t - 1) (some h))[k]? =
      if t - 1 = k then some (some h) else v[k]? := by
    intro k
    rw [List.getElem?_set]
    by_cases e : t - 1 = k
    · subst e
      simp [hidx]
    · simp [e]
  have hgetge : ∀ k, t ≤ k → (v.set (t - 1) (some h))[k]? = v[k]? := by
    intro k hk
    rw [hget k, if_neg (by omega)]
  have hmono : ∀ y, rotulo_de vs y ≤ rotulo_de (rotula h (t - 1) g.arestas
      (atualiza (fun x => { x with visitado := 1 }) h vs)) y := by
    intro y
    rw [hrot y]
    split_ifs <;> omega
  refine ⟨by rw [rotula_length, atualiza_length]; exact hlen, by simpa using hvlen,
    by omega, ?_, ?_, ?_, ?_⟩
  · -- visited exactly when placed
    intro y hy
    rw [hflags, List.getElem?_set]
    by_cases e : h = y
    · subst e
      simp only [if_true, hlen, hhn, List.length_map]
      constructor
      · intro _
        exact ⟨t - 1, le_refl _, by rw [hget, if_pos rfl]⟩
      · intro _ hc
        cases hc
    · simp only [e, if_false]
      rw [hP2 y hy]
      constructor
      · rintro ⟨k, hk, hvk⟩
        exact ⟨k, by omega, by rw [hgetge k hk]; exact hvk⟩
      · rintro ⟨k, hk, hvk⟩
        rw [hget] at hvk
        by_cases e2 : t - 1 = k
        · rw [if_pos e2] at hvk
          simp only [Option.some.injEq] at hvk
          exact absurd hvk e
        · rw [if_neg e2] at hvk
          exact ⟨k, by omega, hvk⟩
  · -- the label is at least the position of every placed neighbour
    intro k z y hk hvk hadj
    rw [hget] at hvk
    by_cases e2 : t - 1 = k
    · rw [if_pos e2] at hvk
      simp only [Option.some.injEq] at hvk
      subst hvk
      rw [hrot y, if_pos hadj]
      omega
    · rw [if_neg e2] at hvk
      exact le_trans (hP3 k z y (by omega) hvk hadj) (hmono y)
  · -- a positive label of an unvisited vertex is the position of a placed neighbour
    intro y hy hfy hpos
    rw [hflags, List.getElem?_set] at hfy
    have hyh : ¬ h = y := by
      intro e
      subst e
      simp [hlen, hhn] at hfy
    simp only [hyh, if_false] at hfy
    rw [hrot y] at hpos ⊢
    by_cases hadj : adjacente g h y
    · simp only [hadj, if_true] at hpos ⊢
      by_cases hle : rotulo_de vs y ≤ t - 1
      · have e : max (rotulo_de vs y) (t - 1) = t - 1 := by omega
        rw [e]
        exact ⟨le_refl _, h, by rw [hget, if_pos rfl], hadj⟩
      · have e : max (rotulo_de vs y) (t - 1) = rotulo_de vs y := by omega
        rw [e]
        obtain ⟨h1, z, hz, hzadj⟩ := hP4 y hy hfy (by omega)
        exact ⟨by omega, z, by rw [hgetge _ h1]; exact hz, hzadj⟩
    · simp only [hadj, if_false] at hpos ⊢
      obtain ⟨h1, z, hz, hzadj⟩ := hP4 y hy hfy hpos
      exact ⟨by omega, z, by rw [hgetge _ h1]; exact hz, hzadj⟩
  · -- the breadth-first condition
    intro a b z x y hb hba hva hvb hadj hnot
    by_cases hbt : t ≤ b
    · rw [hgetge a (by omega)] at hva
      rw [hgetge b hbt] at hvb
      obtain ⟨a2, z2, ha2, hz2, hadj2⟩ := hP5 a b z x y hbt hba hva hvb hadj
        (fun k hk => by rw [← hgetge k (by omega)]; exact hnot k hk)
      exact ⟨a2, z2, ha2, by rw [hgetge a2 (by omega)]; exact hz2, hadj2⟩
    · have hbp : b = t - 1 := by omega
      subst hbp
      rw [hget, if_pos rfl] at hvb
      simp only [Option.some.injEq] at hvb
      subst hvb
      rw [hgetge a (by omega)] at hva
      have hyn := (adjacente_lt g hwf z y hadj).2
      have hyh : y ≠ h := by
        intro e
        apply hnot (t - 1) (le_refl _)
        rw [hget, if_pos rfl, e]
      have hfy : (vs.map (fun x => x.visitado))[y]? = some 0 := by
        by_contra hc
        obtain ⟨k, hk, hvk⟩ := (hP2 y hyn).1 hc
        apply hnot k (by omega)
        rw [hgetge k hk]
        exact hvk
      have h1 := hP3 a z y (by omega) hva hadj
      have h2 := hmax y hfy
      obtain ⟨h3, z2, hz2, hadj2⟩ := hP4 h hhn hflag (by omega)
      exact ⟨rotulo_de vs h, z2, by omega, by rw [hgetge _ h3]; exact hz2, hadj2⟩

/-- The state in which `busca_lexicografica` enters its `while` loop, on a
graph whose labels and visited flags are all 0, satisfies `inv_largura`. -/
theorem inv_largura_init (g : grafo) (hwf : bem_formado g) (r : Nat) (v : List (Option Nat))
    (h0 : ∀ x ∈ g.vertices, x.rotulo = 0 ∧ x.visitado = 0)
    (hr : r < g.vertices.length) (hv : v.length = g.vertices.length) :
    inv_largura g
      (rotula_raiz r (g.vertices.length - 1) g.arestas
        (atualiza (fun x => { x with rotulo := g.vertices.length, visitado := 1 }) r g.vertices))
      (v.set (g.vertices.length - 1) (some r)) (g.vertices.length - 1) := by
  have hflags : (rotula_raiz r (g.vertices.length - 1) g.arestas
        (atualiza (fun x => { x with rotulo := g.vertices.length, visitado := 1 }) r
          g.vertices)).map (fun x => x.visitado)
      = (g.vertices.map (fun x => x.visitado)).set r 1 := by
    rw [rotula_raiz_map_visitado]
    exact atualiza_map_set _ _ 1 (fun _ => rfl) r g.vertices
  have hzero : ∀ y, rotulo_de g.vertices y = 0 := by
    intro y
    unfold rotulo_de
    cases hy : g.vertices[y]? with
    | none => rfl
    | some x => exact (h0 x (List.getElem?_mem hy)).1
  have hrot : ∀ y, rotulo_de (rotula_raiz r (g.vertices.length - 1) g.arestas
        (atualiza (fun x => { x with rotulo := g.vertices.length, visitado := 1 }) r
          g.vertices)) y =
      if adjacente g r y then g.vertices.length - 1
      else if y = r then g.vertices.length else 0 := by
    intro y
    have := rotula_raiz_rotulo r (g.vertices.length - 1) g.arestas
      (atualiza (fun x => { x with rotulo := g.vertices.length, visitado := 1 }) r g.vertices)
      (by rw [atualiza_length]; exact hwf.2) y
    rw [rotulo_de_atualiza_raiz, hzero y] at this
    simp only [hr, and_true] at this
    exact this
  have hidx : g.vertices.length - 1 < v.length := by omega
  have hget : ∀ k z, g.vertices.length - 1 ≤ k →
      (v.set (g.vertices.length - 1) (some r))[k]? = some (some z) →
      k = g.vertices.length - 1 ∧ z = r := by
    intro k z hk hvk
    have hkl := getElem?_lt_of_eq_some _ _ _ hvk
    simp only [List.length_set] at hkl
    have e : k = g.vertices.length - 1 := by omega
    subst e
    rw [List.getElem?_set] at hvk
    simp only [hidx, if_true, Option.some.injEq] at hvk
    exact ⟨rfl, hvk.symm⟩
  have hgetr : (v.set (g.vertices.length - 1) (some r))[g.vertices.length - 1]?
      = some (some r) := by
    rw [List.getElem?_set]
    simp [hidx]
  have hf0 : ∀ y, y < g.vertices.length → (g.vertices.map (fun x => x.visitado))[y]? = some 0 := by
    intro y hy
    rw [List.getElem?_map, List.getElem?_eq_getElem hy]
    simp [(h0 _ (List.getElem_mem hy)).2]
  refine ⟨by rw [rotula_raiz_length, atualiza_length], by simpa using hv, by omega,
    ?_, ?_, ?_, ?_⟩
  · intro y hy
    rw [hflags, List.getElem?_set]
    by_cases e : r = y
    · subst e
      simp only [if_true, List.length_map, hr]
      constructor
      · intro _
        exact ⟨g.vertices.length - 1, le_refl _, hgetr⟩
      · intro _ hc
        cases hc
    · simp only [e, if_false]
      constructor
      · intro hc
        exact absurd (hf0 y hy) hc
      · rintro ⟨k, hk, hvk⟩
        exact absurd (hget k y hk hvk).2.symm e
  · intro k z y hk hvk hadj
    obtain ⟨e1, e2⟩ := hget k z hk hvk
    subst e1 e2
    rw [hrot y, if_pos hadj]
  · intro y hy hfy hpos
    rw [hflags, List.getElem?_set] at hfy
    have hyr : ¬ r = y := by
      intro e
      subst e
      simp [hr] at hfy
    have hyr2 : ¬ y = r := fun e => hyr e.symm
    rw [hrot y] at hpos ⊢
    by_cases hadj : adjacente g r y
    · simp only [hadj, if_true]
      exact ⟨le_refl _, r, hgetr, hadj⟩
    · simp only [hadj, hyr2, if_false] at hpos
      omega
  · intro a b z x y hb hba hva hvb _ _
    have := (hget a z (by omega) hva).1
    omega

theorem dentro_succ (g : grafo) (r d u : Nat) :
    dentro g r (d + 1) u = true ↔
      dentro g r d u = true ∨
        ∃ z, z < g.vertices.length ∧ dentro g r d z = true ∧ adjacente g z u := by
  simp only [dentro, Bool.or_eq_true, List.any_eq_true, List.mem_range, Bool.and_eq_true,
    decide_eq_true_eq]

/-- The run of `busca_lexicografica` on a graph whose labels and visited
flags are all 0 returns an array listing each vertex once, root last, that
satisfies the breadth-first condition: if the vertex in slot `a` is adjacent
to a vertex in a slot `c < b < a`, then the vertex in slot `b` is adjacent to
a vertex in a slot `a2 >= a`. -/
theorem busca_lexicografica_condicao_largura (g : grafo) (r : Nat) (v : List (Option Nat))
    (hwf : bem_formado g) (h0 : ∀ x ∈ g.vertices, x.rotulo = 0 ∧ x.visitado = 0)
    (hr : r < g.vertices.length) (hv : v.length = g.vertices.length) :
    ∃ g1 v1, busca_lexicografica r g v = some (g1, v1) ∧
      g1.arestas = g.arestas ∧
      g1.vertices.map (fun x => x.cor) = g.vertices.map (fun x => x.cor) ∧
      lista_vertices g v1 ∧ v1[g.vertices.length - 1]? = some (some r) ∧
      ∀ (a b c z x y : Nat), c < b → b < a → v1[a]? = some (some z) → v1[b]? = some (some x) →
        v1[c]? = some (some y) → adjacente g z y →
        ∃ (a2 z2 : Nat), a ≤ a2 ∧ v1[a2]? = some (some z2) ∧ adjacente g z2 x := by
  have hn : g.vertices.length < UINT_MOD := by
    have := hwf.1
    simp only [UINT_MOD]; omega
  obtain ⟨g1, v1, L, hrun, hv1len, _, hroot, hLlen, hpt, hnd, hLlt, hcor, hvis, har, _⟩ :=
    busca_lexicografica_zero g r v hn (fun x hx => (h0 x hx).2) hr (by omega)
  have hlv : lista_vertices g v1 := by
    unfold lista_vertices
    have htake : v1.take g.vertices.length = v1 := List.take_of_length_le (by omega)
    rw [← htake, take_eq_map_some v1 L _ hLlen hpt]
    exact (perm_range_of_nodup_of_length L _ hnd hLlt hLlen).map some
  refine ⟨g1, v1, hrun, har, hcor, hlv, hroot, ?_⟩
  -- the same run, seen as the loop started after the root is placed
  have hdes := busca_lexicografica_desdobra g r v hn hr (by omega)
  rw [hrun] at hdes
  cases hl : busca_laco (g.vertices.length + 1) g.arestas
      (rotula_raiz r (g.vertices.length - 1) g.arestas
        (atualiza (fun x => { x with rotulo := g.vertices.length, visitado := 1 }) r g.vertices))
      (v.set (g.vertices.length - 1) (some r)) (g.vertices.length - 1) with
  | none =>
    rw [hl] at hdes
    cases hdes
  | some res =>
    obtain ⟨vs, v2⟩ := res
    rw [hl] at hdes
    simp only [Option.some.injEq, Prod.mk.injEq] at hdes
    obtain ⟨e1, e2⟩ := hdes
    subst e1 e2
    obtain ⟨t1, hP, hnone⟩ := busca_laco_parcial g.arestas (inv_largura g)
      (fun vs v t h hP hrm hidx => inv_largura_step g hwf vs v t h hP hrm hidx)
      _ _ _ _ vs v1 (inv_largura_init g hwf r v h0 hr hv) hl
    obtain ⟨hlen, _, _, hP2, _, _, hP5⟩ := hP
    intro a b c z x y hcb hba hva hvb hvc hadj
    have hinj := lista_vertices_inj g v1 hlv
    by_cases hbt : t1 ≤ b
    · refine hP5 a b z x y hbt hba hva hvb hadj ?_
      intro k hk e
      have := hinj k c _ e hvc
      omega
    · exfalso
      have hbl := getElem?_lt_of_eq_some _ _ _ hvb
      rw [hv1len, hv] at hbl
      obtain ⟨x2, hx2, hxlt⟩ := lista_vertices_get g v1 hlv b hbl
      rw [hvb] at hx2
      simp only [Option.some.injEq] at hx2
      subst hx2
      have hfx : (vs.map (fun x => x.visitado))[x]? ≠ some 0 := by
        intro e
        exact hvis 0 (List.getElem?_mem e) rfl
      obtain ⟨k, hk, hvk⟩ := (hP2 x hxlt).1 hfx
      have := hinj k b _ hvk hvb
      omega

/-- An array that lists each vertex once, root last, and satisfies the
breadth-first condition holds the vertices in order of distance from the
root: a vertex at distance at most `d` is in a higher slot than a vertex
that is not. -/
theorem largura_por_distancia (g : grafo) (hwf : bem_formado g) (r : Nat)
    (v1 : List (Option Nat)) (hlv : lista_vertices g v1)
    (hroot : v1[g.vertices.length - 1]? = some (some r))
    (hB : ∀ (a b c z x y : Nat), c < b → b < a → v1[a]? = some (some z) → v1[b]? = some (some x) →
      v1[c]? = some (some y) → adjacente g z y →
      ∃ (a2 z2 : Nat), a ≤ a2 ∧ v1[a2]? = some (some z2) ∧ adjacente g z2 x) :
    ∀ (d u w i j : Nat), dentro g r d u = true → dentro g r d w = false →
      v1[i]? = some (some u) → v1[j]? = some (some w) → j < i := by
  have hinj := lista_vertices_inj g v1 hlv
  have hvlen := lista_vertices_length g v1 hlv
  intro d
  induction d with
  | zero =>
    intro u w i j hu hw hvi hvj
    simp only [dentro, decide_eq_true_eq, decide_eq_false_iff_not] at hu hw
    subst hu
    have hi := hinj i _ _ hvi hroot
    have hjl := getElem?_lt_of_eq_some _ _ _ hvj
    have hji : j ≠ g.vertices.length - 1 := by
      intro e
      rw [e, hroot] at hvj
      simp only [Option.some.injEq] at hvj
      exact hw hvj.symm
    omega
  | succ d ih =>
    intro u w i j hu hw hvi hvj
    have hw2 : ¬ (dentro g r d w = true ∨
        ∃ z, z < g.vertices.length ∧ dentro g r d z = true ∧ adjacente g z w) := by
      rw [← dentro_succ]
      simp [hw]
    have hwd : dentro g r d w = false := by
      cases hwd : dentro g r d w
      · rfl
      · exact absurd (Or.inl hwd) hw2
    rcases (dentro_succ g r d u).1 hu with hud | ⟨z, hz, hzd, hzu⟩
    · exact ih u w i j hud hwd hvi hvj
    · cases hud : dentro g r d u with
      | true => exact ih u w i j hud hwd hvi hvj
      | false =>
        obtain ⟨iz, _, hviz⟩ := lista_vertices_surj g v1 hlv z hz
        have h1 := ih z w iz j hzd hwd hviz hvj
        have h2 := ih z u iz i hzd hud hviz hvi
        by_contra hji
        have hij : i ≠ j := by
          intro e
          subst e
          rw [hvi] at hvj
          simp only [Option.some.injEq] at hvj
          subst hvj
          rw [hu] at hw
          cases hw
        obtain ⟨a2, z2, ha2, hvz2, hadj2⟩ := hB iz j i z w u (by omega) h1 hviz hvj hvi hzu
        have hz2 := (adjacente_lt g hwf z2 w hadj2).1
        cases hz2d : dentro g r d z2 with
        | true => exact hw2 (Or.inr ⟨z2, hz2, hz2d, hadj2⟩)
        | false =>
          have := ih z z2 iz a2 hzd hz2d hviz hvz2
          omega

theorem dentro_lt (g : grafo) (hwf : bem_formado g) (r : Nat) (hr : r < g.vertices.length) :
    ∀ d u, dentro g r d u = true → u < g.vertices.length := by
  intro d
  induction d with
  | zero =>
    intro u hu
    simp only [dentro, decide_eq_true_eq] at hu
    rw [hu]; exact hr
  | succ d ih =>
    intro u hu
    rcases (dentro_succ g r d u).1 hu with h | ⟨z, _, _, hadj⟩
    · exact ih u h
    · exact (adjacente_lt g hwf z u hadj).2

/-- C19: on a well-formed graph whose labels and visited flags are all 0,
`busca_lexicografica` from `r` fills `v` in breadth-first order: if `u` is
at distance at most `d` from `r` and the vertex `w` is not (it is farther,
or unreachable), then `u` is in a higher slot of `v` than `w`; in particular
a vertex reachable from `r` is in a higher slot than an unreachable one. -/
theorem busca_lexicografica_em_largura (g : grafo) (r : Nat) (v : List (Option Nat))
    (hwf : bem_formado g) (h0 : ∀ x ∈ g.vertices, x.rotulo = 0 ∧ x.visitado = 0)
    (hr : r < g.vertices.length) (hv : v.length = g.vertices.length) :
    ∃ g1 v1, busca_lexicografica r g v = some (g1, v1) ∧
      (∀ (d u w : Nat), w < g.vertices.length → dentro g r d u = true →
        dentro g r d w = false →
        ∃ (i j : Nat), v1[i]? = some (some u) ∧ v1[j]? = some (some w) ∧ j < i) ∧
      (∀ (u w : Nat), w < g.vertices.length → (∃ d, dentro g r d u = true) →
        (∀ d, dentro g r d w = false) →
        ∃ (i j : Nat), v1[i]? = some (some u) ∧ v1[j]? = some (some w) ∧ j < i) := by
  obtain ⟨g1, v1, hrun, _, _, hlv, hroot, hB⟩ :=
    busca_lexicografica_condicao_largura g r v hwf h0 hr hv
  have hd : ∀ (d u w : Nat), w < g.vertices.length → dentro g r d u = true →
      dentro g r d w = false →
      ∃ (i j : Nat), v1[i]? = some (some u) ∧ v1[j]? = some (some w) ∧ j < i := by
    intro d u w hw hu hwd
    obtain ⟨i, _, hvi⟩ := lista_vertices_surj g v1 hlv u (dentro_lt g hwf r hr d u hu)
    obtain ⟨j, _, hvj⟩ := lista_vertices_surj g v1 hlv w hw
    exact ⟨i, j, hvi, hvj,
      largura_por_distancia g hwf r v1 hlv hroot hB d u w i j hu hwd hvi hvj⟩
  refine ⟨g1, v1, hrun, hd, ?_⟩
  intro u w hw hu hwd
  obtain ⟨d, hud⟩ := hu
  exact hd d u w hw hud (hwd d)

theorem busca_lexicografica_em_largura_witness :
    bem_formado leque4 ∧
    ∃ g1 v1, busca_lexicografica 1 leque4 [none, none, none, none] = some (g1, v1) ∧
      (∀ (d u w : Nat), w < leque4.vertices.length → dentro leque4 1 d u = true →
        dentro leque4 1 d w = false →
        ∃ (i j : Nat), v1[i]? = some (some u) ∧ v1[j]? = some (some w) ∧ j < i) ∧
      (∀ (u w : Nat), w < leque4.vertices.length → (∃ d, dentro leque4 1 d u = true) →
        (∀ d, dentro leque4 1 d w = false) →
        ∃ (i j : Nat), v1[i]? = some (some u) ∧ v1[j]? = some (some w) ∧ j < i) :=
  ⟨by decide, busca_lexicografica_em_largura leque4 1 [none, none, none, none]
    (by decide) (by decide) (by decide) (by decide)⟩

/-- Colouring along a path: when the vertices in the slots `i` and `j` of `v`
are adjacent exactly for neighbouring slots, `colore` from all-zero colours
returns 2 and gives the slot `j` the colour 1 for even `j` and 2 for odd `j`. -/
theorem colore_caminho_geral (g : grafo) (v : List (Option Nat)) (hwf : bem_formado g)
    (hv : lista_vertices g v) (h0 : ∀ x ∈ g.vertices, x.cor = 0)
    (hn2 : 2 ≤ g.vertices.length)
    (hadj : ∀ (i j a b : Nat), v[i]? = some (some a) → v[j]? = some (some b) →
      (adjacente g a b ↔ (i + 1 = j ∨ j + 1 = i))) :
    ∃ vs, colore g v = some ({ g with vertices := vs }, 2) ∧
      vs.length = g.vertices.length ∧
      ∀ (j u : Nat), v[j]? = some (some u) →
        (vs.map (fun x => x.cor))[u]? = some (if j % 2 = 0 then 1 else 2) := by
  have hsl : sem_lacos g := by
    intro ar har e
    have hlt := (hwf.2 ar har).1
    obtain ⟨i, _, hi⟩ := lista_vertices_surj g v hv ar.origem hlt
    have := (hadj i i ar.origem ar.origem hi hi).1 ⟨ar, har, Or.inl ⟨rfl, e.symm⟩⟩
    omega
  obtain ⟨vs, k, hrun, hA, _, hC, hD, _⟩ := colore_gulosa g v hwf (by omega) hv h0
  have hD := hD hsl
  obtain ⟨hlen, hprev, _⟩ := hA
  simp only [inv_conta] at hlen hprev hC
  have hvlen := lista_vertices_length g v hv
  have hslot : ∀ (j u : Nat), v[j]? = some (some u) →
      (vs.map (fun x => x.cor))[u]? = some (if j % 2 = 0 then 1 else 2) := by
    intro j
    induction j using Nat.strong_induction_on with
    | _ j ih =>
      intro u hu
      have hj := getElem?_lt_of_eq_some _ _ _ hu
      rw [hvlen] at hj
      obtain ⟨cu, hcu, hcu1, hcuj, _⟩ := hprev j u hj hu
      by_cases hj0 : j = 0
      · subst hj0
        rw [hcu]
        simp only [Nat.zero_mod, if_true, Option.some.injEq]
        omega
      · obtain ⟨hle, hcfree⟩ := hD j u cu (by omega) hj hu hcu (if j % 2 = 0 then 1 else 2)
          (by split_ifs <;> omega) (by split_ifs <;> omega) (by
            intro l w hl hw hadjw e
            have hlj := (hadj j l u w hu hw).1 hadjw
            rw [ih l hl w hw] at e
            simp only [Option.some.injEq] at e
            split_ifs at e <;> omega)
        obtain ⟨w, hw, _⟩ := lista_vertices_get g v hv (j - 1) (by omega)
        have hne := hcfree (j - 1) w (by omega) hw
          ((hadj j (j - 1) u w hu hw).2 (Or.inr (by omega)))
        rw [ih (j - 1) (by omega) w hw] at hne
        rw [hcu]
        simp only [Option.some.injEq, ne_eq] at hne ⊢
        split_ifs at hne hle ⊢ <;> omega
  have hmaior : ∀ i, 1 ≤ i → i ≤ g.vertices.length →
      maior_ate (vs.map (fun x => x.cor)) v i = if i = 1 then 0 else 2 := by
    intro i
    induction i with
    | zero => intro h; omega
    | succ i ih =>
      intro _ hi
      by_cases hi0 : i = 0
      · subst hi0
        simp [maior_ate]
      · obtain ⟨u, hu, _⟩ := lista_vertices_get g v hv i (by omega)
        have hs : cor_slot (vs.map (fun x => x.cor)) v i = if i % 2 = 0 then 1 else 2 := by
          simp only [cor_slot, hu, List.getD_eq_getElem?_getD, hslot i u hu, Option.getD_some]
        simp only [maior_ate, hi0, if_false, hs, ih (by omega) (by omega)]
        by_cases hi1 : i = 1
        · subst hi1
          simp
        · have : i + 1 ≠ 1 := by omega
          simp only [hi1, this, if_false]
          split_ifs <;> omega
  have hk : k = 2 := by
    rw [hC, hmaior _ (by omega) (le_refl _)]
    split_ifs <;> omega
  subst hk
  exact ⟨vs, hrun, hlen, hslot⟩

theorem caminho_lista (g : grafo) (p : List Nat) (hp : caminho_em g p) :
    lista_vertices g (p.map some) :=
  hp.1.map some

theorem caminho_getD (p : List Nat) (k a : Nat) (h : (p.map some)[k]? = some (some a)) :
    p.getD k 0 = a ∧ p[k]? = some a := by
  rw [List.getElem?_map] at h
  cases hk : p[k]? with
  | none =>
    rw [hk] at h
    cases h
  | some b =>
    rw [hk] at h
    simp only [Option.map_some', Option.some.injEq] at h
    subst h
    simp [List.getD_eq_getElem?_getD, hk]

theorem caminho_adj (g : grafo) (p : List Nat) (hp : caminho_em g p) (i j a b : Nat)
    (hi : (p.map some)[i]? = some (some a)) (hj : (p.map some)[j]? = some (some b)) :
    adjacente g a b ↔ (i + 1 = j ∨ j + 1 = i) := by
  have hlen := lista_vertices_length g _ (caminho_lista g p hp)
  have hil := getElem?_lt_of_eq_some _ _ _ hi
  have hjl := getElem?_lt_of_eq_some _ _ _ hj
  rw [hlen] at hil hjl
  have := hp.2 i hil j hjl
  rw [(caminho_getD p i a hi).1, (caminho_getD p j b hj).1] at this
  exact this

/-- On a path, the vertices at distance at most `d` from the first vertex of
the path are the first `d + 1` vertices of the path. -/
theorem dentro_caminho (g : grafo) (p : List Nat) (hp : caminho_em g p)
    (hn : 0 < g.vertices.length) :
    ∀ (d k a : Nat), (p.map some)[k]? = some (some a) →
      (dentro g (p.getD 0 0) d a = true ↔ k ≤ d) := by
  have hlv := caminho_lista g p hp
  obtain ⟨r, hr, hrl⟩ := lista_vertices_get g _ hlv 0 hn
  rw [(caminho_getD p 0 r hr).1]
  intro d
  induction d with
  | zero =>
    intro k a ha
    simp only [dentro, decide_eq_true_eq]
    constructor
    · intro e
      subst e
      have := lista_vertices_inj g _ hlv k 0 _ ha hr
      omega
    · intro hk
      have hk0 : k = 0 := by omega
      subst hk0
      rw [hr] at ha
      simp only [Option.some.injEq] at ha
      exact ha.symm
  | succ d ih =>
    intro k a ha
    have hkl := getElem?_lt_of_eq_some _ _ _ ha
    rw [lista_vertices_length g _ hlv] at hkl
    rw [dentro_succ]
    constructor
    · rintro (h | ⟨z, hz, hzd, hadj⟩)
      · have := (ih k a ha).1 h
        omega
      · obtain ⟨m, _, hm⟩ := lista_vertices_surj g _ hlv z hz
        have h1 := (ih m z hm).1 hzd
        have h2 := (caminho_adj g p hp m k z a hm ha).1 hadj
        omega
    · intro hk
      by_cases hkd : k ≤ d
      · exact Or.inl ((ih k a ha).2 hkd)
      · obtain ⟨z, hz, hzl⟩ := lista_vertices_get g _ hlv d (by omega)
        exact Or.inr ⟨z, hzl, (ih d z hz).2 (le_refl _),
          (caminho_adj g p hp d k z a hz ha).2 (Or.inl (by omega))⟩

/-- On a path, an array that holds the vertices by distance from the first
vertex of the path holds the path reversed. -/
theorem caminho_ordem (g : grafo) (p : List Nat) (hp : caminho_em g p)
    (hn : 0 < g.vertices.length) (v1 : List (Option Nat)) (hlv1 : lista_vertices g v1)
    (hord : ∀ (d u w i j : Nat), dentro g (p.getD 0 0) d u = true →
      dentro g (p.getD 0 0) d w = false →
      v1[i]? = some (some u) → v1[j]? = some (some w) → j < i) :
    v1 = p.reverse.map some := by
  have hlv := caminho_lista g p hp
  have hplen : p.length = g.vertices.length := by
    have := lista_vertices_length g _ hlv
    simpa using this
  have hv1len := lista_vertices_length g v1 hlv1
  have hdec : ∀ (k k2 a a2 i i2 : Nat), k < k2 → (p.map some)[k]? = some (some a) →
      (p.map some)[k2]? = some (some a2) → v1[i]? = some (some a) →
      v1[i2]? = some (some a2) → i2 < i := by
    intro k k2 a a2 i i2 hk ha ha2 hi hi2
    refine hord k a a2 i i2 ((dentro_caminho g p hp hn k k a ha).2 (le_refl _)) ?_ hi hi2
    cases hd : dentro g (p.getD 0 0) k a2
    · rfl
    · have := (dentro_caminho g p hp hn k k2 a2 ha2).1 hd
      omega
  have hup : ∀ (k a i : Nat), (p.map some)[k]? = some (some a) → v1[i]? = some (some a) →
      i + k < g.vertices.length := by
    intro k
    induction k with
    | zero =>
      intro a i _ hi
      have := getElem?_lt_of_eq_some _ _ _ hi
      omega
    | succ k ih =>
      intro a i ha hi
      have hkl := getElem?_lt_of_eq_some _ _ _ ha
      rw [lista_vertices_length g _ hlv] at hkl
      obtain ⟨a0, ha0, ha0l⟩ := lista_vertices_get g _ hlv k (by omega)
      obtain ⟨i0, _, hi0⟩ := lista_vertices_surj g v1 hlv1 a0 ha0l
      have h1 := ih a0 i0 ha0 hi0
      have h2 := hdec k (k + 1) a0 a i0 i (by omega) ha0 ha hi0 hi
      omega
  have hlow : ∀ (m k a i : Nat), k + m + 1 = g.vertices.length →
      (p.map some)[k]? = some (some a) → v1[i]? = some (some a) →
      g.vertices.length ≤ i + k + 1 := by
    intro m
    induction m with
    | zero =>
      intro k a i hk _ _
      omega
    | succ m ih =>
      intro k a i hk ha hi
      obtain ⟨a1, ha1, ha1l⟩ := lista_vertices_get g _ hlv (k + 1) (by omega)
      obtain ⟨i1, _, hi1⟩ := lista_vertices_surj g v1 hlv1 a1 ha1l
      have h1 := ih (k + 1) a1 i1 (by omega) ha1 hi1
      have h2 := hdec k (k + 1) a a1 i i1 (by omega) ha ha1 hi hi1
      omega
  apply List.ext_getElem?
  intro i
  by_cases hi : i < g.vertices.length
  · obtain ⟨a, ha, hal⟩ := lista_vertices_get g _ hlv (g.vertices.length - 1 - i) (by omega)
    obtain ⟨i2, hi2l, hi2⟩ := lista_vertices_surj g v1 hlv1 a hal
    have h1 := hup _ a i2 ha hi2
    have h2 := hlow i (g.vertices.length - 1 - i) a i2 (by omega) ha hi2
    have hii : i2 = i := by omega
    subst hii
    rw [hi2, List.getElem?_map, List.getElem?_reverse (by omega), hplen,
      (caminho_getD p _ a ha).2]
    rfl
  · rw [List.getElem?_eq_none (by omega), List.getElem?_eq_none (by simp; omega)]

end Lexicographic
